import Mathlib

/-! B-heap priority queue (rollbear/prio_queue): a verification development

Shallow embedding of `src/prio_queue.hpp`.

Modelling conventions
* `std::size_t` is `Nat`.  Sums and products are taken without wrap-around:
  every index the code computes is derived from an index of allocated storage.
  The two subtractions of `parent_of` are truncated (`Nat` subtraction); they
  never go below zero on the precondition `node_no > 1` of `parent_of`.
* One local of the code is not a `std::size_t`: `idx` in `grow`, declared
  `auto idx = 0`, is an `int`.  `grow`, `push_back` and the definitions built
  on them keep that index exact; this is what the code computes as long as the
  end marker of the vector is below `2^31` (`push_back_int_eq`, `push_int_eq`).
  `grow_int`, `push_back_int`, `push_key_int`, ... follow the code with the
  `int` (32 bits, two's complement; `std::size_t` 64 bits): on a full buffer of
  `2^31` slots `grow` returns the index `2^64 - 2^31 + 1` and leaves the end
  marker at `2^64 - 2^31 + 2` (`push_back_int_wrap`).  The statements about
  the size, the returned index, the stored elements and the storage invariant
  after `push_back` on vectors of every size are made on these definitions.
* Raw storage (`m_ptr`) is a function `Nat → Option T`; `none` is a slot that
  holds no live object (never constructed, or destroyed).
* An operation returns `none` when it would hit undefined behaviour: a failed
  `assert`, a read of a slot without a live object, a construction outside the
  allocated capacity, or a loop that does not finish.
* `std::move` of a key or payload is modelled as a copy of the value.
* Loops are recursive functions with a fuel argument set by the caller to a bound
  on the number of iterations.
* Exceptions are modelled in a second set of definitions (`Outcome`,
  `push_back_copy`, `Ending`, `push_key_exc`, ...): the allocator, the copy
  constructor and the move constructor of the key throw where the arguments
  say so, and the comparator throws where it returns `none`; its exception
  meets the `noexcept` of `sorts_before` and ends the program.
  `A::deallocate` leaves no state: the size it is passed is not modelled (the
  handler of `grow` passes `m_storage_size` for the new buffer).
* `reschedule_top` is not defined in `src/prio_queue.hpp`; its definitions are
  modelled from the spec and say so.
* The calls of `operator[]` are recorded by a third set of definitions
  (`sift_up_log`, `pop_log`, ...) that follow the control flow of the
  operations and list each call as the pair of the index and the end marker.
-/

namespace rollbear

namespace prio_q_internal

/-! ## `heap_heap_addressing<blocking>` -/

namespace heap_heap_addressing

/-- The constant `block_mask = block_size - 1`. -/
def block_mask (block_size : Nat) : Nat := block_size - 1

/-- The function `block_offset`: `node_no & block_mask`. -/
def block_offset (block_size node_no : Nat) : Nat :=
  node_no &&& block_mask block_size

/-- The function `block_base`: `node_no & ~block_mask`.  On naturals the
complement has no finite value; the bits `node_no & block_mask` of `node_no`
are cleared with an exclusive or, which is the bitwise difference of `node_no`
and `block_mask` for every mask (see `block_base_eq_ldiff`). -/
def block_base (block_size node_no : Nat) : Nat :=
  node_no ^^^ (node_no &&& block_mask block_size)

/-- The function `is_block_root`: `block_offset(node_no) == 1U`. -/
def is_block_root (block_size node_no : Nat) : Bool :=
  block_offset block_size node_no == 1

/-- The function `is_block_leaf`: `(node_no & (block_size >> 1)) != 0U`. -/
def is_block_leaf (block_size node_no : Nat) : Bool :=
  (node_no &&& (block_size >>> 1)) != 0

/-- The function `child_no`: `node_no & (block_mask >> 1)`.  Its assertion
`is_block_leaf(node_no)` holds at its only call, in `child_of`. -/
def child_no (block_size node_no : Nat) : Nat :=
  node_no &&& (block_mask block_size >>> 1)

/-- The function `child_of`. -/
def child_of (block_size node_no : Nat) : Nat :=
  if !is_block_leaf block_size node_no then
    node_no + block_offset block_size node_no
  else
    let base := block_base block_size node_no + 1
    base * block_size + child_no block_size node_no * block_size * 2 + 1

/-- The function `parent_of` (precondition `node_no > 1`). -/
def parent_of (block_size node_no : Nat) : Nat :=
  let node_root := block_base block_size node_no
  if !is_block_root block_size node_no then
    node_root + block_offset block_size node_no / 2
  else
    let parent_base := block_base block_size (node_root / block_size - 1)
    let child := ((node_no - block_size) / block_size - parent_base) / 2
    parent_base + block_size / 2 + child

/-- The sibling offset computed in `prio_queue::pop`:
`is_block_leaf(idx) ? block_size : 1`. -/
def sibling_offset (block_size idx : Nat) : Nat :=
  if is_block_leaf block_size idx then block_size else 1

end heap_heap_addressing

/-! ## `skip_vector<T, block_size, Allocator>` -/

/-- The data members of `skip_vector`: the buffer `m_ptr` (slot `i` is
`m_ptr i`), the end marker `m_end` and the capacity `m_storage_size`. -/
structure skip_vector (T : Type) where
  m_ptr : Nat → Option T
  m_end : Nat
  m_storage_size : Nat

namespace skip_vector

variable {T : Type}

/-- The constant `block_mask = block_size - 1` of `skip_vector`. -/
def block_mask (block_size : Nat) : Nat := block_size - 1

/-- The default constructor: `m_ptr = nullptr`, `m_end = 0`,
`m_storage_size = 0`. -/
def init : skip_vector T := ⟨fun _ => none, 0, 0⟩

/-- `A::construct(*this, ptr + i, u)` on a buffer `ptr` of `cap` slots; outside
the buffer it is undefined. -/
def construct (ptr : Nat → Option T) (cap i : Nat) (u : T) : Option (Nat → Option T) :=
  if i < cap then some (fun j => if j = i then some u else ptr j) else none

/-- `A::destroy(*this, ptr + i)`; undefined when slot `i` holds no live object. -/
def destroy (ptr : Nat → Option T) (i : Nat) : Option (Nat → Option T) :=
  match ptr i with
  | none => none
  | some _ => some (fun j => if j = i then none else ptr j)

/-- The member `size()`: returns `m_end`. -/
def size (v : skip_vector T) : Nat := v.m_end

/-- The member `empty()`: `size() == 0`. -/
def empty (v : skip_vector T) : Bool := v.size == 0

/-- Reading `operator[](idx)`: both assertions, then `m_ptr[idx]`. -/
def get (block_size : Nat) (v : skip_vector T) (idx : Nat) : Option T :=
  if idx < v.m_end ∧ idx &&& block_mask block_size ≠ 0 then v.m_ptr idx else none

/-- Assigning through `operator[](idx)`: both assertions, then `m_ptr[idx] = x`
(an assignment to a live object). -/
def set (block_size : Nat) (v : skip_vector T) (idx : Nat) (x : T) :
    Option (skip_vector T) :=
  if idx < v.m_end ∧ idx &&& block_mask block_size ≠ 0 then
    match v.m_ptr idx with
    | none => none
    | some _ => some { v with m_ptr := fun j => if j = idx then some x else v.m_ptr j }
  else none

/-- The member `back()`: `assert(!empty())`, then `m_ptr[m_end - 1]`. -/
def back (v : skip_vector T) : Option T :=
  if v.empty then none else v.m_ptr (v.m_end - 1)

/-- The loop of `move_to` (the overload for a nothrow-movable, non-POD `T`):
`for (i = 1; i < s; ++i) if (i & block_mask) { construct(ptr + i, move(b[i]));
destroy(b + i); }`.  Only the new buffer is returned: the old one is deallocated
by the caller.  The POD overload (`std::copy`) and the copying overload leave
the same values in the non-forbidden slots of the new buffer. -/
def move_to_loop (block_size : Nat) (b : Nat → Option T) (s cap : Nat) :
    Nat → Nat → (Nat → Option T) → Option (Nat → Option T)
  | 0, i, ptr => if i < s then none else some ptr
  | fuel + 1, i, ptr =>
    if i < s then
      if i &&& block_mask block_size ≠ 0 then
        match b i with
        | none => none
        | some x =>
          match construct ptr cap i x with
          | none => none
          | some ptr1 => move_to_loop block_size b s cap fuel (i + 1) ptr1
      else move_to_loop block_size b s cap fuel (i + 1) ptr
    else some ptr

/-- The member `move_to(b, s, ptr)`; `cap` is the size of the buffer `ptr`. -/
def move_to (block_size : Nat) (b : Nat → Option T) (s : Nat) (ptr : Nat → Option T)
    (cap : Nat) : Option (Nat → Option T) :=
  move_to_loop block_size b s cap s 1 ptr

/-- The member `grow(u)` when nothing throws, with the index kept exact:
allocate `desired_size` slots, construct `u` at `m_end + 1`, move the old
elements over, commit.  The local `idx` of the code is an `int` (`auto idx = 0`);
it holds `m_end + 1` exactly as long as the end marker is below `2^31 - 1`.
`grow_int` is the member with the `int`. -/
def grow (block_size : Nat) (v : skip_vector T) (u : T) : Option (skip_vector T × Nat) :=
  let desired_size := if v.m_storage_size ≠ 0 then v.m_storage_size * 2 else block_size * 16
  let ptr : Nat → Option T := fun _ => none
  match construct ptr desired_size (v.m_end + 1) u with
  | none => none
  | some ptr1 =>
    let idx := v.m_end + 1
    match (if v.m_storage_size ≠ 0 then move_to block_size v.m_ptr v.m_end ptr1 desired_size
           else some ptr1) with
    | none => none
    | some ptr2 =>
      some ({ m_ptr := ptr2, m_storage_size := desired_size, m_end := idx + 1 }, idx)

/-- The member `push_back(u)`: the new state and the returned index. -/
def push_back (block_size : Nat) (v : skip_vector T) (u : T) :
    Option (skip_vector T × Nat) :=
  if v.m_end &&& block_mask block_size ≠ 0 then
    match construct v.m_ptr v.m_storage_size v.m_end u with
    | none => none
    | some ptr => some ({ v with m_ptr := ptr, m_end := v.m_end + 1 }, v.m_end)
  else if v.m_end = v.m_storage_size then
    grow block_size v u
  else
    match construct v.m_ptr v.m_storage_size (v.m_end + 1) u with
    | none => none
    | some ptr => some ({ v with m_ptr := ptr, m_end := v.m_end + 1 + 1 }, v.m_end + 1)

/-- The member `pop_back()`: `assert(m_end)`, destroy slot `--m_end`, then
`m_end -= (m_end & block_mask) == 1`. -/
def pop_back (block_size : Nat) (v : skip_vector T) : Option (skip_vector T) :=
  if v.m_end = 0 then none
  else
    let m_end := v.m_end - 1
    match destroy v.m_ptr m_end with
    | none => none
    | some ptr =>
      some { v with
        m_ptr := ptr
        m_end := m_end - (if m_end &&& block_mask block_size = 1 then 1 else 0) }

end skip_vector

/-! ## `payload<block_size, V, Allocator>` and its specialisation for `void` -/

/-- The payload strategy that `prio_queue` inherits from: `void` is the
specialisation `payload<block_size, void, Allocator>`, which has no data;
`value` is the primary template with its member `m_storage`. -/
inductive payload (V : Type) where
  | void : payload V
  | value (m_storage : skip_vector V) : payload V

namespace payload

variable {V : Type}

/-- The member `push_back(u)` of the primary template (the specialisation for
`void` has none). -/
def push_back (block_size : Nat) : payload V → V → Option (payload V)
  | void, _ => none
  | value m_storage, u =>
    match m_storage.push_back block_size u with
    | none => none
    | some (st, _) => some (value st)

/-- The member `pop_back()`; a no-op for `void`. -/
def pop_back (block_size : Nat) : payload V → Option (payload V)
  | void => some void
  | value m_storage =>
    match m_storage.pop_back block_size with
    | none => none
    | some st => some (value st)

/-- The member `top()` of the primary template: `m_storage[1]`. -/
def top (block_size : Nat) : payload V → Option V
  | void => none
  | value m_storage => m_storage.get block_size 1

/-- The member `back()`.  For `void` it returns the constant `true`, which
carries no payload and is modelled by `none`; otherwise `m_storage.back()`. -/
def back : payload V → Option (Option V)
  | void => some none
  | value m_storage =>
    match m_storage.back with
    | none => none
    | some v => some (some v)

/-- The member `store(idx, v)`: a no-op for `void`, `m_storage[idx] = v`
otherwise. -/
def store (block_size : Nat) : payload V → Nat → Option V → Option (payload V)
  | void, _, _ => some void
  | value _, _, none => none
  | value m_storage, idx, some v =>
    match m_storage.set block_size idx v with
    | none => none
    | some st => some (value st)

/-- The member `move(from, to)`: a no-op for `void`,
`m_storage[to] = m_storage[from]` otherwise. -/
def move (block_size : Nat) : payload V → Nat → Nat → Option (payload V)
  | void, _, _ => some void
  | value m_storage, src, dst =>
    match m_storage.get block_size src with
    | none => none
    | some v =>
      match m_storage.set block_size dst v with
      | none => none
      | some st => some (value st)

end payload

end prio_q_internal

/-! ## `prio_queue<block_size, T, V, Compare, Allocator>` -/

open prio_q_internal

/-- The data of a `prio_queue`: the key storage `m_storage` and the payload base
class `P`.  The comparator base class `Compare` is the argument `compare` of
the operations. -/
structure prio_queue (T V : Type) where
  m_storage : skip_vector T
  P : payload V

namespace prio_queue

variable {T V : Type}

/-- The default-constructed queue without payloads (`V = void`). -/
def init_void : prio_queue T V := ⟨skip_vector.init, payload.void⟩

/-- The default-constructed queue with payloads of type `V`. -/
def init : prio_queue T V := ⟨skip_vector.init, payload.value skip_vector.init⟩

/-- The member `sorts_before(lv, rv)`: `c(lv, rv)` for the comparator `c`. -/
def sorts_before (compare : T → T → Bool) (lv rv : T) : Bool := compare lv rv

/-- The two statements that end both sift-up loops:
`m_storage[idx] = move(tmp); P::store(idx, move(val));`. -/
def place (block_size : Nat) (q : prio_queue T V) (idx : Nat) (tmp : T) (val : Option V) :
    Option (prio_queue T V) :=
  match q.m_storage.set block_size idx tmp with
  | none => none
  | some st =>
    match q.P.store block_size idx val with
    | none => none
    | some pl => some ⟨st, pl⟩

/-- The sift-up loop, as written in `push_key` (there on `hole_idx`, `tmp`,
`val`) and again in `pop` (there on `idx`, `last`, `last_val`), followed by the
two statements of `place`:
`while (hole_idx != 1) { parent = parent_of(hole_idx); p = m_storage[parent];
if (!sorts_before(tmp, p)) break; m_storage[hole_idx] = move(p);
P::move(parent, hole_idx); hole_idx = parent; }`. -/
def sift_up (block_size : Nat) (compare : T → T → Bool) :
    Nat → prio_queue T V → Nat → T → Option V → Option (prio_queue T V)
  | 0, q, hole_idx, tmp, val =>
    if hole_idx ≠ 1 then none else place block_size q hole_idx tmp val
  | fuel + 1, q, hole_idx, tmp, val =>
    if hole_idx ≠ 1 then
      let parent := heap_heap_addressing.parent_of block_size hole_idx
      match q.m_storage.get block_size parent with
      | none => none
      | some p =>
        if !sorts_before compare tmp p then place block_size q hole_idx tmp val
        else
          match q.m_storage.set block_size hole_idx p with
          | none => none
          | some st =>
            match q.P.move block_size parent hole_idx with
            | none => none
            | some pl => sift_up block_size compare fuel ⟨st, pl⟩ parent tmp val
    else place block_size q hole_idx tmp val

/-- The member `push_key(key)`. -/
def push_key (block_size : Nat) (compare : T → T → Bool) (q : prio_queue T V) (key : T) :
    Option (prio_queue T V) :=
  match q.m_storage.push_back block_size key with
  | none => none
  | some (st, hole_idx) =>
    match st.back with
    | none => none
    | some tmp =>
      match q.P.back with
      | none => none
      | some val => sift_up block_size compare hole_idx ⟨st, q.P⟩ hole_idx tmp val

/-- The member `push(u)` of a queue without payloads; the overload exists only
for `V = void`. -/
def push_void (block_size : Nat) (compare : T → T → Bool) (q : prio_queue T V) (u : T) :
    Option (prio_queue T V) :=
  match q.P with
  | payload.void => push_key block_size compare q u
  | payload.value _ => none

/-- The member `push(key, value)` of a queue with payloads:
`P::push_back(value); push_key(key);`. -/
def push (block_size : Nat) (compare : T → T → Bool) (q : prio_queue T V) (key : T)
    (value : V) : Option (prio_queue T V) :=
  match q.P.push_back block_size value with
  | none => none
  | some pl => push_key block_size compare ⟨q.m_storage, pl⟩ key

/-- The `for (;;)` loop of `pop` that moves the hole from `idx` down to the
bottom; returns the queue and the final `idx`. -/
def sift_down (block_size : Nat) (compare : T → T → Bool) (last_idx : Nat) :
    Nat → prio_queue T V → Nat → Option (prio_queue T V × Nat)
  | 0, q, idx =>
    if heap_heap_addressing.child_of block_size idx > last_idx then some (q, idx) else none
  | fuel + 1, q, idx =>
    let lc := heap_heap_addressing.child_of block_size idx
    if lc > last_idx then some (q, idx)
    else
      let sibling_offset :=
        if heap_heap_addressing.is_block_leaf block_size idx then block_size else 1
      let rc := lc + sibling_offset
      let i : Option Bool :=
        if rc < last_idx then
          match q.m_storage.get block_size lc, q.m_storage.get block_size rc with
          | some a, some b => some (!sorts_before compare a b)
          | _, _ => none
        else some false
      match i with
      | none => none
      | some i =>
        let next := if i then rc else lc
        match q.m_storage.get block_size next with
        | none => none
        | some x =>
          match q.m_storage.set block_size idx x with
          | none => none
          | some st =>
            match q.P.move block_size next idx with
            | none => none
            | some pl => sift_down block_size compare last_idx fuel ⟨st, pl⟩ next

/-- The member `empty()`: `m_storage.empty()`. -/
def empty (q : prio_queue T V) : Bool := q.m_storage.empty

/-- The member `size()`:
`m_storage.size() - (m_storage.size() + block_size - 1) / block_size`. -/
def size (block_size : Nat) (q : prio_queue T V) : Nat :=
  q.m_storage.size - (q.m_storage.size + block_size - 1) / block_size

/-- The member `pop()`. -/
def pop (block_size : Nat) (compare : T → T → Bool) (q : prio_queue T V) :
    Option (prio_queue T V) :=
  if q.empty then none
  else
    let last_idx := q.m_storage.size - 1
    match sift_down block_size compare last_idx last_idx q 1 with
    | none => none
    | some (q1, idx) =>
      let q2 : Option (prio_queue T V) :=
        if idx ≠ last_idx then
          match q1.m_storage.back, q1.P.back with
          | some last, some last_val => sift_up block_size compare idx q1 idx last last_val
          | _, _ => none
        else some q1
      match q2 with
      | none => none
      | some q2 =>
        match q2.m_storage.pop_back block_size, q2.P.pop_back block_size with
        | some st, some pl => some ⟨st, pl⟩
        | _, _ => none

/-- The member `top()` of a queue without payloads: `assert(!empty())`, then
`m_storage[1]`. -/
def top_void (block_size : Nat) (q : prio_queue T V) : Option T :=
  if q.empty then none else q.m_storage.get block_size 1

/-- The member `top()` of a queue with payloads: `assert(!empty())`, then the
pair `{ m_storage[1], P::top() }`. -/
def top (block_size : Nat) (q : prio_queue T V) : Option (T × V) :=
  if q.empty then none
  else
    match q.m_storage.get block_size 1, q.P.top block_size with
    | some k, some v => some (k, v)
    | _, _ => none

end prio_queue

/-! ## Predicates used to state the properties -/

namespace prio_q_internal

namespace heap_heap_addressing

/-- A block size accepted by the claims: a power of two, at least 2. -/
def IsBlockSize (B : Nat) : Prop := 2 ≤ B ∧ ∃ k, B = 2 ^ k

/-- A valid (non-forbidden) logical index: at least 1 and not a multiple of the
block size, written as in the source with the mask. -/
def ValidIndex (B n : Nat) : Prop := 1 ≤ n ∧ n &&& (B - 1) ≠ 0

/-- The block size `B` is `2 ^ (k + 1)` and `H` is its half. -/
def Pow2 (B H : Nat) : Prop := ∃ k, B = 2 ^ (k + 1) ∧ H = 2 ^ k

end heap_heap_addressing

namespace skip_vector

variable {T : Type}

/-- The storage invariant of a `skip_vector`: the end marker is within the
capacity and never at block offset 1, the capacity is 0 or `16·B·2^k`, and
every non-forbidden slot below the end marker holds a live object. -/
structure Inv (B : Nat) (v : skip_vector T) : Prop where
  end_le : v.m_end ≤ v.m_storage_size
  cap : v.m_storage_size = 0 ∨ ∃ k, v.m_storage_size = 16 * B * 2 ^ k
  end_mod : v.m_end % B ≠ 1
  live : ∀ i, i < v.m_end → i % B ≠ 0 → ∃ x, v.m_ptr i = some x

/-- The states of a `skip_vector` reachable from the empty vector by `push_back`
and `pop_back` calls that stay within defined behaviour. -/
inductive Reachable (B : Nat) : skip_vector T → Prop where
  | init : Reachable B init
  | push_back {v v1 : skip_vector T} {x : T} {i : Nat} :
      Reachable B v → push_back B v x = some (v1, i) → Reachable B v1
  | pop_back {v v1 : skip_vector T} :
      Reachable B v → pop_back B v = some v1 → Reachable B v1

/-- The index that `push_back` uses when the end marker is `e`: `e` itself, or
`e + 1` when `e` is the forbidden slot of a block. -/
def next_index (B e : Nat) : Nat := if e % B ≠ 0 then e else e + 1

/-- The index announced for the `k`-th `push_back` on an empty vector. -/
def nth_index (B k : Nat) : Nat := k + (k - 1) / (B - 1)

/-- Pushes the elements of a list in order, dropping the returned indices. -/
def push_back_list (B : Nat) : List T → skip_vector T → Option (skip_vector T)
  | [], v => some v
  | x :: xs, v =>
    match push_back B v x with
    | none => none
    | some (v1, _) => push_back_list B xs v1

end skip_vector

end prio_q_internal

/-- The default comparator `std::less<T>` on unsigned integers. -/
def less_nat (a b : Nat) : Bool := decide (a < b)

/-- A strict weak ordering, as `Compare` is required to be: irreflexive,
transitive, and with a transitive incomparability relation. -/
structure StrictWeakOrder {T : Type} (compare : T → T → Bool) : Prop where
  irrefl : ∀ a, compare a a = false
  trans : ∀ a b c, compare a b = true → compare b c = true → compare a c = true
  incomp_trans : ∀ a b c, compare a b = false → compare b a = false →
    compare b c = false → compare c b = false → compare a c = false ∧ compare c a = false

namespace prio_queue

open heap_heap_addressing

variable {T V : Type}

/-- The storage invariant of a queue: the key storage satisfies the
`skip_vector` invariant, and so does the payload storage, when there is one,
with the same end marker. -/
def Shape (B : Nat) (q : prio_queue T V) : Prop :=
  skip_vector.Inv B q.m_storage ∧
    match q.P with
    | payload.void => True
    | payload.value st => skip_vector.Inv B st ∧ st.m_end = q.m_storage.m_end

/-- Heap order (I3): for every occupied index `n > 1`, the key there does not
sort before the key at `parent_of(n)`. -/
def HeapOrdered (B : Nat) (compare : T → T → Bool) (q : prio_queue T V) : Prop :=
  ∀ n a b, 1 < n → q.m_storage.get B n = some a →
    q.m_storage.get B (parent_of B n) = some b → compare a b = false

/-- The invariants of a queue between operations. -/
def Inv (B : Nat) (compare : T → T → Bool) (q : prio_queue T V) : Prop :=
  Shape B q ∧ HeapOrdered B compare q

/-- The states reachable from a default-constructed queue (with or without
payloads) by `push` and `pop` calls that stay within defined behaviour (in
particular `pop` only on a non-empty queue), with the number of pushes and of
pops made. -/
inductive ReachableN (B : Nat) (compare : T → T → Bool) :
    prio_queue T V → Nat → Nat → Prop where
  | init_void : ReachableN B compare init_void 0 0
  | init : ReachableN B compare init 0 0
  | push_void {q q1 : prio_queue T V} {a b : Nat} {k : T} :
      ReachableN B compare q a b → push_void B compare q k = some q1 →
      ReachableN B compare q1 (a + 1) b
  | push {q q1 : prio_queue T V} {a b : Nat} {k : T} {v : V} :
      ReachableN B compare q a b → push B compare q k v = some q1 →
      ReachableN B compare q1 (a + 1) b
  | pop {q q1 : prio_queue T V} {a b : Nat} :
      ReachableN B compare q a b → pop B compare q = some q1 →
      ReachableN B compare q1 a (b + 1)

/-- Reachable after some number of pushes and pops. -/
def Reachable (B : Nat) (compare : T → T → Bool) (q : prio_queue T V) : Prop :=
  ∃ a b, ReachableN B compare q a b

/-- The payload in slot `i` of the payload storage; `none` when there is no
payload storage. -/
def payload_slot (pl : payload V) (i : Nat) : Option V :=
  match pl with
  | payload.void => none
  | payload.value st => st.m_ptr i

/-- The key and the payload stored at logical index `i`; the payload is `none`
in a queue without payloads. -/
def entry (q : prio_queue T V) (i : Nat) : Option (T × Option V) :=
  match q.m_storage.m_ptr i with
  | none => none
  | some k => some (k, payload_slot q.P i)

/-- The non-forbidden indices below `e`, in increasing order. -/
def slots (B e : Nat) : List Nat := (List.range e).filter (fun i => i % B != 0)

/-- Pushes the keys of a list, in order, into a queue without payloads. -/
def push_list (B : Nat) (compare : T → T → Bool) : List T → prio_queue T V →
    Option (prio_queue T V)
  | [], q => some q
  | k :: ks, q =>
    match push_void B compare q k with
    | none => none
    | some q1 => push_list B compare ks q1

/-- Reads `top()` and calls `pop()` until `empty()`, on a queue without
payloads; returns the keys read, in order. -/
def drain (B : Nat) (compare : T → T → Bool) : Nat → prio_queue T V → Option (List T)
  | 0, q => if q.empty then some [] else none
  | fuel + 1, q =>
    if q.empty then some []
    else
      match top_void B q, pop B compare q with
      | some k, some q1 =>
        match drain B compare fuel q1 with
        | some rest => some (k :: rest)
        | none => none
      | _, _ => none

/-- The queue `q` with end marker `e` stores the entry `f i` at every
non-forbidden index `i < e`. -/
def Rep (B : Nat) (q : prio_queue T V) (e : Nat) (f : Nat → T × Option V) : Prop :=
  Shape B q ∧ q.m_storage.m_end = e ∧ ∀ i, i % B ≠ 0 → i < e → q.entry i = some (f i)

/-- The value `val` is what `P::back()` can return for the payload `pl`. -/
def Compat (pl : payload V) (val : Option V) : Prop :=
  match pl, val with
  | payload.void, none => True
  | payload.value _, some _ => True
  | _, _ => False

/-- Heap order of the entries `f` at the non-forbidden indices below `d`. -/
def HeapOrd (B : Nat) (compare : T → T → Bool) (d : Nat) (f : Nat → T × Option V) : Prop :=
  ∀ n, n % B ≠ 0 → 1 < n → n < d → compare (f n).1 (f (parent_of B n)).1 = false

/-- The invariant of the sift-up loop with the hole at `h` and the key `t` in
hand: the entries below `d` are in heap order except at the hole, the children
of the hole do not sort before `t`, nor before the parent of the hole. -/
def SiftUpInv (B : Nat) (compare : T → T → Bool) (d : Nat) (f : Nat → T × Option V)
    (h : Nat) (t : T) : Prop :=
  (∀ n, n % B ≠ 0 → 1 < n → n < d → n ≠ h → parent_of B n ≠ h →
    compare (f n).1 (f (parent_of B n)).1 = false) ∧
  (∀ n, n % B ≠ 0 → 1 < n → n < d → parent_of B n = h → compare (f n).1 t = false) ∧
  (h ≠ 1 → ∀ n, n % B ≠ 0 → 1 < n → n < d → parent_of B n = h →
    compare (f n).1 (f (parent_of B h)).1 = false)

/-- The invariant of the sift-down loop of `pop` with the hole at `h` and the
last index `last`: heap order holds away from the hole, except possibly between
the last element and a parent that the hole has passed, and the children of the
hole do not sort before the parent of the hole. -/
def SiftDownInv (B : Nat) (compare : T → T → Bool) (last : Nat) (f : Nat → T × Option V)
    (h : Nat) : Prop :=
  (∀ n, n % B ≠ 0 → 1 < n → n ≤ last → n ≠ h → parent_of B n ≠ h →
    (n = last → h < parent_of B n) →
    compare (f n).1 (f (parent_of B n)).1 = false) ∧
  (h ≠ 1 → ∀ n, n % B ≠ 0 → 1 < n → n ≤ last → parent_of B n = h →
    compare (f n).1 (f (parent_of B h)).1 = false)

end prio_queue

end rollbear

namespace rollbear

namespace prio_q_internal

namespace skip_vector

variable {T : Type}

end skip_vector

end prio_q_internal

end rollbear

namespace rollbear

namespace prio_queue

open prio_q_internal

variable {T V : Type}

/-- The child chosen by one iteration of the `for (;;)` loop of `pop` when
`lc <= last_idx`: `rc = lc + sibling_offset;
i = rc < last_idx && !sorts_before(m_storage[lc], m_storage[rc]);
next = i ? rc : lc;`. -/
def pop_next (block_size : Nat) (compare : T → T → Bool) (last_idx : Nat)
    (q : prio_queue T V) (idx : Nat) : Option Nat :=
  let lc := heap_heap_addressing.child_of block_size idx
  let sibling_offset :=
    if heap_heap_addressing.is_block_leaf block_size idx then block_size else 1
  let rc := lc + sibling_offset
  let i : Option Bool :=
    if rc < last_idx then
      match q.m_storage.get block_size lc, q.m_storage.get block_size rc with
      | some a, some b => some (!sorts_before compare a b)
      | _, _ => none
    else some false
  match i with
  | none => none
  | some i => some (if i then rc else lc)

/-- One iteration of the `for (;;)` loop of `pop` on the hole `idx`, when
`lc <= last_idx`: the statements `m_storage[idx] = move(m_storage[next]);
P::move(next, idx);` for the chosen child `next`. -/
def pop_step (block_size : Nat) (compare : T → T → Bool) (last_idx : Nat)
    (q : prio_queue T V) (idx : Nat) : Option (prio_queue T V × Nat) :=
  match pop_next block_size compare last_idx q idx with
  | none => none
  | some next =>
    match q.m_storage.get block_size next with
    | none => none
    | some x =>
      match q.m_storage.set block_size idx x with
      | none => none
      | some st =>
        match q.P.move block_size next idx with
        | none => none
        | some pl => some (⟨st, pl⟩, next)

end prio_queue

end rollbear

namespace rollbear

namespace prio_q_internal

namespace payload

variable {V : Type}

end payload

end prio_q_internal

namespace prio_queue

open prio_q_internal

variable {T V W : Type}

end prio_queue

end rollbear

namespace rollbear

namespace prio_q_internal

/-! ## Exceptions

The operations above describe the calls in which nothing throws.  The
definitions below follow the same code with the places where user code or the
allocator may throw made explicit. -/

/-- How a call that may throw ends: it returns `a`, it is left by an exception
with the state `s` behind, or its behaviour is undefined. -/
inductive Outcome (α σ : Type) where
  | returned (a : α) : Outcome α σ
  | threw (s : σ) : Outcome α σ
  | undefined : Outcome α σ

/-- How a call of `push` ends: it returns `a`, it is left by an exception with
the state `s` behind, the program is ended by `std::terminate` (an exception
has reached the boundary of a `noexcept` function), or its behaviour is
undefined. -/
inductive Ending (α σ : Type) where
  | returned (a : α) : Ending α σ
  | threw (s : σ) : Ending α σ
  | terminated : Ending α σ
  | undefined : Ending α σ

namespace Ending

variable {α σ : Type}

/-- A call that cannot throw, as an ending. -/
def of_option : Option α → Ending α σ
  | some a => returned a
  | none => undefined

end Ending

namespace skip_vector

variable {T : Type}

/-- The first loop of `move_to` (the overload for a `T` whose move constructor
may throw): `for (i = 1; i != s; ++i) if (i & block_mask)
construct(ptr + i, b[i]);`.  The copy constructor throws when it copies the
element at index `fail`.  The list collects the indices constructed in the new
buffer.  A return gives the new buffer and that list; an exception leaves the
new buffer, the value of `i` and the list. -/
def copy_loop (block_size : Nat) (b : Nat → Option T) (s cap : Nat) (fail : Option Nat) :
    Nat → Nat → (Nat → Option T) → List Nat →
      Outcome ((Nat → Option T) × List Nat) ((Nat → Option T) × Nat × List Nat)
  | 0, i, ptr, made => if i ≠ s then Outcome.undefined else Outcome.returned (ptr, made)
  | fuel + 1, i, ptr, made =>
    if i ≠ s then
      if i &&& block_mask block_size ≠ 0 then
        match b i with
        | none => Outcome.undefined
        | some x =>
          if fail = some i then Outcome.threw (ptr, i, made)
          else
            match construct ptr cap i x with
            | none => Outcome.undefined
            | some ptr1 => copy_loop block_size b s cap fail fuel (i + 1) ptr1 (made ++ [i])
      else copy_loop block_size b s cap fail fuel (i + 1) ptr made
    else Outcome.returned (ptr, made)

/-- The loop `while (i--) if (i & block_mask) destroy(buf + i);`, which
`move_to` runs on the old buffer after the copies and on the new buffer in its
handler.  The list collects the indices destroyed. -/
def destroy_down (block_size : Nat) :
    Nat → (Nat → Option T) → List Nat → Option ((Nat → Option T) × List Nat)
  | 0, buf, gone => some (buf, gone)
  | i + 1, buf, gone =>
    if i &&& block_mask block_size ≠ 0 then
      match destroy buf i with
      | none => none
      | some buf1 => destroy_down block_size i buf1 (gone ++ [i])
    else destroy_down block_size i buf gone

/-- The member `move_to(b, s, ptr)`, the overload for a `T` whose move
constructor may throw; `cap` is the size of the buffer `ptr`.  A return gives
the new buffer, the old buffer and the indices copied; an exception, which the
handler rethrows, leaves the new buffer, the indices constructed in it and the
indices the handler destroyed. -/
def move_to_copy (block_size : Nat) (b : Nat → Option T) (s : Nat) (ptr : Nat → Option T)
    (cap : Nat) (fail : Option Nat) :
    Outcome ((Nat → Option T) × (Nat → Option T) × List Nat)
      ((Nat → Option T) × List Nat × List Nat) :=
  match copy_loop block_size b s cap fail s 1 ptr [] with
  | Outcome.undefined => Outcome.undefined
  | Outcome.returned (ptr1, made) =>
    match destroy_down block_size s b [] with
    | none => Outcome.undefined
    | some (b1, _) => Outcome.returned (ptr1, b1, made)
  | Outcome.threw (ptr1, i, made) =>
    match destroy_down block_size i ptr1 [] with
    | none => Outcome.undefined
    | some (ptr2, gone) => Outcome.threw (ptr2, made, gone)

/-- What `grow` leaves behind when it rethrows: the vector, the new buffer as
it is when it is deallocated, and the indices of the new buffer at which an
object was constructed and at which one was destroyed, in order. -/
structure grow_failure (T : Type) where
  v : skip_vector T
  ptr : Nat → Option T
  constructed : List Nat
  destroyed : List Nat

/-- The member `grow(u)` for a `T` whose move constructor may throw, with the
index kept exact (`grow_copy_int` is the member with the `int` that `idx` is).
`alloc_throws` says that `A::allocate` throws; `fail` is the index at which the
copy constructor throws.  A return gives the new state, the index of the new
element and the indices copied. -/
def grow_copy (block_size : Nat) (v : skip_vector T) (u : T) (alloc_throws : Bool)
    (fail : Option Nat) : Outcome (skip_vector T × Nat × List Nat) (grow_failure T) :=
  let desired_size := if v.m_storage_size ≠ 0 then v.m_storage_size * 2 else block_size * 16
  if alloc_throws then Outcome.threw ⟨v, fun _ => none, [], []⟩
  else
    let ptr : Nat → Option T := fun _ => none
    match construct ptr desired_size (v.m_end + 1) u with
    | none => Outcome.undefined
    | some ptr1 =>
      let idx := v.m_end + 1
      if v.m_storage_size ≠ 0 then
        match move_to_copy block_size v.m_ptr v.m_end ptr1 desired_size fail with
        | Outcome.undefined => Outcome.undefined
        | Outcome.returned (ptr2, _, made) =>
          Outcome.returned
            ({ m_ptr := ptr2, m_storage_size := desired_size, m_end := idx + 1 }, idx, made)
        | Outcome.threw (ptr2, made, gone) =>
          if idx ≠ 0 then
            match destroy ptr2 idx with
            | none => Outcome.undefined
            | some ptr3 => Outcome.threw ⟨v, ptr3, idx :: made, gone ++ [idx]⟩
          else Outcome.threw ⟨v, ptr2, idx :: made, gone⟩
      else
        Outcome.returned
          ({ m_ptr := ptr1, m_storage_size := desired_size, m_end := idx + 1 }, idx, [])

/-- The member `push_back(u)` for a `T` whose move constructor may throw: the
new state, the returned index and the indices of the elements copied to a new
buffer. -/
def push_back_copy (block_size : Nat) (v : skip_vector T) (u : T) (alloc_throws : Bool)
    (fail : Option Nat) : Outcome (skip_vector T × Nat × List Nat) (grow_failure T) :=
  if v.m_end &&& block_mask block_size ≠ 0 then
    match construct v.m_ptr v.m_storage_size v.m_end u with
    | none => Outcome.undefined
    | some ptr => Outcome.returned ({ v with m_ptr := ptr, m_end := v.m_end + 1 }, v.m_end, [])
  else if v.m_end = v.m_storage_size then
    grow_copy block_size v u alloc_throws fail
  else
    match construct v.m_ptr v.m_storage_size (v.m_end + 1) u with
    | none => Outcome.undefined
    | some ptr =>
      Outcome.returned ({ v with m_ptr := ptr, m_end := v.m_end + 1 + 1 }, v.m_end + 1, [])

end skip_vector

end prio_q_internal

end rollbear

namespace rollbear

namespace prio_q_internal

namespace payload

variable {V : Type}

/-- The member `push_back(u)` of the primary template when the payload storage
may throw while it grows (the allocator, or the copy of the payload at index
`fail`); an exception leaves the payload storage behind. -/
def push_back_copy (block_size : Nat) :
    payload V → V → Bool → Option Nat → Outcome (payload V) (payload V)
  | void, _, _, _ => Outcome.undefined
  | value m_storage, u, alloc_throws, fail =>
    match m_storage.push_back_copy block_size u alloc_throws fail with
    | Outcome.undefined => Outcome.undefined
    | Outcome.threw g => Outcome.threw (value g.v)
    | Outcome.returned (st, _, _) => Outcome.returned (value st)

end payload

end prio_q_internal

namespace prio_queue

open prio_q_internal

variable {T V : Type}

/-- A comparator that never throws, as a comparator that may: `compare lv rv`
is `none` when the comparator throws. -/
def never_throws (compare : T → T → Bool) : T → T → Option Bool :=
  fun lv rv => some (compare lv rv)

/-- The sift-up loop of `push_key`, followed by the two statements of `place`,
for a comparator that may throw.  The comparator is called through
`sorts_before`, which is declared `noexcept`: an exception of the comparator
ends the program by `std::terminate`. -/
def sift_up_exc (block_size : Nat) (compare : T → T → Option Bool) :
    Nat → prio_queue T V → Nat → T → Option V → Ending (prio_queue T V) (prio_queue T V)
  | 0, q, hole_idx, tmp, val =>
    if hole_idx ≠ 1 then Ending.undefined
    else Ending.of_option (place block_size q hole_idx tmp val)
  | fuel + 1, q, hole_idx, tmp, val =>
    if hole_idx ≠ 1 then
      let parent := heap_heap_addressing.parent_of block_size hole_idx
      match q.m_storage.get block_size parent with
      | none => Ending.undefined
      | some p =>
        match compare tmp p with
        | none => Ending.terminated
        | some c =>
          if !c then Ending.of_option (place block_size q hole_idx tmp val)
          else
            match q.m_storage.set block_size hole_idx p with
            | none => Ending.undefined
            | some st =>
              match q.P.move block_size parent hole_idx with
              | none => Ending.undefined
              | some pl => sift_up_exc block_size compare fuel ⟨st, pl⟩ parent tmp val
    else Ending.of_option (place block_size q hole_idx tmp val)

/-- The member `push_key(key)` for a key type whose move constructor may throw
and a comparator that may throw.  `m_storage.push_back(key)` throws as
`alloc_throws` and `fail` say; `move_throws` says that the move constructor
throws in `auto tmp = std::move(m_storage.back())`.  Nothing is caught, so an
exception leaves the queue as it is at the throwing statement. -/
def push_key_exc (block_size : Nat) (compare : T → T → Option Bool) (q : prio_queue T V)
    (key : T) (alloc_throws : Bool) (fail : Option Nat) (move_throws : Bool) :
    Ending (prio_queue T V) (prio_queue T V) :=
  match q.m_storage.push_back_copy block_size key alloc_throws fail with
  | Outcome.undefined => Ending.undefined
  | Outcome.threw g => Ending.threw ⟨g.v, q.P⟩
  | Outcome.returned (st, hole_idx, _) =>
    match st.back with
    | none => Ending.undefined
    | some tmp =>
      if move_throws then Ending.threw ⟨st, q.P⟩
      else
        match q.P.back with
        | none => Ending.undefined
        | some val => sift_up_exc block_size compare hole_idx ⟨st, q.P⟩ hole_idx tmp val

end prio_queue

end rollbear

namespace rollbear

namespace prio_q_internal

namespace payload

variable {V : Type}

/-- Modelled from the spec: the payload that `reschedule_top` keeps in hand
for the new key, "the payload originally at slot 1"; a queue without payloads
has none. -/
def take_top (block_size : Nat) : payload V → Option (Option V)
  | void => some none
  | value m_storage =>
    match m_storage.get block_size 1 with
    | none => none
    | some v => some (some v)

end payload

end prio_q_internal

namespace prio_queue

open prio_q_internal

variable {T V : Type}

/-- Modelled from the spec: the sift-down of `reschedule_top(new_key)`, which
`self_test.cpp` calls and `prio_queue.hpp` does not define.  The spec words it
as the loop of `pop` "with `last = end - 1` (the last occupied index) and using
new_key as the settling key": while the hole has a child within `[1, last]`,
with `lc = child(h)` and `rc = lc + sibling_offset(h)`, the child `next` is `rc`
if `rc` exists and `!compare(A[lc], A[rc])`, and `lc` otherwise; the loop stops
when `next` does not sort strictly before `new_key`; otherwise `A[next]` and its
payload move up into the hole and the hole moves to `next`.  The last occupied
index counts as a child (`rc <= last`), as the tests "reschedule top of 3
elements right to 2nd" and "reschedule top of 2 elements to last" require.
Returns the queue and the final hole. -/
def reschedule_down (block_size : Nat) (compare : T → T → Bool) (last_idx : Nat)
    (new_key : T) : Nat → prio_queue T V → Nat → Option (prio_queue T V × Nat)
  | 0, q, idx =>
    if heap_heap_addressing.child_of block_size idx > last_idx then some (q, idx) else none
  | fuel + 1, q, idx =>
    let lc := heap_heap_addressing.child_of block_size idx
    if lc > last_idx then some (q, idx)
    else
      let rc := lc + heap_heap_addressing.sibling_offset block_size idx
      let i : Option Bool :=
        if rc ≤ last_idx then
          match q.m_storage.get block_size lc, q.m_storage.get block_size rc with
          | some a, some b => some (!sorts_before compare a b)
          | _, _ => none
        else some false
      match i with
      | none => none
      | some i =>
        let next := if i then rc else lc
        match q.m_storage.get block_size next with
        | none => none
        | some x =>
          if !sorts_before compare x new_key then some (q, idx)
          else
            match q.m_storage.set block_size idx x with
            | none => none
            | some st =>
              match q.P.move block_size next idx with
              | none => none
              | some pl =>
                reschedule_down block_size compare last_idx new_key fuel ⟨st, pl⟩ next

/-- Modelled from the spec: `reschedule_top(new_key)`.  Precondition: the queue
is not empty.  The payload at slot 1 is taken in hand, the hole sifts down from
slot 1 as in `reschedule_down`, and `new_key` and that payload are stored at the
final hole; a queue with one element just has its key overwritten. -/
def reschedule_top (block_size : Nat) (compare : T → T → Bool) (q : prio_queue T V)
    (new_key : T) : Option (prio_queue T V) :=
  if q.empty then none
  else
    let last_idx := q.m_storage.size - 1
    match q.P.take_top block_size with
    | none => none
    | some val =>
      match reschedule_down block_size compare last_idx new_key last_idx q 1 with
      | none => none
      | some (q1, idx) => place block_size q1 idx new_key val

end prio_queue

end rollbear

namespace rollbear

namespace prio_q_internal

namespace heap_heap_addressing

/-- The number of steps of the `parent_of` chain from `n` up to index 1 whose
two endpoints lie in different blocks (their `block_base` differs); `fuel`
bounds the number of steps followed, and `n` steps always suffice. -/
def block_crossings (B : Nat) : Nat → Nat → Nat
  | 0, _ => 0
  | fuel + 1, n =>
    if n ≤ 1 then 0
    else
      (if block_base B (parent_of B n) ≠ block_base B n then 1 else 0)
        + block_crossings B fuel (parent_of B n)

end heap_heap_addressing

end prio_q_internal

end rollbear

namespace rollbear

namespace prio_q_internal

namespace payload

variable {V : Type}

end payload

end prio_q_internal

namespace prio_queue

open prio_q_internal

variable {T V : Type}

end prio_queue

end rollbear

namespace rollbear

namespace prio_q_internal

/-! ## The `int` in `grow`

`grow` declares its local `idx` by `auto idx = 0`, which makes it an `int`:
`idx = m_end + 1` converts a `std::size_t` to `int`, `m_end = idx + 1` adds in
`int` and converts back, and `return idx` converts back.  The definitions
`grow`, `push_back` and those built on them keep the index exact.  The
definitions below follow the same code with `idx` an `int` of 32 bits and
`std::size_t` of 64 bits; the two sets agree on a vector whose end marker is
below `2^31` (`push_back_int_eq`). -/

namespace skip_vector

variable {T : Type}

/-- The conversion of a `std::size_t` value to `int`, as in `idx = m_end + 1`:
the value is reduced modulo `2^32` into the range `-2^31 .. 2^31 - 1`. -/
def to_int (n : Nat) : Int :=
  if n % 2 ^ 32 < 2 ^ 31 then ((n % 2 ^ 32 : Nat) : Int)
  else ((n % 2 ^ 32 : Nat) : Int) - 2 ^ 32

/-- The conversion of an `int` to `std::size_t`, as in `m_end = idx + 1` and
`return idx`: the value modulo `2^64`. -/
def of_int (i : Int) : Nat := (i % 2 ^ 64).toNat

/-- The member `grow(u)` when nothing throws, with `idx` an `int` as declared:
allocate `desired_size` slots, construct `u` at `m_end + 1`, `idx = m_end + 1`,
move the old elements over, commit with `m_end = idx + 1`, return `idx`.  The
addition `idx + 1` is made in `int`; it is undefined when `idx` is `2^31 - 1`. -/
def grow_int (block_size : Nat) (v : skip_vector T) (u : T) : Option (skip_vector T × Nat) :=
  let desired_size := if v.m_storage_size ≠ 0 then v.m_storage_size * 2 else block_size * 16
  let ptr : Nat → Option T := fun _ => none
  match construct ptr desired_size (v.m_end + 1) u with
  | none => none
  | some ptr1 =>
    let idx : Int := to_int (v.m_end + 1)
    match (if v.m_storage_size ≠ 0 then move_to block_size v.m_ptr v.m_end ptr1 desired_size
           else some ptr1) with
    | none => none
    | some ptr2 =>
      if idx = 2 ^ 31 - 1 then none
      else
        some ({ m_ptr := ptr2, m_storage_size := desired_size, m_end := of_int (idx + 1) },
          of_int idx)

/-- The member `push_back(u)`, calling `grow` with its `int`: the new state and
the returned index. -/
def push_back_int (block_size : Nat) (v : skip_vector T) (u : T) :
    Option (skip_vector T × Nat) :=
  if v.m_end &&& block_mask block_size ≠ 0 then
    match construct v.m_ptr v.m_storage_size v.m_end u with
    | none => none
    | some ptr => some ({ v with m_ptr := ptr, m_end := v.m_end + 1 }, v.m_end)
  else if v.m_end = v.m_storage_size then
    grow_int block_size v u
  else
    match construct v.m_ptr v.m_storage_size (v.m_end + 1) u with
    | none => none
    | some ptr => some ({ v with m_ptr := ptr, m_end := v.m_end + 1 + 1 }, v.m_end + 1)

/-- Pushes the elements of a list in order with `push_back_int`, dropping the
returned indices. -/
def push_back_list_int (B : Nat) : List T → skip_vector T → Option (skip_vector T)
  | [], v => some v
  | x :: xs, v =>
    match push_back_int B v x with
    | none => none
    | some (v1, _) => push_back_list_int B xs v1

/-- The member `grow(u)` for a `T` whose move constructor may throw, with `idx`
an `int` as declared.  The arguments and the results are those of `grow_copy`.
The handler destroys `ptr + idx` when `idx != 0`; with a negative `idx` that
address lies before the buffer and the call is undefined. -/
def grow_copy_int (block_size : Nat) (v : skip_vector T) (u : T) (alloc_throws : Bool)
    (fail : Option Nat) : Outcome (skip_vector T × Nat × List Nat) (grow_failure T) :=
  let desired_size := if v.m_storage_size ≠ 0 then v.m_storage_size * 2 else block_size * 16
  if alloc_throws then Outcome.threw ⟨v, fun _ => none, [], []⟩
  else
    let ptr : Nat → Option T := fun _ => none
    match construct ptr desired_size (v.m_end + 1) u with
    | none => Outcome.undefined
    | some ptr1 =>
      let idx : Int := to_int (v.m_end + 1)
      if v.m_storage_size ≠ 0 then
        match move_to_copy block_size v.m_ptr v.m_end ptr1 desired_size fail with
        | Outcome.undefined => Outcome.undefined
        | Outcome.returned (ptr2, _, made) =>
          if idx = 2 ^ 31 - 1 then Outcome.undefined
          else
            Outcome.returned
              ({ m_ptr := ptr2, m_storage_size := desired_size, m_end := of_int (idx + 1) },
                of_int idx, made)
        | Outcome.threw (ptr2, made, gone) =>
          if idx ≠ 0 then
            if idx < 0 then Outcome.undefined
            else
              match destroy ptr2 idx.toNat with
              | none => Outcome.undefined
              | some ptr3 =>
                Outcome.threw ⟨v, ptr3, (v.m_end + 1) :: made, gone ++ [idx.toNat]⟩
          else Outcome.threw ⟨v, ptr2, (v.m_end + 1) :: made, gone⟩
      else
        if idx = 2 ^ 31 - 1 then Outcome.undefined
        else
          Outcome.returned
            ({ m_ptr := ptr1, m_storage_size := desired_size, m_end := of_int (idx + 1) },
              of_int idx, [])

/-- The member `push_back(u)` for a `T` whose move constructor may throw,
calling `grow` with its `int`: the new state, the returned index and the
indices of the elements copied to a new buffer. -/
def push_back_copy_int (block_size : Nat) (v : skip_vector T) (u : T) (alloc_throws : Bool)
    (fail : Option Nat) : Outcome (skip_vector T × Nat × List Nat) (grow_failure T) :=
  if v.m_end &&& block_mask block_size ≠ 0 then
    match construct v.m_ptr v.m_storage_size v.m_end u with
    | none => Outcome.undefined
    | some ptr => Outcome.returned ({ v with m_ptr := ptr, m_end := v.m_end + 1 }, v.m_end, [])
  else if v.m_end = v.m_storage_size then
    grow_copy_int block_size v u alloc_throws fail
  else
    match construct v.m_ptr v.m_storage_size (v.m_end + 1) u with
    | none => Outcome.undefined
    | some ptr =>
      Outcome.returned ({ v with m_ptr := ptr, m_end := v.m_end + 1 + 1 }, v.m_end + 1, [])

/-- The states of a `skip_vector` that the code reaches from the empty vector
by `push_back` and `pop_back` calls that stay within defined behaviour and
leave the end marker at most `2^31`. -/
inductive ReachableInt (B : Nat) : skip_vector T → Prop where
  | init : ReachableInt B init
  | push_back {v v1 : skip_vector T} {x : T} {i : Nat} :
      ReachableInt B v → push_back_int B v x = some (v1, i) → v1.m_end ≤ 2 ^ 31 →
      ReachableInt B v1
  | pop_back {v v1 : skip_vector T} :
      ReachableInt B v → pop_back B v = some v1 → ReachableInt B v1

end skip_vector

namespace payload

variable {V : Type}

/-- The member `push_back(u)` of the primary template, on `push_back_int`. -/
def push_back_int (block_size : Nat) : payload V → V → Option (payload V)
  | void, _ => none
  | value m_storage, u =>
    match m_storage.push_back_int block_size u with
    | none => none
    | some (st, _) => some (value st)

end payload

end prio_q_internal

namespace prio_queue

open prio_q_internal

variable {T V : Type}

/-- The member `push_key(key)`, on `push_back_int`. -/
def push_key_int (block_size : Nat) (compare : T → T → Bool) (q : prio_queue T V) (key : T) :
    Option (prio_queue T V) :=
  match q.m_storage.push_back_int block_size key with
  | none => none
  | some (st, hole_idx) =>
    match st.back with
    | none => none
    | some tmp =>
      match q.P.back with
      | none => none
      | some val => sift_up block_size compare hole_idx ⟨st, q.P⟩ hole_idx tmp val

/-- The member `push(u)` of a queue without payloads, on `push_back_int`. -/
def push_void_int (block_size : Nat) (compare : T → T → Bool) (q : prio_queue T V) (u : T) :
    Option (prio_queue T V) :=
  match q.P with
  | payload.void => push_key_int block_size compare q u
  | payload.value _ => none

/-- The member `push(key, value)` of a queue with payloads, on `push_back_int`:
`P::push_back(value); push_key(key);`. -/
def push_int (block_size : Nat) (compare : T → T → Bool) (q : prio_queue T V) (key : T)
    (value : V) : Option (prio_queue T V) :=
  match q.P.push_back_int block_size value with
  | none => none
  | some pl => push_key_int block_size compare ⟨q.m_storage, pl⟩ key

/-- Pushes the keys of a list, in order, into a queue without payloads with
`push_void_int`. -/
def push_list_int (B : Nat) (compare : T → T → Bool) : List T → prio_queue T V →
    Option (prio_queue T V)
  | [], q => some q
  | k :: ks, q =>
    match push_void_int B compare q k with
    | none => none
    | some q1 => push_list_int B compare ks q1

/-- The states the code reaches from a default-constructed queue (with or
without payloads) by `push` and `pop` calls that stay within defined behaviour
and leave the end marker of the key storage at most `2^31`, with the number of
pushes and of pops made. -/
inductive ReachableIntN (B : Nat) (compare : T → T → Bool) :
    prio_queue T V → Nat → Nat → Prop where
  | init_void : ReachableIntN B compare init_void 0 0
  | init : ReachableIntN B compare init 0 0
  | push_void {q q1 : prio_queue T V} {a b : Nat} {k : T} :
      ReachableIntN B compare q a b → push_void_int B compare q k = some q1 →
      q1.m_storage.m_end ≤ 2 ^ 31 → ReachableIntN B compare q1 (a + 1) b
  | push {q q1 : prio_queue T V} {a b : Nat} {k : T} {v : V} :
      ReachableIntN B compare q a b → push_int B compare q k v = some q1 →
      q1.m_storage.m_end ≤ 2 ^ 31 → ReachableIntN B compare q1 (a + 1) b
  | pop {q q1 : prio_queue T V} {a b : Nat} :
      ReachableIntN B compare q a b → pop B compare q = some q1 →
      ReachableIntN B compare q1 a (b + 1)

end prio_queue

end rollbear

/-! ## Properties -/

namespace rollbear

namespace prio_q_internal

namespace heap_heap_addressing

theorem IsBlockSize.exists_half {B : Nat} (hB : IsBlockSize B) :
    ∃ k, B = 2 ^ (k + 1) := by
  obtain ⟨h2, k, rfl⟩ := hB
  cases k with
  | zero => simp at h2
  | succ k => exact ⟨k, rfl⟩

theorem block_base_eq_ldiff (B n : Nat) :
    block_base B n = Nat.ldiff n (block_mask B) := by
  unfold block_base
  apply Nat.eq_of_testBit_eq
  intro i
  rw [Nat.testBit_ldiff, Nat.testBit_xor, Nat.testBit_and]
  cases n.testBit i <;> cases (block_mask B).testBit i <;> rfl

theorem block_offset_eq (k n : Nat) : block_offset (2 ^ k) n = n % 2 ^ k := by
  unfold block_offset block_mask
  exact Nat.and_pow_two_sub_one_eq_mod n k

theorem block_base_eq (k n : Nat) : block_base (2 ^ k) n = 2 ^ k * (n / 2 ^ k) := by
  unfold block_base block_mask
  rw [Nat.and_pow_two_sub_one_eq_mod]
  apply Nat.eq_of_testBit_eq
  intro i
  rw [Nat.testBit_xor, Nat.testBit_mod_two_pow, Nat.testBit_mul_pow_two,
    ← Nat.shiftRight_eq_div_pow, Nat.testBit_shiftRight]
  by_cases h : i < k
  · have h2 : ¬ i ≥ k := by omega
    simp [h, h2]
  · have h2 : i ≥ k := by omega
    have h3 : k + (i - k) = i := by omega
    simp [h, h2, h3]

theorem is_block_leaf_eq (k n : Nat) :
    is_block_leaf (2 ^ (k + 1)) n = decide (2 ^ k ≤ n % 2 ^ (k + 1)) := by
  unfold is_block_leaf
  have h1 : (2 ^ (k + 1)) >>> 1 = 2 ^ k := by
    rw [Nat.shiftRight_eq_div_pow, pow_succ]; simp
  rw [h1, Nat.and_two_pow, pow_succ, Nat.mod_mul]
  have hlt : n % 2 ^ k < 2 ^ k := Nat.mod_lt _ (by positivity)
  have hpos : 0 < 2 ^ k := by positivity
  rw [Nat.testBit_to_div_mod]
  rcases Nat.mod_two_eq_zero_or_one (n / 2 ^ k) with h | h
  · simp [h]; omega
  · simp [h]

theorem child_no_eq (k n : Nat) : child_no (2 ^ (k + 1)) n = n % 2 ^ k := by
  unfold child_no block_mask
  have h1 : (2 ^ (k + 1) - 1) >>> 1 = 2 ^ k - 1 := by
    rw [Nat.shiftRight_eq_div_pow, pow_succ]
    have hpos : 0 < 2 ^ k := by positivity
    omega
  rw [h1]
  exact Nat.and_pow_two_sub_one_eq_mod n k

theorem div_mod_of_lt {B o : Nat} (q : Nat) (h : o < B) :
    (B * q + o) / B = q ∧ (B * q + o) % B = o := by
  have hB : 0 < B := by omega
  constructor
  · rw [Nat.mul_add_div hB, Nat.div_eq_of_lt h, Nat.add_zero]
  · rw [Nat.mul_add_mod, Nat.mod_eq_of_lt h]


theorem IsBlockSize.pow2 {B : Nat} (hB : IsBlockSize B) : Pow2 B (B / 2) := by
  obtain ⟨k, rfl⟩ := hB.exists_half
  exact ⟨k, rfl, by rw [pow_succ]; simp⟩

theorem Pow2.two_mul {B H : Nat} (p : Pow2 B H) : B = 2 * H := by
  obtain ⟨k, rfl, rfl⟩ := p
  rw [pow_succ]; ring

theorem Pow2.pos {B H : Nat} (p : Pow2 B H) : 0 < H := by
  obtain ⟨k, rfl, rfl⟩ := p
  positivity

theorem Pow2.mod_half {B H : Nat} (p : Pow2 B H) (n : Nat) :
    n % B = n % H ∨ n % B = n % H + H := by
  obtain ⟨k, rfl, rfl⟩ := p
  rw [pow_succ, Nat.mod_mul]
  rcases Nat.mod_two_eq_zero_or_one (n / 2 ^ k) with h | h <;> simp [h]

theorem Pow2.validIndex_iff {B H : Nat} (p : Pow2 B H) (n : Nat) :
    ValidIndex B n ↔ n % B ≠ 0 := by
  obtain ⟨k, rfl, rfl⟩ := p
  unfold ValidIndex
  rw [Nat.and_pow_two_sub_one_eq_mod]
  constructor
  · exact fun h => h.2
  · intro h
    refine ⟨?_, h⟩
    rcases Nat.eq_zero_or_pos n with h0 | h0
    · subst h0; simp at h
    · exact h0

theorem Pow2.is_block_leaf_iff {B H : Nat} (p : Pow2 B H) (n : Nat) :
    is_block_leaf B n = true ↔ H ≤ n % B := by
  obtain ⟨k, rfl, rfl⟩ := p
  rw [is_block_leaf_eq]; simp

theorem Pow2.is_block_root_iff {B H : Nat} (p : Pow2 B H) (n : Nat) :
    is_block_root B n = true ↔ n % B = 1 := by
  obtain ⟨k, rfl, rfl⟩ := p
  unfold is_block_root
  rw [block_offset_eq]; simp

theorem Pow2.sibling_offset_not_leaf {B H : Nat} (p : Pow2 B H) (n : Nat) (h : n % B < H) :
    sibling_offset B n = 1 := by
  unfold sibling_offset
  have : ¬ is_block_leaf B n = true := by rw [p.is_block_leaf_iff]; omega
  simp [this]

theorem Pow2.sibling_offset_leaf {B H : Nat} (p : Pow2 B H) (n : Nat) (h : H ≤ n % B) :
    sibling_offset B n = B := by
  unfold sibling_offset
  have : is_block_leaf B n = true := by rw [p.is_block_leaf_iff]; omega
  simp [this]

theorem Pow2.child_of_not_leaf {B H : Nat} (p : Pow2 B H) (n : Nat) (h : n % B < H) :
    child_of B n = n + n % B := by
  have hl : ¬ is_block_leaf B n = true := by rw [p.is_block_leaf_iff]; omega
  obtain ⟨k, rfl, rfl⟩ := p
  unfold child_of
  rw [block_offset_eq]
  simp [hl]

theorem Pow2.child_of_leaf {B H : Nat} (p : Pow2 B H) (n : Nat) (h : H ≤ n % B) :
    child_of B n = B * (B * (n / B) + 1 + 2 * (n % H)) + 1 := by
  have hl : is_block_leaf B n = true := by rw [p.is_block_leaf_iff]; omega
  obtain ⟨k, rfl, rfl⟩ := p
  unfold child_of
  rw [block_base_eq, child_no_eq]
  simp only [hl, Bool.not_true, Bool.false_eq_true, if_false]
  ring

theorem Pow2.parent_of_not_root {B H : Nat} (p : Pow2 B H) (n : Nat) (h : n % B ≠ 1) :
    parent_of B n = B * (n / B) + n % B / 2 := by
  obtain ⟨k, rfl, rfl⟩ := p
  unfold parent_of is_block_root
  rw [block_offset_eq, block_base_eq]
  simp [h]

theorem Pow2.parent_of_root {B H : Nat} (p : Pow2 B H) (n : Nat) (h : n % B = 1)
    (hn : B ≤ n) :
    parent_of B n = B * ((n / B - 1) / B) + H + (n / B - 1) % B / 2 := by
  have hBH := p.two_mul
  have hHpos := p.pos
  obtain ⟨k, hB, hH⟩ := p
  subst hB
  simp only [parent_of, is_block_root, block_offset_eq, block_base_eq, h, beq_self_eq_true,
    Bool.not_true, Bool.false_eq_true, if_false]
  generalize 2 ^ (k + 1) = B at *
  have hB : 0 < B := by omega
  have hH2 : B / 2 = H := by omega
  have hq : 1 ≤ n / B := (Nat.one_le_div_iff hB).2 hn
  have hdm := Nat.div_add_mod n B
  rw [Nat.mul_div_cancel_left _ hB, hH2]
  obtain ⟨m, hm⟩ : ∃ m, n / B = m + 1 := ⟨n / B - 1, by omega⟩
  rw [hm] at hdm ⊢
  have e1 : n - B = B * m + 1 := by
    rw [← hdm, h, Nat.mul_succ]; omega
  rw [e1, (div_mod_of_lt m (show 1 < B by omega)).1, Nat.add_sub_cancel]
  have hdm2 := Nat.div_add_mod m B
  have e2 : m - B * (m / B) = m % B := by omega
  rw [e2]

/-- Both children of a valid index have that index as their parent, are valid and
lie above it. -/
theorem Pow2.children_spec {B H : Nat} (p : Pow2 B H) (n : Nat) (hv : n % B ≠ 0) :
    parent_of B (child_of B n) = n ∧
    parent_of B (child_of B n + sibling_offset B n) = n ∧
    n < child_of B n ∧ 0 < sibling_offset B n ∧
    child_of B n % B ≠ 0 ∧ (child_of B n + sibling_offset B n) % B ≠ 0 := by
  have hBH := p.two_mul
  have hH := p.pos
  have hdm := Nat.div_add_mod n B
  have ho : n % B < B := Nat.mod_lt _ (by omega)
  rcases Nat.lt_or_ge (n % B) H with hl | hl
  · -- not a block leaf: the children are in the same block
    have hlc : child_of B n = B * (n / B) + 2 * (n % B) := by
      rw [p.child_of_not_leaf n hl]; omega
    have hs := p.sibling_offset_not_leaf n hl
    have h1 := div_mod_of_lt (n / B) (show 2 * (n % B) < B by omega)
    have h2 := div_mod_of_lt (n / B) (show 2 * (n % B) + 1 < B by omega)
    rw [hs, hlc, Nat.add_assoc]
    refine ⟨?_, ?_, by omega, by omega, ?_, ?_⟩
    · rw [p.parent_of_not_root _ (by rw [h1.2]; omega), h1.1, h1.2]; omega
    · rw [p.parent_of_not_root _ (by rw [h2.2]; omega), h2.1, h2.2]; omega
    · rw [h1.2]; omega
    · rw [h2.2]; omega
  · -- a block leaf: the children are the roots of two consecutive blocks
    have hc : n % H < H := Nat.mod_lt _ hH
    have hmh : n % B = n % H + H := by
      rcases p.mod_half n with h | h
      · omega
      · exact h
    have hlc := p.child_of_leaf n hl
    have hs := p.sibling_offset_leaf n hl
    have hrc : child_of B n + sibling_offset B n
        = B * (B * (n / B) + 1 + (2 * (n % H) + 1)) + 1 := by
      rw [hs, hlc]; ring
    have h1 := div_mod_of_lt (B * (n / B) + 1 + 2 * (n % H)) (show 1 < B by omega)
    have h2 := div_mod_of_lt (B * (n / B) + 1 + (2 * (n % H) + 1)) (show 1 < B by omega)
    have h3 := div_mod_of_lt (n / B) (show 2 * (n % H) < B by omega)
    have h4 := div_mod_of_lt (n / B) (show 2 * (n % H) + 1 < B by omega)
    have hBle : B ≤ B * (B * (n / B) + 1 + 2 * (n % H)) :=
      Nat.le_mul_of_pos_right _ (by omega)
    have hBle2 : B ≤ B * (B * (n / B) + 1 + (2 * (n % H) + 1)) :=
      Nat.le_mul_of_pos_right _ (by omega)
    have hnle : n ≤ B * (B * (n / B) + 1 + 2 * (n % H)) := by
      have : B * (B * (n / B) + 1 + 2 * (n % H))
          = B * (B * (n / B)) + B + B * (2 * (n % H)) := by ring
      have h5 : B * (n / B) ≤ B * (B * (n / B)) := Nat.le_mul_of_pos_left _ (by omega)
      omega
    rw [hrc, hlc]
    refine ⟨?_, ?_, by omega, by omega, ?_, ?_⟩
    · rw [p.parent_of_root _ h1.2 (by omega), h1.1]
      have e : B * (n / B) + 1 + 2 * (n % H) - 1 = B * (n / B) + 2 * (n % H) := by
        omega
      rw [e, h3.1, h3.2]; omega
    · rw [p.parent_of_root _ h2.2 (by omega), h2.1]
      have e : B * (n / B) + 1 + (2 * (n % H) + 1) - 1
          = B * (n / B) + (2 * (n % H) + 1) := by omega
      rw [e, h4.1, h4.2]; omega
    · rw [h1.2]; omega
    · rw [h2.2]; omega

/-- The parent of a valid index above 1 is a valid index below it, and the index
is one of the two children of its parent. -/
theorem Pow2.parent_spec {B H : Nat} (p : Pow2 B H) (n : Nat) (hv : n % B ≠ 0)
    (h1 : 1 < n) :
    parent_of B n < n ∧ parent_of B n % B ≠ 0 ∧
    (n = child_of B (parent_of B n) ∨
      n = child_of B (parent_of B n) + sibling_offset B (parent_of B n)) := by
  have hBH := p.two_mul
  have hH := p.pos
  have hdm := Nat.div_add_mod n B
  have ho : n % B < B := Nat.mod_lt _ (by omega)
  by_cases hr : n % B = 1
  · -- a block root: the parent is a block leaf of the parent block
    have hBn : B ≤ n := by
      rcases Nat.lt_or_ge n B with hlt | hge
      · rw [Nat.mod_eq_of_lt hlt] at hr; omega
      · exact hge
    have hq : 1 ≤ n / B := (Nat.one_le_div_iff (by omega)).2 hBn
    obtain ⟨m, hm⟩ : ∃ m, n / B = m + 1 := ⟨n / B - 1, by omega⟩
    have hpar := p.parent_of_root n hr hBn
    rw [hm, Nat.add_sub_cancel] at hpar
    have hdm2 := Nat.div_add_mod m B
    have ho2 : m % B < B := Nat.mod_lt _ (by omega)
    have hpar2 : parent_of B n = B * (m / B) + (H + m % B / 2) := by omega
    have hpar3 : parent_of B n = H * (2 * (m / B) + 1) + m % B / 2 := by
      rw [hpar2, hBH]; ring
    have d1 := div_mod_of_lt (m / B) (show H + m % B / 2 < B by omega)
    have d2 := div_mod_of_lt (2 * (m / B) + 1) (show m % B / 2 < H by omega)
    have hpB : parent_of B n % B = H + m % B / 2 := by rw [hpar2, d1.2]
    have hpq : parent_of B n / B = m / B := by rw [hpar2, d1.1]
    have hpH : parent_of B n % H = m % B / 2 := by rw [hpar3, d2.2]
    have hleaf : H ≤ parent_of B n % B := by omega
    have hmn : n = B * m + (B + 1) := by
      rw [hm, hr, Nat.mul_succ] at hdm; omega
    have hmm : B * m = B * (B * (m / B)) + B * (m % B) := by
      rw [← Nat.mul_add, hdm2]
    have hle1 : B * (m / B) ≤ B * (B * (m / B)) := Nat.le_mul_of_pos_left _ (by omega)
    have hle2 : 2 * (m % B) ≤ B * (m % B) := Nat.mul_le_mul_right _ (by omega)
    refine ⟨by omega, by omega, ?_⟩
    rw [p.child_of_leaf _ hleaf, p.sibling_offset_leaf _ hleaf, hpq, hpH]
    have e1 : B * (B * (m / B) + 1 + 2 * (m % B / 2))
        = B * (B * (m / B)) + B + B * (2 * (m % B / 2)) := by ring
    rcases Nat.mod_two_eq_zero_or_one (m % B) with hpar | hpar
    · left
      have : 2 * (m % B / 2) = m % B := by omega
      rw [e1, this]; omega
    · right
      have : m % B = 2 * (m % B / 2) + 1 := by omega
      have e2 : B * (m % B) = B * (2 * (m % B / 2)) + B := by
        conv_lhs => rw [this]
        ring
      rw [e1]; omega
  · -- not a block root: the parent is in the same block
    have hpar := p.parent_of_not_root n hr
    have d1 := div_mod_of_lt (n / B) (show n % B / 2 < B by omega)
    have hpB : parent_of B n % B = n % B / 2 := by rw [hpar, d1.2]
    have hnl : parent_of B n % B < H := by omega
    refine ⟨by omega, by omega, ?_⟩
    rw [p.child_of_not_leaf _ hnl, p.sibling_offset_not_leaf _ hnl, hpB, hpar]
    omega

/-- The left child is the only index strictly between the parent's children
that has this parent: an index whose parent is `n` is one of the two children. -/
theorem Pow2.child_cases {B H : Nat} (p : Pow2 B H) (n c : Nat) (hc : c % B ≠ 0)
    (h1 : 1 < c) (hp : parent_of B c = n) :
    c = child_of B n ∨ c = child_of B n + sibling_offset B n := by
  have := (p.parent_spec c hc h1).2.2
  rw [hp] at this
  exact this

theorem succ_mod_cases (B e : Nat) (hB : 0 < B) :
    (e % B + 1 < B ∧ (e + 1) % B = e % B + 1 ∧ (e + 1) / B = e / B) ∨
    (e % B + 1 = B ∧ (e + 1) % B = 0 ∧ (e + 1) / B = e / B + 1) := by
  have hdm := Nat.div_add_mod e B
  have hr : e % B < B := Nat.mod_lt _ hB
  rcases Nat.lt_or_ge (e % B + 1) B with h | h
  · left
    have d := div_mod_of_lt (e / B) h
    have e1 : e + 1 = B * (e / B) + (e % B + 1) := by omega
    rw [e1]
    exact ⟨h, d.2, d.1⟩
  · right
    have d := div_mod_of_lt (e / B + 1) hB
    have e1 : e + 1 = B * (e / B + 1) + 0 := by rw [Nat.mul_succ]; omega
    rw [e1]
    exact ⟨by omega, d.2, d.1⟩

theorem Pow2.two_le {B H : Nat} (p : Pow2 B H) : 2 ≤ B := by
  have := p.two_mul
  have := p.pos
  omega

theorem Pow2.and_mask {B H : Nat} (p : Pow2 B H) (n : Nat) : n &&& (B - 1) = n % B := by
  obtain ⟨k, rfl, rfl⟩ := p
  exact Nat.and_pow_two_sub_one_eq_mod n (k + 1)

end heap_heap_addressing

namespace skip_vector

open heap_heap_addressing

variable {T : Type} {B H : Nat}

theorem and_block_mask (p : Pow2 B H) (n : Nat) : n &&& block_mask B = n % B :=
  p.and_mask n

theorem get_eq (p : Pow2 B H) (v : skip_vector T) (i : Nat) (h1 : i < v.m_end)
    (h2 : i % B ≠ 0) : v.get B i = v.m_ptr i := by
  unfold get
  rw [and_block_mask p]
  simp [h1, h2]

theorem get_eq_some_iff (p : Pow2 B H) (v : skip_vector T) (i : Nat) (x : T) :
    v.get B i = some x ↔ i < v.m_end ∧ i % B ≠ 0 ∧ v.m_ptr i = some x := by
  unfold get
  rw [and_block_mask p]
  by_cases h : i < v.m_end ∧ i % B ≠ 0
  · simp [h]
  · simp only [h, if_false]
    constructor
    · intro h'; cases h'
    · intro h'; exact absurd ⟨h'.1, h'.2.1⟩ h

theorem set_eq (p : Pow2 B H) (v : skip_vector T) (i : Nat) (x y : T) (h1 : i < v.m_end)
    (h2 : i % B ≠ 0) (h3 : v.m_ptr i = some y) :
    v.set B i x = some { v with m_ptr := fun j => if j = i then some x else v.m_ptr j } := by
  unfold set
  rw [and_block_mask p]
  simp [h1, h2, h3]

theorem inv_init (B : Nat) : Inv B (init : skip_vector T) where
  end_le := Nat.le_refl _
  cap := Or.inl rfl
  end_mod := by simp [init]
  live := by intro i h; simp [init] at h

theorem Inv.cap_dvd {v : skip_vector T} (hv : Inv B v) : B ∣ v.m_storage_size := by
  rcases hv.cap with h | ⟨k, h⟩
  · rw [h]; exact Nat.dvd_zero _
  · rw [h]; exact ⟨16 * 2 ^ k, by ring⟩

theorem Inv.cap_ge {v : skip_vector T} (hv : Inv B v) (h0 : v.m_storage_size ≠ 0) :
    16 * B ≤ v.m_storage_size := by
  rcases hv.cap with h | ⟨k, h⟩
  · exact absurd h h0
  · rw [h]; exact Nat.le_mul_of_pos_right _ (by positivity)

theorem Inv.set {v : skip_vector T} (hv : Inv B v) (i : Nat) (x : T) :
    Inv B { v with m_ptr := fun j => if j = i then some x else v.m_ptr j } where
  end_le := hv.end_le
  cap := hv.cap
  end_mod := hv.end_mod
  live := by
    intro j h1 h2
    by_cases hj : j = i
    · exact ⟨x, by simp [hj]⟩
    · obtain ⟨y, hy⟩ := hv.live j h1 h2
      exact ⟨y, by simp [hj, hy]⟩

/-- The loop of `move_to` succeeds on a source whose valid slots below `s` are
live, and copies exactly these slots. -/
theorem move_to_loop_spec (p : Pow2 B H) (b : Nat → Option T) (s cap : Nat) (hs : s ≤ cap)
    (hlive : ∀ i, i < s → i % B ≠ 0 → ∃ x, b i = some x) :
    ∀ (fuel i : Nat) (ptr : Nat → Option T), s ≤ i + fuel →
      ∃ ptr1, move_to_loop B b s cap fuel i ptr = some ptr1 ∧
        ∀ j, ptr1 j = if i ≤ j ∧ j < s ∧ j % B ≠ 0 then b j else ptr j := by
  intro fuel
  induction fuel with
  | zero =>
    intro i ptr h
    refine ⟨ptr, ?_, ?_⟩
    · simp only [move_to_loop]
      rw [if_neg (by omega)]
    · intro j
      rw [if_neg (by omega)]
  | succ fuel ih =>
    intro i ptr h
    simp only [move_to_loop]
    by_cases his : i < s
    · rw [if_pos his, and_block_mask p]
      by_cases hiv : i % B ≠ 0
      · rw [if_pos hiv]
        obtain ⟨x, hx⟩ := hlive i his hiv
        rw [hx]
        simp only [construct]
        rw [if_pos (by omega)]
        obtain ⟨ptr1, h1, h2⟩ := ih (i + 1)
          (fun j => if j = i then some x else ptr j) (by omega)
        refine ⟨ptr1, h1, ?_⟩
        intro j
        rw [h2 j]
        by_cases hji : j = i
        · subst hji
          simp [hx, his, hiv]
        · by_cases hc : i + 1 ≤ j ∧ j < s ∧ j % B ≠ 0
          · rw [if_pos hc, if_pos ⟨by omega, hc.2.1, hc.2.2⟩]
          · rw [if_neg hc, if_neg hji, if_neg]
            intro hc2
            exact hc ⟨by omega, hc2.2.1, hc2.2.2⟩
      · rw [if_neg hiv]
        obtain ⟨ptr1, h1, h2⟩ := ih (i + 1) ptr (by omega)
        refine ⟨ptr1, h1, ?_⟩
        intro j
        rw [h2 j]
        by_cases hc : i + 1 ≤ j ∧ j < s ∧ j % B ≠ 0
        · rw [if_pos hc, if_pos ⟨by omega, hc.2.1, hc.2.2⟩]
        · rw [if_neg hc, if_neg]
          intro hc2
          have : j ≠ i := by
            intro hji; subst hji; exact hiv hc2.2.2
          exact hc ⟨by omega, hc2.2.1, hc2.2.2⟩
    · rw [if_neg his]
      refine ⟨ptr, rfl, ?_⟩
      intro j
      rw [if_neg (by omega)]

theorem next_index_mod (p : Pow2 B H) (e : Nat) :
    next_index B e % B ≠ 0 ∧ (next_index B e + 1) % B ≠ 1 := by
  have hB := p.two_le
  unfold next_index
  by_cases h : e % B ≠ 0
  · rw [if_pos h]
    refine ⟨h, ?_⟩
    rcases succ_mod_cases B e (by omega) with ⟨_, h2, _⟩ | ⟨_, h2, _⟩ <;> omega
  · rw [if_neg h]
    have h0 : e % B = 0 := by omega
    rcases succ_mod_cases B e (by omega) with ⟨_, h2, _⟩ | ⟨h1, _, _⟩
    · refine ⟨by omega, ?_⟩
      rcases succ_mod_cases B (e + 1) (by omega) with ⟨_, h3, _⟩ | ⟨_, h3, _⟩ <;> omega
    · omega

/-- A multiple of the block size strictly below the capacity leaves room for a
whole block. -/
theorem room_of_lt {v : skip_vector T} (hv : Inv B v) (h0 : v.m_end % B = 0)
    (hne : v.m_end ≠ v.m_storage_size) : v.m_end + B ≤ v.m_storage_size := by
  obtain ⟨c, hc⟩ := hv.cap_dvd
  have hq := Nat.div_add_mod v.m_end B
  rw [h0, Nat.add_zero] at hq
  have hlt : v.m_end < v.m_storage_size := Nat.lt_of_le_of_ne hv.end_le hne
  rw [hc, ← hq] at hlt
  have hqc : v.m_end / B < c := Nat.lt_of_mul_lt_mul_left hlt
  have : B * (v.m_end / B + 1) ≤ B * c := Nat.mul_le_mul_left _ hqc
  rw [Nat.mul_succ, hq] at this
  rw [hc]; exact this

/-- The effect of `push_back` on a vector that satisfies the storage invariant. -/
theorem push_back_spec (p : Pow2 B H) (v : skip_vector T) (hv : Inv B v) (x : T) :
    ∃ v1, push_back B v x = some (v1, next_index B v.m_end) ∧ Inv B v1 ∧
      v1.m_end = next_index B v.m_end + 1 ∧
      v1.m_ptr (next_index B v.m_end) = some x ∧
      ∀ j, j < v.m_end → j % B ≠ 0 → v1.m_ptr j = v.m_ptr j := by
  have hB := p.two_le
  have hmod := next_index_mod p v.m_end
  unfold push_back
  rw [and_block_mask p]
  by_cases h : v.m_end % B ≠ 0
  · have hni : next_index B v.m_end = v.m_end := by unfold next_index; rw [if_pos h]
    rw [hni] at hmod ⊢
    have hne : v.m_end ≠ v.m_storage_size := by
      intro heq
      obtain ⟨c, hc⟩ := hv.cap_dvd
      rw [heq, hc, Nat.mul_mod_right] at h
      exact h rfl
    have hlt : v.m_end < v.m_storage_size := Nat.lt_of_le_of_ne hv.end_le hne
    rw [if_pos h]
    simp only [construct, if_pos hlt]
    refine ⟨_, rfl, ⟨by simpa using hlt, hv.cap, hmod.2, ?_⟩, rfl, by simp, ?_⟩
    · intro j h1 h2
      by_cases hj : j = v.m_end
      · exact ⟨x, by simp [hj]⟩
      · obtain ⟨y, hy⟩ := hv.live j (by simp at h1; omega) h2
        exact ⟨y, by simp [hj, hy]⟩
    · intro j h1 _
      simp [Nat.ne_of_lt h1]
  · have h0 : v.m_end % B = 0 := by omega
    have hni : next_index B v.m_end = v.m_end + 1 := by unfold next_index; rw [if_neg h]
    rw [hni] at hmod ⊢
    rw [if_neg h]
    by_cases hfull : v.m_end = v.m_storage_size
    · rw [if_pos hfull]
      unfold grow
      by_cases hc0 : v.m_storage_size ≠ 0
      · have hge := hv.cap_ge hc0
        simp only [if_pos hc0, construct]
        rw [if_pos (by omega)]
        obtain ⟨ptr2, hm, hptr⟩ := move_to_loop_spec p v.m_ptr v.m_end (v.m_storage_size * 2)
          (by omega) hv.live v.m_end 1
          (fun j => if j = v.m_end + 1 then some x else none) (by omega)
        simp only [move_to, hm]
        refine ⟨_, rfl, ⟨by simp; omega, ?_, hmod.2, ?_⟩, rfl, ?_, ?_⟩
        · right
          rcases hv.cap with hc | ⟨k, hk⟩
          · exact absurd hc hc0
          · exact ⟨k + 1, by simp only []; rw [hk, pow_succ]; ring⟩
        · intro j h1 h2
          simp only [] at h1 ⊢
          rw [hptr j]
          by_cases hj : j < v.m_end
          · have hj1 : 1 ≤ j := by
              rcases Nat.eq_zero_or_pos j with hz | hz
              · subst hz; simp at h2
              · exact hz
            rw [if_pos ⟨hj1, hj, h2⟩]
            exact hv.live j hj h2
          · have : j = v.m_end + 1 := by
              rcases Nat.lt_or_ge j (v.m_end + 1) with hlt | hge2
              · have : j = v.m_end := by omega
                rw [this] at h2; exact absurd h0 h2
              · omega
            rw [if_neg (by omega), if_pos this]
            exact ⟨x, rfl⟩
        · simp only []
          rw [hptr, if_neg (by omega), if_pos rfl]
        · intro j h1 h2
          simp only []
          have hj1 : 1 ≤ j := by
            rcases Nat.eq_zero_or_pos j with hz | hz
            · subst hz; simp at h2
            · exact hz
          rw [hptr, if_pos ⟨hj1, h1, h2⟩]
      · have hc0' : v.m_storage_size = 0 := by omega
        have he0 : v.m_end = 0 := by omega
        simp only [if_neg hc0, construct]
        rw [if_pos (by omega)]
        refine ⟨_, rfl, ⟨by simp; omega, ?_, hmod.2, ?_⟩, rfl, by simp, ?_⟩
        · right
          exact ⟨0, by simp only []; ring⟩
        · intro j h1 h2
          simp only [] at h1 ⊢
          have : j = v.m_end + 1 := by
            rcases Nat.eq_zero_or_pos j with hz | hz
            · subst hz; simp at h2
            · omega
          exact ⟨x, by rw [if_pos this]⟩
        · intro j h1 _
          omega
    · rw [if_neg hfull]
      have hroom := room_of_lt hv h0 hfull
      simp only [construct]
      rw [if_pos (by omega)]
      refine ⟨_, rfl, ⟨by simp; omega, hv.cap, hmod.2, ?_⟩, rfl, by simp, ?_⟩
      · intro j h1 h2
        simp only [] at h1 ⊢
        by_cases hj : j = v.m_end + 1
        · exact ⟨x, by rw [if_pos hj]⟩
        · have hj2 : j ≠ v.m_end := by
            intro hje; rw [hje] at h2; exact h2 h0
          obtain ⟨y, hy⟩ := hv.live j (by omega) h2
          exact ⟨y, by rw [if_neg hj, hy]⟩
      · intro j h1 _
        simp only []
        rw [if_neg (by omega)]

/-- The end marker that `pop_back` leaves when it was `e`. -/
theorem pop_back_spec (p : Pow2 B H) (v : skip_vector T) (hv : Inv B v)
    (hne : v.m_end ≠ 0) :
    ∃ v1, pop_back B v = some v1 ∧ Inv B v1 ∧
      v1.m_end = v.m_end - 1 - (if (v.m_end - 1) % B = 1 then 1 else 0) ∧
      v1.m_storage_size = v.m_storage_size ∧
      (v.m_end - 1) % B ≠ 0 ∧
      ∀ j, j < v.m_end - 1 → v1.m_ptr j = v.m_ptr j := by
  have hB := p.two_le
  obtain ⟨e, he⟩ : ∃ e, v.m_end = e + 1 := ⟨v.m_end - 1, by omega⟩
  have hem := hv.end_mod
  rw [he] at hem
  have hev : e % B ≠ 0 := by
    rcases succ_mod_cases B e (by omega) with ⟨_, h2, _⟩ | ⟨h1, _, _⟩ <;> omega
  obtain ⟨y, hy⟩ := hv.live e (by omega) hev
  unfold pop_back
  rw [if_neg hne]
  simp only [and_block_mask p, he, Nat.add_sub_cancel, destroy, hy]
  refine ⟨_, rfl, ⟨?_, hv.cap, ?_, ?_⟩, rfl, rfl, hev, ?_⟩
  · have := hv.end_le
    simp only []
    omega
  · simp only []
    by_cases h1 : e % B = 1
    · rw [if_pos h1]
      obtain ⟨e2, he2⟩ : ∃ e2, e = e2 + 1 := ⟨e - 1, by
        rcases Nat.eq_zero_or_pos e with hz | hz
        · subst hz; simp at h1
        · omega⟩
      rw [he2, Nat.add_sub_cancel]
      rw [he2] at h1
      rcases succ_mod_cases B e2 (by omega) with ⟨_, h2, _⟩ | ⟨_, h2, _⟩ <;> omega
    · rw [if_neg h1]; exact h1
  · intro j h1 h2
    simp only [] at h1 ⊢
    have hj : j < e := by omega
    obtain ⟨z, hz⟩ := hv.live j (by omega) h2
    exact ⟨z, by rw [if_neg (by omega), hz]⟩
  · intro j h1
    simp only []
    rw [if_neg (by omega)]

theorem Reachable.storage_inv (p : Pow2 B H) {v : skip_vector T} (h : Reachable B v) : Inv B v := by
  induction h with
  | init => exact inv_init B
  | push_back _ hp ih =>
    obtain ⟨v1, h1, h2, _⟩ := push_back_spec p _ ih _
    rw [hp] at h1
    cases h1
    exact h2
  | @pop_back v v1 _ hp ih =>
    have hne : v.m_end ≠ 0 := by
      intro h0
      unfold skip_vector.pop_back at hp
      rw [if_pos h0] at hp
      cases hp
    obtain ⟨v2, h1, h2, _⟩ := pop_back_spec p _ ih hne
    rw [hp] at h1
    cases h1
    exact h2

theorem nth_index_zero (B : Nat) : nth_index B 0 = 0 := by
  simp [nth_index]

theorem nth_index_one (B : Nat) : nth_index B 1 = 1 := by
  simp [nth_index]

/-- The step from the `k`-th to the `(k+1)`-th announced index. -/
theorem nth_index_succ (hB : 2 ≤ B) (k : Nat) (hk : 1 ≤ k) :
    (nth_index B (k + 1) = nth_index B k + 1 ∧ (nth_index B k + 1) % B ≠ 0) ∨
    (nth_index B (k + 1) = nth_index B k + 2 ∧ (nth_index B k + 1) % B = 0) := by
  obtain ⟨D, hD⟩ : ∃ D, B = D + 1 := ⟨B - 1, by omega⟩
  obtain ⟨k1, hk1⟩ : ∃ k1, k = k1 + 1 := ⟨k - 1, by omega⟩
  subst hD hk1
  simp only [nth_index, Nat.add_sub_cancel]
  have hdm := Nat.div_add_mod k1 D
  have hmul : (D + 1) * (k1 / D) = D * (k1 / D) + k1 / D := by ring
  rcases succ_mod_cases D k1 (by omega) with ⟨h1, _, h3⟩ | ⟨h1, _, h3⟩
  · left
    rw [h3]
    have d := div_mod_of_lt (k1 / D) (show k1 % D + 2 < D + 1 by omega)
    have e : k1 + 1 + k1 / D + 1 = (D + 1) * (k1 / D) + (k1 % D + 2) := by omega
    refine ⟨by omega, ?_⟩
    rw [e, d.2]; omega
  · right
    rw [h3]
    have e : k1 + 1 + k1 / D + 1 = (D + 1) * (k1 / D + 1) := by
      rw [Nat.mul_succ]; omega
    refine ⟨by omega, ?_⟩
    rw [e, Nat.mul_mod_right]

theorem next_index_nth (hB : 2 ≤ B) (k : Nat) :
    next_index B (if k = 0 then 0 else nth_index B k + 1) = nth_index B (k + 1) := by
  by_cases hk : k = 0
  · subst hk
    simp [next_index, nth_index]
  · rw [if_neg hk]
    unfold next_index
    rcases nth_index_succ hB k (by omega) with ⟨h1, h2⟩ | ⟨h1, h2⟩
    · rw [if_pos h2, h1]
    · rw [if_neg (by omega), h1]

/-- Pushing a list onto a vector that satisfies the invariant succeeds. -/
theorem push_back_list_spec (p : Pow2 B H) (xs : List T) :
    ∀ (k : Nat) (v : skip_vector T), Inv B v →
      v.m_end = (if k = 0 then 0 else nth_index B k + 1) →
      ∃ v1, push_back_list B xs v = some v1 ∧ Inv B v1 ∧
        v1.m_end = (if k + xs.length = 0 then 0 else nth_index B (k + xs.length) + 1) := by
  induction xs with
  | nil =>
    intro k v hv he
    exact ⟨v, rfl, hv, by simpa using he⟩
  | cons x xs ih =>
    intro k v hv he
    obtain ⟨v1, h1, h2, h3, _⟩ := push_back_spec p v hv x
    rw [he, next_index_nth p.two_le] at h3
    obtain ⟨v2, h4, h5, h6⟩ := ih (k + 1) v1 h2 (by rw [h3, if_neg (by omega)])
    refine ⟨v2, ?_, h5, ?_⟩
    · simp only [push_back_list, h1, h4]
    · rw [h6]
      simp only [List.length_cons]
      rw [show k + 1 + xs.length = k + (xs.length + 1) by omega]

end skip_vector

end prio_q_internal

end rollbear

/-! ## The heap: order and contents -/

namespace rollbear

theorem StrictWeakOrder.asymm {T : Type} {compare : T → T → Bool}
    (w : StrictWeakOrder compare) {a b : T} (h : compare a b = true) :
    compare b a = false := by
  cases hba : compare b a with
  | false => rfl
  | true =>
    have := w.trans a b a h hba
    rw [w.irrefl] at this
    cases this

/-- In a strict weak ordering "does not sort before" is transitive. -/
theorem StrictWeakOrder.neg_trans {T : Type} {compare : T → T → Bool}
    (w : StrictWeakOrder compare) {a b c : T} (h1 : compare a b = false)
    (h2 : compare b c = false) : compare a c = false := by
  cases hac : compare a c with
  | false => rfl
  | true =>
    exfalso
    cases hba : compare b a with
    | true =>
      have := w.trans b a c hba hac
      rw [h2] at this; cases this
    | false =>
      cases hcb : compare c b with
      | true =>
        have := w.trans a c b hac hcb
        rw [h1] at this; cases this
      | false =>
        have := (w.incomp_trans a b c h1 hba h2 hcb).1
        rw [hac] at this; cases this

namespace prio_queue

open prio_q_internal heap_heap_addressing

variable {T V : Type} {B H : Nat}

theorem mem_slots {e i : Nat} : i ∈ slots B e ↔ i < e ∧ i % B ≠ 0 := by
  simp [slots]

theorem nodup_slots (e : Nat) : (slots B e).Nodup :=
  (List.nodup_range e).filter _

/-- Filling the hole `h` with `x` gives `x` and the entries away from the hole. -/
theorem perm_fill_hole {α : Type} (l : List Nat) (hl : l.Nodup) (f : Nat → α) (h : Nat)
    (x : α) (hh : h ∈ l) :
    (l.map (Function.update f h x)).Perm (x :: (l.erase h).map f) := by
  have h1 : (l.map (Function.update f h x)).Perm
      ((h :: l.erase h).map (Function.update f h x)) :=
    (List.perm_cons_erase hh).map _
  refine h1.trans ?_
  simp only [List.map_cons, Function.update_same]
  refine List.Perm.cons _ ?_
  rw [List.map_congr_left]
  intro a ha
  have : a ≠ h := ((hl.mem_erase_iff).1 ha).1
  rw [Function.update_noteq this]

/-- Moving the entry at `c` into the hole `h` makes `c` the hole and keeps the
entries away from the hole. -/
theorem perm_move_hole {α : Type} (l : List Nat) (hl : l.Nodup) (f : Nat → α) (h c : Nat)
    (hh : h ∈ l) (hc : c ∈ l) (hne : h ≠ c) :
    ((l.erase c).map (Function.update f h (f c))).Perm ((l.erase h).map f) := by
  have hh' : h ∈ l.erase c := (hl.mem_erase_iff).2 ⟨hne, hh⟩
  have hc' : c ∈ l.erase h := (hl.mem_erase_iff).2 ⟨fun e => hne e.symm, hc⟩
  have h1 := perm_fill_hole (l.erase c) (hl.erase c) f h (f c) hh'
  have h2 : ((l.erase h).map f).Perm ((c :: (l.erase h).erase c).map f) :=
    (List.perm_cons_erase hc').map _
  rw [List.erase_comm] at h1
  exact h1.trans h2.symm

theorem Rep.key {q : prio_queue T V} {e : Nat} {f : Nat → T × Option V}
    (r : Rep B q e f) {i : Nat} (hv : i % B ≠ 0) (hi : i < e) :
    q.m_storage.m_ptr i = some (f i).1 := by
  have h := r.2.2 i hv hi
  unfold entry at h
  cases hk : q.m_storage.m_ptr i with
  | none => rw [hk] at h; cases h
  | some k =>
    rw [hk] at h
    simp only [Option.some.injEq] at h
    rw [← h]

theorem Rep.payload {q : prio_queue T V} {e : Nat} {f : Nat → T × Option V}
    (r : Rep B q e f) {i : Nat} (hv : i % B ≠ 0) (hi : i < e) :
    payload_slot q.P i = (f i).2 := by
  have h := r.2.2 i hv hi
  unfold entry at h
  cases hk : q.m_storage.m_ptr i with
  | none => rw [hk] at h; cases h
  | some k =>
    rw [hk] at h
    simp only [Option.some.injEq] at h
    rw [← h]

theorem Rep.get (p : Pow2 B H) {q : prio_queue T V} {e : Nat} {f : Nat → T × Option V}
    (r : Rep B q e f) {i : Nat} (hv : i % B ≠ 0) (hi : i < e) :
    q.m_storage.get B i = some (f i).1 := by
  rw [skip_vector.get_eq p _ _ (by rw [r.2.1]; exact hi) hv]
  exact r.key hv hi

theorem Rep.compat {q : prio_queue T V} {e : Nat} {f : Nat → T × Option V}
    (r : Rep B q e f) {i : Nat} (hv : i % B ≠ 0) (hi : i < e) :
    Compat q.P (f i).2 := by
  have h := r.payload hv hi
  have hs := r.1.2
  unfold payload_slot at h
  unfold Compat
  cases hP : q.P with
  | void =>
    rw [hP] at h
    simp only at h
    rw [← h]
    trivial
  | value st =>
    rw [hP] at h hs
    simp only at h hs
    obtain ⟨y, hy⟩ := hs.1.live i (by rw [hs.2, r.2.1]; exact hi) hv
    rw [← h, hy]
    trivial

/-- Writing the entry `x` to the slot `dst`: `m_storage[dst] = x.1` and
`P::store(dst, x.2)`. -/
theorem Rep.write (p : Pow2 B H) {q : prio_queue T V} {e : Nat} {f : Nat → T × Option V}
    (r : Rep B q e f) {dst : Nat} (hv : dst % B ≠ 0) (hi : dst < e) (x : T × Option V)
    (hx : Compat q.P x.2) :
    ∃ st pl, q.m_storage.set B dst x.1 = some st ∧ q.P.store B dst x.2 = some pl ∧
      Rep B ⟨st, pl⟩ e (Function.update f dst x) ∧ ∀ val, Compat q.P val → Compat pl val := by
  have hk := r.1.1
  have hs := r.1.2
  have he := r.2.1
  have hkey := r.key hv hi
  have hkeys : ∀ i, i % B ≠ 0 → i < e → q.m_storage.m_ptr i = some (f i).1 :=
    fun i h1 h2 => r.key h1 h2
  have hpls : ∀ i, i % B ≠ 0 → i < e → payload_slot q.P i = (f i).2 :=
    fun i h1 h2 => r.payload h1 h2
  have hset := skip_vector.set_eq p q.m_storage dst x.1 _ (by rw [he]; exact hi) hv hkey
  unfold Compat at hx
  cases hP : q.P with
  | void =>
    rw [hP] at hx hpls
    cases hx2 : x.2 with
    | some v => rw [hx2] at hx; exact absurd hx (by simp)
    | none =>
      refine ⟨_, payload.void, hset, rfl, ⟨⟨hk.set dst x.1, trivial⟩, he, ?_⟩,
        fun val hval => hval⟩
      intro i hiv hie
      unfold entry
      by_cases hid : i = dst
      · subst hid
        simp only [if_pos, Function.update_same]
        rw [show payload_slot payload.void i = x.2 from hx2.symm]
      · simp only [if_neg hid, hkeys i hiv hie, Function.update_noteq hid]
        rw [hpls i hiv hie]
  | value st =>
    rw [hP] at hx hs hpls
    simp only at hs
    cases hx2 : x.2 with
    | none => rw [hx2] at hx; exact absurd hx (by simp)
    | some v =>
      obtain ⟨y, hy⟩ := hs.1.live dst (by rw [hs.2, he]; exact hi) hv
      have hset2 := skip_vector.set_eq p st dst v y (by rw [hs.2, he]; exact hi) hv hy
      refine ⟨_, payload.value { st with m_ptr := fun j => if j = dst then some v else st.m_ptr j },
        hset, by simp only [payload.store, hset2], ⟨⟨hk.set dst x.1, ?_⟩, he, ?_⟩, ?_⟩
      · exact ⟨hs.1.set dst v, hs.2⟩
      · intro i hiv hie
        have hpi : st.m_ptr i = (f i).2 := hpls i hiv hie
        unfold entry payload_slot
        by_cases hid : i = dst
        · subst hid
          simp only [if_pos, Function.update_same]
          rw [← hx2]
        · simp only [if_neg hid, hkeys i hiv hie, Function.update_noteq hid]
          rw [hpi]
      · intro val hval
        cases val with
        | none => exact absurd hval (by simp [Compat])
        | some _ => trivial

/-- The move of the payload from a represented slot is the store of its value. -/
theorem Rep.move_eq_store (p : Pow2 B H) {q : prio_queue T V} {e : Nat}
    {f : Nat → T × Option V} (r : Rep B q e f) {src : Nat} (hv : src % B ≠ 0)
    (hi : src < e) (dst : Nat) :
    q.P.move B src dst = q.P.store B dst (f src).2 := by
  have hpi := r.payload hv hi
  have hs := r.1.2
  cases hP : q.P with
  | void => rfl
  | value st =>
    rw [hP] at hpi hs
    simp only [payload_slot] at hpi hs
    obtain ⟨y, hy⟩ := hs.1.live src (by rw [hs.2, r.2.1]; exact hi) hv
    have hg : st.get B src = some y := by
      rw [skip_vector.get_eq p _ _ (by rw [hs.2, r.2.1]; exact hi) hv, hy]
    rw [← hpi, hy]
    simp only [payload.move, hg, payload.store]

/-- The statement pair `place` on a represented queue. -/
theorem Rep.place_spec (p : Pow2 B H) {q : prio_queue T V} {e : Nat} {f : Nat → T × Option V}
    (r : Rep B q e f) {dst : Nat} (hv : dst % B ≠ 0) (hi : dst < e) (tmp : T) (val : Option V)
    (hx : Compat q.P val) :
    ∃ q1, place B q dst tmp val = some q1 ∧
      Rep B q1 e (Function.update f dst (tmp, val)) := by
  obtain ⟨st, pl, h1, h2, h3, _⟩ := r.write p hv hi (tmp, val) hx
  exact ⟨⟨st, pl⟩, by simp only [prio_queue.place, h1, h2], h3⟩

/-! ### The sift-up loop -/

theorem index_pos_of_valid {n : Nat} (hv : n % B ≠ 0) : 1 ≤ n := by
  rcases Nat.eq_zero_or_pos n with h | h
  · subst h; simp at hv
  · exact h

/-- Closing the hole with `t` restores heap order when `t` does not sort before
the parent of the hole. -/
theorem SiftUpInv.close_hole (p : Pow2 B H) {compare : T → T → Bool} {d : Nat}
    {f : Nat → T × Option V} {h : Nat} {t : T} (val : Option V)
    (inv : SiftUpInv B compare d f h t) (hv : h % B ≠ 0)
    (hstop : h = 1 ∨ compare t (f (parent_of B h)).1 = false) :
    HeapOrd B compare d (Function.update f h (t, val)) := by
  intro n hnv hn1 hnd
  obtain ⟨ia, ib, _⟩ := inv
  have hpn := (p.parent_spec n hnv hn1).1
  by_cases hnh : n = h
  · subst hnh
    rw [Function.update_same, Function.update_noteq (by omega)]
    rcases hstop with h1 | h1
    · omega
    · exact h1
  · rw [Function.update_noteq hnh]
    by_cases hph : parent_of B n = h
    · rw [hph, Function.update_same]
      exact ib n hnv hn1 hnd hph
    · rw [Function.update_noteq hph]
      exact ia n hnv hn1 hnd hnh hph

/-- One iteration of the sift-up loop keeps its invariant. -/
theorem SiftUpInv.move_up (p : Pow2 B H) {compare : T → T → Bool}
    (w : StrictWeakOrder compare) {d : Nat} {f : Nat → T × Option V} {h : Nat} {t : T}
    (inv : SiftUpInv B compare d f h t) (hv : h % B ≠ 0) (h1 : h ≠ 1) (hd : h < d)
    (hlt : compare t (f (parent_of B h)).1 = true) :
    SiftUpInv B compare d (Function.update f h (f (parent_of B h))) (parent_of B h) t := by
  obtain ⟨ia, _, ic⟩ := inv
  have hh1 : 1 < h := by have := index_pos_of_valid hv; omega
  obtain ⟨hph, hpv, _⟩ := p.parent_spec h hv hh1
  have hp1 := index_pos_of_valid hpv
  refine ⟨?_, ?_, ?_⟩
  · intro n hnv hn1 hnd hnp hpp
    have hnh : n ≠ h := by
      intro e; subst e; exact hpp rfl
    rw [Function.update_noteq hnh]
    by_cases hpn : parent_of B n = h
    · rw [hpn, Function.update_same]
      exact ic h1 n hnv hn1 hnd hpn
    · rw [Function.update_noteq hpn]
      exact ia n hnv hn1 hnd hnh hpn
  · intro n hnv hn1 hnd hpn
    by_cases hnh : n = h
    · subst hnh
      rw [Function.update_same]
      exact w.asymm hlt
    · rw [Function.update_noteq hnh]
      have h2 := ia n hnv hn1 hnd hnh (by rw [hpn]; omega)
      rw [hpn] at h2
      cases hc : compare (f n).1 t with
      | false => rfl
      | true =>
        have := w.trans _ _ _ hc hlt
        rw [h2] at this; cases this
  · intro hp1' n hnv hn1 hnd hpn
    have hp2 : 1 < parent_of B h := by omega
    obtain ⟨hpp, _, _⟩ := p.parent_spec _ hpv hp2
    rw [Function.update_noteq (show parent_of B (parent_of B h) ≠ h by omega)]
    have h3 := ia (parent_of B h) hpv hp2 (by omega) (by omega) (by omega)
    by_cases hnh : n = h
    · subst hnh
      rw [Function.update_same]
      exact h3
    · rw [Function.update_noteq hnh]
      have h2 := ia n hnv hn1 hnd hnh (by rw [hpn]; omega)
      rw [hpn] at h2
      exact w.neg_trans h2 h3

/-- The sift-up loop on a represented queue: it ends, the result holds the
entries away from the hole and the entry in hand, indices above the hole are
untouched, and the loop invariant yields heap order. -/
theorem sift_up_spec (p : Pow2 B H) (compare : T → T → Bool) (e : Nat) (tmp : T)
    (val : Option V) :
    ∀ (fuel : Nat) (q : prio_queue T V) (h : Nat) (f : Nat → T × Option V),
      Rep B q e f → h % B ≠ 0 → h < e → h ≤ fuel + 1 → Compat q.P val →
      ∃ q1 f1, sift_up B compare fuel q h tmp val = some q1 ∧ Rep B q1 e f1 ∧
        ((slots B e).map f1).Perm ((tmp, val) :: ((slots B e).erase h).map f) ∧
        (∀ i, h < i → f1 i = f i) ∧
        (∀ d, h < d → StrictWeakOrder compare → SiftUpInv B compare d f h tmp →
          HeapOrd B compare d f1) := by
  intro fuel
  induction fuel with
  | zero =>
    intro q h f r hv he hf hc
    have h1 : h = 1 := by have := index_pos_of_valid hv; omega
    obtain ⟨q1, k1, k2⟩ := r.place_spec p hv he tmp val hc
    refine ⟨q1, _, ?_, k2, ?_, ?_, ?_⟩
    · simp only [sift_up, h1, ne_eq, not_true_eq_false, if_false]
      rw [h1] at k1; exact k1
    · exact perm_fill_hole _ (nodup_slots e) f h _ (mem_slots.2 ⟨he, hv⟩)
    · intro i hi
      exact Function.update_noteq (by omega) _ _
    · intro d _ _ inv
      exact inv.close_hole p val hv (Or.inl h1)
  | succ fuel ih =>
    intro q h f r hv he hf hc
    by_cases h1 : h = 1
    · obtain ⟨q1, k1, k2⟩ := r.place_spec p hv he tmp val hc
      refine ⟨q1, _, ?_, k2, ?_, ?_, ?_⟩
      · simp only [sift_up, h1, ne_eq, not_true_eq_false, if_false]
        rw [h1] at k1; exact k1
      · exact perm_fill_hole _ (nodup_slots e) f h _ (mem_slots.2 ⟨he, hv⟩)
      · intro i hi
        exact Function.update_noteq (by omega) _ _
      · intro d _ _ inv
        exact inv.close_hole p val hv (Or.inl h1)
    · have hh1 : 1 < h := by have := index_pos_of_valid hv; omega
      obtain ⟨hph, hpv, _⟩ := p.parent_spec h hv hh1
      have hg := r.get p hpv (show parent_of B h < e by omega)
      simp only [sift_up, ne_eq, h1, not_false_eq_true, if_true, hg, sorts_before]
      rcases Bool.eq_false_or_eq_true (compare tmp (f (parent_of B h)).1) with hcmp | hcmp
      · obtain ⟨st, pl, k1, k2, k3, k4⟩ := r.write p hv he (f (parent_of B h))
          (r.compat hpv (by omega))
        rw [← r.move_eq_store p hpv (show parent_of B h < e by omega) h] at k2
        have hc1 : Compat (⟨st, pl⟩ : prio_queue T V).P val := k4 val hc
        obtain ⟨q1, f1, j1, j2, j3, j4, j5⟩ := ih ⟨st, pl⟩ (parent_of B h) _ k3 hpv
          (by omega) (by omega) hc1
        refine ⟨q1, f1, ?_, j2, ?_, ?_, ?_⟩
        · simp [hcmp, k1, k2, j1]
        · refine j3.trans (List.Perm.cons _ ?_)
          exact perm_move_hole _ (nodup_slots e) f h _ (mem_slots.2 ⟨he, hv⟩)
            (mem_slots.2 ⟨by omega, hpv⟩) (by omega)
        · intro i hi
          rw [j4 i (by omega), Function.update_noteq (by omega)]
        · intro d hd w inv
          exact j5 d (by omega) w (inv.move_up p w hv h1 hd hcmp)
      · obtain ⟨q1, k1, k2⟩ := r.place_spec p hv he tmp val hc
        refine ⟨q1, _, ?_, k2, ?_, ?_, ?_⟩
        · simpa [hcmp] using k1
        · exact perm_fill_hole _ (nodup_slots e) f h _ (mem_slots.2 ⟨he, hv⟩)
        · intro i hi
          exact Function.update_noteq (by omega) _ _
        · intro d _ _ inv
          exact inv.close_hole p val hv (Or.inr hcmp)

/-! ### The sift-down loop of `pop` -/

/-- One iteration of the sift-down loop keeps its invariant, when the child
that moves up does not sort after its sibling (as far as the sibling is below
the last index). -/
theorem SiftDownInv.move_down (p : Pow2 B H) {compare : T → T → Bool} {last : Nat}
    {f : Nat → T × Option V} {h next : Nat}
    (inv : SiftDownInv B compare last f h) (hv : h % B ≠ 0)
    (hnext : next = child_of B h ∨ next = child_of B h + sibling_offset B h)
    (hnl : next ≤ last)
    (hchoice : ∀ o, (o = child_of B h ∨ o = child_of B h + sibling_offset B h) → o ≠ next →
      o < last → compare (f o).1 (f next).1 = false) :
    SiftDownInv B compare last (Function.update f h (f next)) next := by
  obtain ⟨ia, ib⟩ := inv
  obtain ⟨c1, c2, c3, c4, c5, c6⟩ := p.children_spec h hv
  have hh1 := index_pos_of_valid hv
  have hpn : parent_of B next = h := by rcases hnext with e | e <;> rw [e] <;> assumption
  have hnv : next % B ≠ 0 := by rcases hnext with e | e <;> rw [e] <;> assumption
  have hhn : h < next := by rcases hnext with e | e <;> omega
  refine ⟨?_, ?_⟩
  · intro n hv' hn1 hnl' hnn hpnn hlast
    have hpl := (p.parent_spec n hv' hn1).1
    by_cases hnh : n = h
    · subst hnh
      rw [Function.update_same, Function.update_noteq (by omega)]
      exact ib (by omega) next hnv (by omega) hnl hpn
    · rw [Function.update_noteq hnh]
      by_cases hph : parent_of B n = h
      · rw [hph, Function.update_same]
        have hcase := p.child_cases h n hv' hn1 hph
        have hnlast : n < last := by
          rcases Nat.lt_or_ge n last with h' | h'
          · exact h'
          · have := hlast (by omega)
            omega
        exact hchoice n hcase hnn hnlast
      · rw [Function.update_noteq hph]
        exact ia n hv' hn1 hnl' hnh hph (fun e => by have := hlast e; omega)
  · intro _ c hcv hc1 hcl hpc
    have hpl := (p.parent_spec c hcv hc1).1
    rw [hpn, Function.update_same, Function.update_noteq (show c ≠ h by omega)]
    have := ia c hcv hc1 hcl (by omega) (by omega) (fun _ => by omega)
    rw [hpc] at this
    exact this

/-- Heap order gives the invariant of the sift-down loop at the root. -/
theorem SiftDownInv.init {compare : T → T → Bool} {last : Nat} {f : Nat → T × Option V}
    (ho : HeapOrd B compare (last + 1) f) : SiftDownInv B compare last f 1 :=
  ⟨fun n hv hn1 hnl _ _ _ => ho n hv hn1 (by omega), fun h => absurd rfl h⟩

/-- At the bottom, the sift-down invariant gives the sift-up invariant for the
indices below the last one, whatever the key in hand. -/
theorem SiftDownInv.toSiftUp (p : Pow2 B H) {compare : T → T → Bool} {last : Nat}
    {f : Nat → T × Option V} {h : Nat} (inv : SiftDownInv B compare last f h)
    (hv : h % B ≠ 0) (hbot : last < child_of B h) (t : T) :
    SiftUpInv B compare last f h t := by
  obtain ⟨ia, _⟩ := inv
  obtain ⟨_, _, _, c4, _, _⟩ := p.children_spec h hv
  have hno : ∀ n, n % B ≠ 0 → 1 < n → n < last → parent_of B n = h → False := by
    intro n hnv hn1 hnl hpn
    rcases p.child_cases h n hnv hn1 hpn with e | e <;> omega
  refine ⟨?_, ?_, ?_⟩
  · intro n hnv hn1 hnl hnh hpn
    exact ia n hnv hn1 (by omega) hnh hpn (fun e => by omega)
  · intro n hnv hn1 hnl hpn
    exact absurd (hno n hnv hn1 hnl hpn) id
  · intro _ n hnv hn1 hnl hpn
    exact absurd (hno n hnv hn1 hnl hpn) id

/-- When the hole ends at the last index, the entries below it are in heap
order. -/
theorem SiftDownInv.heapOrd_of_last (p : Pow2 B H) {compare : T → T → Bool} {last : Nat}
    {f : Nat → T × Option V} (inv : SiftDownInv B compare last f last) :
    HeapOrd B compare last f := by
  intro n hnv hn1 hnl
  have hpl := (p.parent_spec n hnv hn1).1
  exact inv.1 n hnv hn1 (by omega) (by omega) (by omega) (fun e => by omega)

/-- The sift-down loop on a represented queue: it ends with the hole at a valid
index at the bottom, keeps the entries away from the hole, does not touch the
entry at the last index unless the hole ends there, and keeps its invariant. -/
theorem sift_down_spec (p : Pow2 B H) (compare : T → T → Bool) (last : Nat) :
    ∀ (fuel : Nat) (q : prio_queue T V) (h : Nat) (f : Nat → T × Option V),
      Rep B q (last + 1) f → h % B ≠ 0 → h ≤ last → last ≤ h + fuel →
      ∃ q1 h1 f1, sift_down B compare last fuel q h = some (q1, h1) ∧
        Rep B q1 (last + 1) f1 ∧ h1 % B ≠ 0 ∧ h ≤ h1 ∧ h1 ≤ last ∧ last < child_of B h1 ∧
        (((slots B (last + 1)).erase h1).map f1).Perm (((slots B (last + 1)).erase h).map f) ∧
        (h1 ≠ last → f1 last = f last) ∧
        (StrictWeakOrder compare → SiftDownInv B compare last f h →
          SiftDownInv B compare last f1 h1) := by
  intro fuel
  induction fuel with
  | zero =>
    intro q h f r hv hl hf
    obtain ⟨_, _, c3, _⟩ := p.children_spec h hv
    refine ⟨q, h, f, ?_, r, hv, Nat.le_refl _, hl, by omega, List.Perm.refl _, fun _ => rfl,
      fun _ inv => inv⟩
    simp only [sift_down]
    rw [if_pos (by omega)]
  | succ fuel ih =>
    intro q h f r hv hl hf
    obtain ⟨c1, c2, c3, c4, c5, c6⟩ := p.children_spec h hv
    by_cases hbot : child_of B h > last
    · refine ⟨q, h, f, ?_, r, hv, Nat.le_refl _, hl, hbot, List.Perm.refl _, fun _ => rfl,
        fun _ inv => inv⟩
      simp only [sift_down]
      rw [if_pos hbot]
    · have hlc : child_of B h ≤ last := by omega
      have hglc := r.get p c5 (show child_of B h < last + 1 by omega)
      have hso : (if is_block_leaf B h = true then B else 1) = sibling_offset B h := rfl
      simp only [sift_down, if_neg hbot, hso, hglc, sorts_before]
      have tail : ∀ next, (next = child_of B h ∨ next = child_of B h + sibling_offset B h) →
          next ≤ last →
          (StrictWeakOrder compare → ∀ o,
            (o = child_of B h ∨ o = child_of B h + sibling_offset B h) → o ≠ next →
            o < last → compare (f o).1 (f next).1 = false) →
          ∃ q1 h1 f1,
            (∃ st pl, q.m_storage.get B next = some (f next).1 ∧
              q.m_storage.set B h (f next).1 = some st ∧
              q.P.move B next h = some pl ∧
              sift_down B compare last fuel ⟨st, pl⟩ next = some (q1, h1)) ∧
            Rep B q1 (last + 1) f1 ∧ h1 % B ≠ 0 ∧ h ≤ h1 ∧ h1 ≤ last ∧ last < child_of B h1 ∧
            (((slots B (last + 1)).erase h1).map f1).Perm
              (((slots B (last + 1)).erase h).map f) ∧
            (h1 ≠ last → f1 last = f last) ∧
            (StrictWeakOrder compare → SiftDownInv B compare last f h →
              SiftDownInv B compare last f1 h1) := by
        intro next hnext hnl hchoice
        have hnv : next % B ≠ 0 := by rcases hnext with e | e <;> rw [e] <;> assumption
        have hhn : h < next := by rcases hnext with e | e <;> omega
        have hgn := r.get p hnv (show next < last + 1 by omega)
        obtain ⟨st, pl, k1, k2, k3, _⟩ := r.write p hv (show h < last + 1 by omega) (f next)
          (r.compat hnv (by omega))
        rw [← r.move_eq_store p hnv (show next < last + 1 by omega) h] at k2
        obtain ⟨q1, h1, f1, j1, j2, j3, j4, j5, j6, j7, j8, j9⟩ :=
          ih ⟨st, pl⟩ next _ k3 hnv hnl (by omega)
        refine ⟨q1, h1, f1, ⟨st, pl, hgn, k1, k2, j1⟩, j2, j3, by omega, j5, j6, ?_, ?_, ?_⟩
        · refine j7.trans ?_
          exact perm_move_hole _ (nodup_slots _) f h next (mem_slots.2 ⟨by omega, hv⟩)
            (mem_slots.2 ⟨by omega, hnv⟩) (by omega)
        · intro hne
          rw [j8 hne, Function.update_noteq (by omega)]
        · intro w inv
          exact j9 w (inv.move_down p hv hnext hnl (hchoice w))
      by_cases hrc : child_of B h + sibling_offset B h < last
      · have hgrc := r.get p c6 (show child_of B h + sibling_offset B h < last + 1 by omega)
        rcases Bool.eq_false_or_eq_true
          (compare (f (child_of B h)).1 (f (child_of B h + sibling_offset B h)).1) with hcmp | hcmp
        · obtain ⟨q1, h1, f1, ⟨st, pl, t0, t1, t2, t3⟩, rest⟩ := tail (child_of B h) (Or.inl rfl) hlc
            (by
              intro w o ho hne _
              rcases ho with e | e
              · exact absurd e hne
              · rw [e]; exact w.asymm hcmp)
          refine ⟨q1, h1, f1, ?_, rest⟩
          simp [if_pos hrc, hgrc, hcmp, t0, t1, t2, t3]
        · obtain ⟨q1, h1, f1, ⟨st, pl, t0, t1, t2, t3⟩, rest⟩ :=
            tail (child_of B h + sibling_offset B h) (Or.inr rfl) (by omega)
            (by
              intro w o ho hne _
              rcases ho with e | e
              · rw [e]; exact hcmp
              · exact absurd e hne)
          refine ⟨q1, h1, f1, ?_, rest⟩
          simp [if_pos hrc, hgrc, hcmp, t0, t1, t2, t3]
      · obtain ⟨q1, h1, f1, ⟨st, pl, t0, t1, t2, t3⟩, rest⟩ := tail (child_of B h) (Or.inl rfl) hlc
          (by
            intro w o ho hne hol
            rcases ho with e | e
            · exact absurd e hne
            · omega)
        refine ⟨q1, h1, f1, ?_, rest⟩
        simp [if_neg hrc, t0, t1, t2, t3]

/-! ### `push` and `pop` on a represented queue -/

/-- A queue that satisfies the storage invariant is represented by its own
entries. -/
theorem Shape.rep {q : prio_queue T V} (hs : Shape B q) (d : T × Option V) :
    Rep B q q.m_storage.m_end (fun i => (q.entry i).getD d) := by
  refine ⟨hs, rfl, ?_⟩
  intro i hv hi
  obtain ⟨k, hk⟩ := hs.1.live i hi hv
  simp only [entry, hk, Option.getD_some]

theorem HeapOrd.mono {compare : T → T → Bool} {d d1 : Nat} {f : Nat → T × Option V}
    (ho : HeapOrd B compare d f) (h : d1 ≤ d) : HeapOrd B compare d1 f :=
  fun n hv hn1 hnd => ho n hv hn1 (by omega)

/-- Heap order of a represented queue, stated on the queue and on its entries. -/
theorem Rep.heapOrdered_iff (p : Pow2 B H) {compare : T → T → Bool} {q : prio_queue T V}
    {e : Nat} {f : Nat → T × Option V} (r : Rep B q e f) :
    HeapOrdered B compare q ↔ HeapOrd B compare e f := by
  constructor
  · intro ho n hv hn1 hne
    obtain ⟨hpl, hpv, _⟩ := p.parent_spec n hv hn1
    exact ho n _ _ hn1 (r.get p hv hne) (r.get p hpv (by omega))
  · intro ho n a b hn1 ha hb
    obtain ⟨h1, h2, h3⟩ := (skip_vector.get_eq_some_iff p _ _ _).1 ha
    rw [r.2.1] at h1
    obtain ⟨hpl, hpv, _⟩ := p.parent_spec n h2 hn1
    have ha' := r.get p h2 h1
    have hb' := r.get p hpv (show parent_of B n < e by omega)
    rw [ha] at ha'
    rw [hb] at hb'
    cases ha'
    cases hb'
    exact ho n h2 hn1 h1

/-- Removing the largest slot leaves the slots below an end marker from which
only forbidden indices lead up to it. -/
theorem slots_erase_last {e idx : Nat} (hle : e ≤ idx)
    (hgap : ∀ a, e ≤ a → a < idx → a % B = 0) :
    ((slots B (idx + 1)).erase idx).Perm (slots B e) := by
  rw [List.perm_ext_iff_of_nodup ((nodup_slots _).erase _) (nodup_slots _)]
  intro a
  rw [(nodup_slots _).mem_erase_iff, mem_slots, mem_slots]
  constructor
  · rintro ⟨h1, h2, h3⟩
    refine ⟨?_, h3⟩
    rcases Nat.lt_or_ge a e with h | h
    · exact h
    · exact absurd (hgap a h (by omega)) h3
  · rintro ⟨h1, h2⟩
    exact ⟨by omega, by omega, h2⟩

theorem last_valid (p : Pow2 B H) {e : Nat} (he : e ≠ 0) (hm : e % B ≠ 1) :
    (e - 1) % B ≠ 0 := by
  have hB := p.two_le
  obtain ⟨e1, rfl⟩ : ∃ e1, e = e1 + 1 := ⟨e - 1, by omega⟩
  rw [Nat.add_sub_cancel]
  rcases succ_mod_cases B e1 (by omega) with ⟨_, h2, _⟩ | ⟨h1, _, _⟩ <;> omega

/-- The two `back()` calls on a represented, non-empty queue. -/
theorem Rep.back (p : Pow2 B H) {q : prio_queue T V} {e : Nat} {f : Nat → T × Option V}
    (r : Rep B q e f) (he : e ≠ 0) :
    q.m_storage.back = some (f (e - 1)).1 ∧ q.P.back = some (f (e - 1)).2 := by
  have hv := last_valid p he (by have := r.1.1.end_mod; rw [r.2.1] at this; exact this)
  have hkey := r.key hv (show e - 1 < e by omega)
  have hpl := r.payload hv (show e - 1 < e by omega)
  have hc := r.compat hv (show e - 1 < e by omega)
  have hs := r.1.2
  constructor
  · unfold skip_vector.back skip_vector.empty skip_vector.size
    rw [r.2.1]
    simp [he, hkey]
  · cases hP : q.P with
    | void =>
      rw [hP] at hpl
      simp only [payload_slot] at hpl
      rw [← hpl]
      rfl
    | value st =>
      rw [hP] at hpl hs hc
      simp only [payload_slot] at hpl hs
      have hse : st.m_end = e := by rw [hs.2, r.2.1]
      cases h2 : (f (e - 1)).2 with
      | none => rw [h2] at hc; exact absurd hc (by simp [Compat])
      | some v =>
        rw [h2] at hpl
        simp [payload.back, skip_vector.back, skip_vector.empty, skip_vector.size, hse, he, hpl]

/-- The two `pop_back()` calls on a represented, non-empty queue. -/
theorem Rep.pop_back (p : Pow2 B H) {q : prio_queue T V} {e : Nat} {f : Nat → T × Option V}
    (r : Rep B q e f) (he : e ≠ 0) :
    ∃ st pl, q.m_storage.pop_back B = some st ∧ q.P.pop_back B = some pl ∧
      Rep B ⟨st, pl⟩ (e - 1 - (if (e - 1) % B = 1 then 1 else 0)) f := by
  have hs := r.1.2
  have he' := r.2.1
  have hkeys : ∀ i, i % B ≠ 0 → i < e → q.m_storage.m_ptr i = some (f i).1 :=
    fun i h1 h2 => r.key h1 h2
  have hpls : ∀ i, i % B ≠ 0 → i < e → payload_slot q.P i = (f i).2 :=
    fun i h1 h2 => r.payload h1 h2
  obtain ⟨st, k1, k2, k3, _, _, k6⟩ := skip_vector.pop_back_spec p q.m_storage r.1.1
    (by rw [he']; exact he)
  rw [he'] at k3 k6
  cases hP : q.P with
  | void =>
    rw [hP] at hpls
    refine ⟨st, payload.void, k1, rfl, ⟨k2, trivial⟩, k3, ?_⟩
    intro i hv hi
    have hi2 : i < e - 1 := by
      have : (if (e - 1) % B = 1 then 1 else 0) ≤ 1 := by split <;> omega
      omega
    unfold entry
    rw [k6 i hi2, hkeys i hv (by omega)]
    simp only
    rw [hpls i hv (by omega)]
  | value s0 =>
    rw [hP] at hs hpls
    simp only at hs
    obtain ⟨s1, j1, j2, j3, _, _, j6⟩ := skip_vector.pop_back_spec p s0 hs.1
      (by rw [hs.2, he']; exact he)
    rw [hs.2, he'] at j3 j6
    refine ⟨st, payload.value s1, k1, by simp only [payload.pop_back, j1],
      ⟨k2, j2, by rw [j3, k3]⟩, k3, ?_⟩
    intro i hv hi
    have hi2 : i < e - 1 := by
      have : (if (e - 1) % B = 1 then 1 else 0) ≤ 1 := by split <;> omega
      omega
    have hpi : s0.m_ptr i = (f i).2 := hpls i hv (by omega)
    unfold entry payload_slot
    rw [k6 i hi2, hkeys i hv (by omega)]
    simp only
    rw [j6 i hi2, hpi]

theorem one_valid (p : Pow2 B H) : 1 % B ≠ 0 := by
  have := p.two_le
  rw [Nat.mod_eq_of_lt (by omega)]
  omega

theorem pred_mod_of_mod_one {n : Nat} (hB : 2 ≤ B) (h : n % B = 1) : (n - 1) % B = 0 := by
  obtain ⟨m, rfl⟩ : ∃ m, n = m + 1 := ⟨n - 1, by
    rcases Nat.eq_zero_or_pos n with h0 | h0
    · subst h0; simp at h
    · omega⟩
  rw [Nat.add_sub_cancel]
  rcases succ_mod_cases B m (by omega) with ⟨_, h2, _⟩ | ⟨h1, _, _⟩ <;> omega

/-- The end marker after `pop_back` when it was `e`. -/
theorem slots_pop_perm (p : Pow2 B H) (e : Nat) :
    ((slots B (e - 1 + 1)).erase (e - 1)).Perm
      (slots B (e - 1 - (if (e - 1) % B = 1 then 1 else 0))) := by
  apply slots_erase_last
  · split <;> omega
  · intro a h1 h2
    by_cases h : (e - 1) % B = 1
    · rw [if_pos h] at h1
      have : a = e - 1 - 1 := by omega
      rw [this]
      exact pred_mod_of_mod_one p.two_le h
    · rw [if_neg h] at h1
      omega

/-- The effect of `pop` on a represented, non-empty queue: it succeeds, the end
marker is that of `pop_back`, the entries are the old ones without the entry at
index 1, and heap order is kept. -/
theorem pop_spec (p : Pow2 B H) (compare : T → T → Bool) {q : prio_queue T V} {e : Nat}
    {f : Nat → T × Option V} (r : Rep B q e f) (he : e ≠ 0) :
    ∃ q3 f3, pop B compare q = some q3 ∧
      Rep B q3 (e - 1 - (if (e - 1) % B = 1 then 1 else 0)) f3 ∧
      (f 1 :: (slots B (e - 1 - (if (e - 1) % B = 1 then 1 else 0))).map f3).Perm
        ((slots B e).map f) ∧
      (StrictWeakOrder compare → HeapOrd B compare e f →
        HeapOrd B compare (e - 1 - (if (e - 1) % B = 1 then 1 else 0)) f3) := by
  have hmod : e % B ≠ 1 := by have := r.1.1.end_mod; rw [r.2.1] at this; exact this
  have hlv := last_valid p he hmod
  have h1v := one_valid p
  have hl1 : 1 ≤ e - 1 := index_pos_of_valid hlv
  have hee : e - 1 + 1 = e := by omega
  have r' : Rep B q (e - 1 + 1) f := by rw [hee]; exact r
  obtain ⟨q1, h1, f1, s1, s2, s3, s4, s5, s6, s7, s8, s9⟩ :=
    sift_down_spec p compare (e - 1) (e - 1) q 1 f r' h1v hl1 (by omega)
  have hempty : q.empty = false := by
    simp [prio_queue.empty, skip_vector.empty, skip_vector.size, r.2.1, he]
  have hsize : q.m_storage.size - 1 = e - 1 := by
    simp [skip_vector.size, r.2.1]
  have hd : e - 1 - (if (e - 1) % B = 1 then 1 else 0) ≤ e - 1 := by omega
  have h1mem : 1 ∈ slots B e := mem_slots.2 ⟨by omega, h1v⟩
  have hlmem : e - 1 ∈ slots B e := mem_slots.2 ⟨by omega, hlv⟩
  have hperm0 : (f 1 :: ((slots B e).erase 1).map f).Perm ((slots B e).map f) :=
    ((List.perm_cons_erase h1mem).map f).symm
  rw [hee] at s2 s7
  have hsl := slots_pop_perm p e
  rw [hee] at hsl
  by_cases hh : h1 = e - 1
  · subst hh
    obtain ⟨st, pl, b1, b2, b3⟩ := s2.pop_back p he
    refine ⟨⟨st, pl⟩, f1, ?_, b3, ?_, ?_⟩
    · simp [pop, hempty, hsize, s1, b1, b2]
    · refine List.Perm.trans (List.Perm.cons _ ?_) hperm0
      exact (hsl.symm.map f1).trans s7
    · intro w ho
      rw [← hee] at ho
      exact ((s9 w (SiftDownInv.init ho)).heapOrd_of_last p).mono hd
  · have hback := s2.back p he
    have hcompat := s2.compat hlv (show e - 1 < e by omega)
    obtain ⟨q2, f2, u1, u2, u3, u4, u5⟩ :=
      sift_up_spec p compare e (f1 (e - 1)).1 (f1 (e - 1)).2 h1 q1 h1 f1 s2 s3 (by omega)
        (by omega) hcompat
    obtain ⟨st, pl, b1, b2, b3⟩ := u2.pop_back p he
    refine ⟨⟨st, pl⟩, f2, ?_, b3, ?_, ?_⟩
    · simp [pop, hempty, hsize, s1, hh, hback.1, hback.2, u1, b1, b2]
    · refine List.Perm.trans (List.Perm.cons _ ?_) hperm0
      refine (hsl.symm.map f2).trans ?_
      have e1 : ((slots B e).map f2).Perm (f2 (e - 1) :: ((slots B e).erase (e - 1)).map f2) :=
        (List.perm_cons_erase hlmem).map f2
      have e2 : f2 (e - 1) = ((f1 (e - 1)).1, (f1 (e - 1)).2) := by
        rw [u4 (e - 1) (by omega)]
      rw [e2] at e1
      exact (e1.symm.trans u3).cons_inv.trans s7
    · intro w ho
      rw [← hee] at ho
      have su := (s9 w (SiftDownInv.init ho)).toSiftUp p s3 s6 (f1 (e - 1)).1
      exact (u5 (e - 1) (by omega) w su).mono hd

theorem next_index_gap {e : Nat} :
    e ≤ skip_vector.next_index B e ∧
      ∀ a, e ≤ a → a < skip_vector.next_index B e → a % B = 0 := by
  unfold skip_vector.next_index
  by_cases h : e % B ≠ 0
  · rw [if_pos h]
    exact ⟨Nat.le_refl _, fun a h1 h2 => by omega⟩
  · rw [if_neg h]
    refine ⟨by omega, fun a h1 h2 => ?_⟩
    have : a = e := by omega
    rw [this]; omega

/-- The sift-up that ends `push_key`, on the queue that already holds the new
entry at the new last index. -/
theorem push_finish (p : Pow2 B H) (compare : T → T → Bool) {q1 : prio_queue T V} {e : Nat}
    {f : Nat → T × Option V} {k : T} {val : Option V}
    (r1 : Rep B q1 (skip_vector.next_index B e + 1)
      (Function.update f (skip_vector.next_index B e) (k, val)))
    (hc : Compat q1.P val) :
    ∃ q2 f2, sift_up B compare (skip_vector.next_index B e) q1 (skip_vector.next_index B e) k val
        = some q2 ∧
      Rep B q2 (skip_vector.next_index B e + 1) f2 ∧
      ((slots B (skip_vector.next_index B e + 1)).map f2).Perm ((k, val) :: (slots B e).map f) ∧
      (StrictWeakOrder compare → HeapOrd B compare e f →
        HeapOrd B compare (skip_vector.next_index B e + 1) f2) := by
  have hiv := (skip_vector.next_index_mod p e).1
  obtain ⟨hle, hgap⟩ := next_index_gap (B := B) (e := e)
  generalize skip_vector.next_index B e = idx at *
  obtain ⟨q2, f2, u1, u2, u3, _, u5⟩ :=
    sift_up_spec p compare (idx + 1) k val idx q1 idx _ r1 hiv (by omega) (by omega) hc
  have hsl := slots_erase_last (B := B) hle hgap
  refine ⟨q2, f2, u1, u2, ?_, ?_⟩
  · refine u3.trans (List.Perm.cons _ ?_)
    have hm : ((slots B (idx + 1)).erase idx).map (Function.update f idx (k, val))
        = ((slots B (idx + 1)).erase idx).map f := by
      apply List.map_congr_left
      intro a ha
      have := ((nodup_slots _).mem_erase_iff.1 ha).1
      rw [Function.update_noteq this]
    rw [hm]
    exact hsl.map f
  · intro w ho
    apply u5 (idx + 1) (by omega) w
    have hlt : ∀ n, n % B ≠ 0 → n < idx + 1 → n ≠ idx → n < e := by
      intro n hnv h1 h2
      rcases Nat.lt_or_ge n e with h | h
      · exact h
      · exact absurd (hgap n h (by omega)) hnv
    have hno : ∀ n, n % B ≠ 0 → 1 < n → n < idx + 1 → parent_of B n = idx → False := by
      intro n hnv hn1 hnl hpn
      have := (p.parent_spec n hnv hn1).1
      omega
    refine ⟨?_, ?_, ?_⟩
    · intro n hnv hn1 hnl hnh hpn
      rw [Function.update_noteq hnh, Function.update_noteq hpn]
      exact ho n hnv hn1 (hlt n hnv hnl hnh)
    · intro n hnv hn1 hnl hpn
      exact absurd (hno n hnv hn1 hnl hpn) id
    · intro _ n hnv hn1 hnl hpn
      exact absurd (hno n hnv hn1 hnl hpn) id

/-- The effect of `push(u)` on a represented queue without payloads. -/
theorem push_void_spec (p : Pow2 B H) (compare : T → T → Bool) {q : prio_queue T V} {e : Nat}
    {f : Nat → T × Option V} (r : Rep B q e f) (hP : q.P = payload.void) (k : T) :
    ∃ q2 f2, push_void B compare q k = some q2 ∧
      Rep B q2 (skip_vector.next_index B e + 1) f2 ∧
      ((slots B (skip_vector.next_index B e + 1)).map f2).Perm ((k, none) :: (slots B e).map f) ∧
      (StrictWeakOrder compare → HeapOrd B compare e f →
        HeapOrd B compare (skip_vector.next_index B e + 1) f2) ∧
      q2.P = payload.void := by
  have hkeys : ∀ i, i % B ≠ 0 → i < e → q.m_storage.m_ptr i = some (f i).1 :=
    fun i h1 h2 => r.key h1 h2
  have hpls : ∀ i, i % B ≠ 0 → i < e → (f i).2 = none := by
    intro i h1 h2
    have := r.payload h1 h2
    rw [hP] at this
    exact this.symm
  obtain ⟨st, k1, k2, k3, k4, k5⟩ := skip_vector.push_back_spec p q.m_storage r.1.1 k
  rw [r.2.1] at k1 k3 k4 k5
  obtain ⟨hle, hgap⟩ := next_index_gap (B := B) (e := e)
  have hback : st.back = some k := by
    simp [skip_vector.back, skip_vector.empty, skip_vector.size, k3, k4]
  have r1 : Rep B (⟨st, q.P⟩ : prio_queue T V) (skip_vector.next_index B e + 1)
      (Function.update f (skip_vector.next_index B e) (k, none)) := by
    refine ⟨⟨k2, by rw [hP]; trivial⟩, k3, ?_⟩
    intro i hv hi
    unfold entry
    by_cases hid : i = skip_vector.next_index B e
    · rw [hid, k4, Function.update_same, hP]
      rfl
    · have hie : i < e := by
        rcases Nat.lt_or_ge i e with h | h
        · exact h
        · exact absurd (hgap i h (by omega)) hv
      simp only [k5 i hie hv, hkeys i hv hie, Function.update_noteq hid, hP, payload_slot]
      rw [← hpls i hv hie]
  have hc : Compat (⟨st, q.P⟩ : prio_queue T V).P none := by
    simp only [hP, Compat]
  obtain ⟨q2, f2, u1, u2, u3, u4⟩ := push_finish p compare r1 hc
  refine ⟨q2, f2, ?_, u2, u3, u4, ?_⟩
  · simp only [push_void, hP, push_key, k1, hback]
    rw [hP] at u1
    simpa [payload.back] using u1
  · have h1v := one_valid p
    have hidx := index_pos_of_valid (skip_vector.next_index_mod p e).1
    have hmem : f2 1 ∈ (slots B (skip_vector.next_index B e + 1)).map f2 :=
      List.mem_map.2 ⟨1, mem_slots.2 ⟨by omega, h1v⟩, rfl⟩
    have hmem2 := u3.mem_iff.1 hmem
    have hnone : (f2 1).2 = none := by
      rcases List.mem_cons.1 hmem2 with h | h
      · rw [h]
      · obtain ⟨i, hi, hfi⟩ := List.mem_map.1 h
        rw [← hfi]
        have := mem_slots.1 hi
        exact hpls i this.2 this.1
    have hcomp := u2.compat h1v (show 1 < skip_vector.next_index B e + 1 by omega)
    rw [hnone] at hcomp
    cases hq : q2.P with
    | void => rfl
    | value s => rw [hq] at hcomp; exact absurd hcomp (by simp [Compat])

/-- The effect of `push(key, value)` on a represented queue with payloads. -/
theorem push_spec (p : Pow2 B H) (compare : T → T → Bool) {q : prio_queue T V} {e : Nat}
    {f : Nat → T × Option V} (r : Rep B q e f) {s0 : skip_vector V}
    (hP : q.P = payload.value s0) (k : T) (v : V) :
    ∃ q2 f2, push B compare q k v = some q2 ∧
      Rep B q2 (skip_vector.next_index B e + 1) f2 ∧
      ((slots B (skip_vector.next_index B e + 1)).map f2).Perm
        ((k, some v) :: (slots B e).map f) ∧
      (StrictWeakOrder compare → HeapOrd B compare e f →
        HeapOrd B compare (skip_vector.next_index B e + 1) f2) ∧
      ∃ s1, q2.P = payload.value s1 := by
  have hkeys : ∀ i, i % B ≠ 0 → i < e → q.m_storage.m_ptr i = some (f i).1 :=
    fun i h1 h2 => r.key h1 h2
  have hpls : ∀ i, i % B ≠ 0 → i < e → s0.m_ptr i = (f i).2 := by
    intro i h1 h2
    have := r.payload h1 h2
    rw [hP] at this
    exact this
  have hs := r.1.2
  rw [hP] at hs
  simp only at hs
  have hs0e : s0.m_end = e := by rw [hs.2, r.2.1]
  obtain ⟨st, k1, k2, k3, k4, k5⟩ := skip_vector.push_back_spec p q.m_storage r.1.1 k
  rw [r.2.1] at k1 k3 k4 k5
  obtain ⟨s1, j1, j2, j3, j4, j5⟩ := skip_vector.push_back_spec p s0 hs.1 v
  rw [hs0e] at j1 j3 j4 j5
  obtain ⟨hle, hgap⟩ := next_index_gap (B := B) (e := e)
  have hback : st.back = some k := by
    simp [skip_vector.back, skip_vector.empty, skip_vector.size, k3, k4]
  have hback2 : (payload.value s1).back = some (some v) := by
    simp [payload.back, skip_vector.back, skip_vector.empty, skip_vector.size, j3, j4]
  have r1 : Rep B (⟨st, payload.value s1⟩ : prio_queue T V) (skip_vector.next_index B e + 1)
      (Function.update f (skip_vector.next_index B e) (k, some v)) := by
    refine ⟨⟨k2, j2, by rw [j3, k3]⟩, k3, ?_⟩
    intro i hv hi
    unfold entry payload_slot
    by_cases hid : i = skip_vector.next_index B e
    · rw [hid, k4, Function.update_same]
      simp only [j4]
    · have hie : i < e := by
        rcases Nat.lt_or_ge i e with h | h
        · exact h
        · exact absurd (hgap i h (by omega)) hv
      simp only [k5 i hie hv, hkeys i hv hie, Function.update_noteq hid, j5 i hie hv,
        hpls i hv hie]
  have hc : Compat (⟨st, payload.value s1⟩ : prio_queue T V).P (some v) := by
    simp only [Compat]
  obtain ⟨q2, f2, u1, u2, u3, u4⟩ := push_finish p compare r1 hc
  refine ⟨q2, f2, ?_, u2, u3, u4, ?_⟩
  · simp only [push, hP, payload.push_back, j1, push_key, k1, hback, hback2]
    exact u1
  · have h1v := one_valid p
    have hidx := index_pos_of_valid (skip_vector.next_index_mod p e).1
    have hmem : f2 1 ∈ (slots B (skip_vector.next_index B e + 1)).map f2 :=
      List.mem_map.2 ⟨1, mem_slots.2 ⟨by omega, h1v⟩, rfl⟩
    have hmem2 := u3.mem_iff.1 hmem
    have hsome : ∃ v1, (f2 1).2 = some v1 := by
      rcases List.mem_cons.1 hmem2 with h | h
      · exact ⟨v, by rw [h]⟩
      · obtain ⟨i, hi, hfi⟩ := List.mem_map.1 h
        rw [← hfi]
        have hi2 := mem_slots.1 hi
        obtain ⟨y, hy⟩ := hs.1.live i (by rw [hs0e]; exact hi2.1) hi2.2
        exact ⟨y, by rw [← hpls i hi2.2 hi2.1, hy]⟩
    obtain ⟨v1, hv1⟩ := hsome
    have hcomp := u2.compat h1v (show 1 < skip_vector.next_index B e + 1 by omega)
    rw [hv1] at hcomp
    cases hq : q2.P with
    | void => rw [hq] at hcomp; exact absurd hcomp (by simp [Compat])
    | value s => exact ⟨s, rfl⟩

/-! ### Invariants of the reachable states -/

theorem shape_init_void : Shape B (init_void : prio_queue T V) :=
  ⟨skip_vector.inv_init B, trivial⟩

theorem shape_init : Shape B (init : prio_queue T V) :=
  ⟨skip_vector.inv_init B, skip_vector.inv_init B, rfl⟩

theorem heapOrdered_of_end_zero {compare : T → T → Bool} {q : prio_queue T V}
    (h : q.m_storage.m_end = 0) : HeapOrdered B compare q := by
  intro n a b _ ha _
  simp [skip_vector.get, h] at ha

/-- A key of a non-empty queue that satisfies the storage invariant. -/
theorem Shape.exists_key (p : Pow2 B H) {q : prio_queue T V} (hs : Shape B q)
    (he : q.m_storage.m_end ≠ 0) : ∃ k, q.m_storage.m_ptr 1 = some k := by
  have hv := last_valid p he hs.1.end_mod
  have := index_pos_of_valid hv
  exact hs.1.live 1 (by omega) (one_valid p)

/-- The storage invariant and heap order are kept by `push(u)`. -/
theorem Inv.push_void (p : Pow2 B H) {compare : T → T → Bool} (w : StrictWeakOrder compare)
    {q : prio_queue T V} (hq : Inv B compare q) (hP : q.P = payload.void) (k : T) :
    ∃ q1, prio_queue.push_void B compare q k = some q1 ∧ Inv B compare q1 ∧
      q1.P = payload.void ∧
      q1.m_storage.m_end = skip_vector.next_index B q.m_storage.m_end + 1 := by
  have r := hq.1.rep (k, none)
  obtain ⟨q2, f2, u1, u2, _, u4, u5⟩ := push_void_spec p compare r hP k
  exact ⟨q2, u1, ⟨u2.1, (u2.heapOrdered_iff p).2 (u4 w ((r.heapOrdered_iff p).1 hq.2))⟩, u5,
    u2.2.1⟩

/-- The storage invariant and heap order are kept by `push(key, value)`. -/
theorem Inv.push (p : Pow2 B H) {compare : T → T → Bool} (w : StrictWeakOrder compare)
    {q : prio_queue T V} (hq : Inv B compare q) {s0 : skip_vector V}
    (hP : q.P = payload.value s0) (k : T) (v : V) :
    ∃ q1, prio_queue.push B compare q k v = some q1 ∧ Inv B compare q1 ∧
      (∃ s1, q1.P = payload.value s1) ∧
      q1.m_storage.m_end = skip_vector.next_index B q.m_storage.m_end + 1 := by
  have r := hq.1.rep (k, none)
  obtain ⟨q2, f2, u1, u2, _, u4, u5⟩ := push_spec p compare r hP k v
  exact ⟨q2, u1, ⟨u2.1, (u2.heapOrdered_iff p).2 (u4 w ((r.heapOrdered_iff p).1 hq.2))⟩, u5,
    u2.2.1⟩

/-- The storage invariant and heap order are kept by `pop()` on a non-empty
queue. -/
theorem Inv.pop (p : Pow2 B H) {compare : T → T → Bool} (w : StrictWeakOrder compare)
    {q : prio_queue T V} (hq : Inv B compare q) (he : q.m_storage.m_end ≠ 0) :
    ∃ q1, prio_queue.pop B compare q = some q1 ∧ Inv B compare q1 ∧
      q1.m_storage.m_end = q.m_storage.m_end - 1
        - (if (q.m_storage.m_end - 1) % B = 1 then 1 else 0) := by
  obtain ⟨k, _⟩ := hq.1.exists_key p he
  have r := hq.1.rep (k, none)
  obtain ⟨q2, f2, u1, u2, _, u4⟩ := pop_spec p compare r he
  exact ⟨q2, u1, ⟨u2.1, (u2.heapOrdered_iff p).2 (u4 w ((r.heapOrdered_iff p).1 hq.2))⟩,
    u2.2.1⟩

theorem push_void_kind {compare : T → T → Bool} {q q1 : prio_queue T V} {k : T}
    (h : prio_queue.push_void B compare q k = some q1) : q.P = payload.void := by
  unfold prio_queue.push_void at h
  cases hP : q.P with
  | void => rfl
  | value s => rw [hP] at h; cases h

theorem push_kind {compare : T → T → Bool} {q q1 : prio_queue T V} {k : T} {v : V}
    (h : prio_queue.push B compare q k v = some q1) : ∃ s, q.P = payload.value s := by
  unfold prio_queue.push at h
  cases hP : q.P with
  | void => rw [hP] at h; simp [payload.push_back] at h
  | value s => exact ⟨s, rfl⟩

theorem pop_nonempty {compare : T → T → Bool} {q q1 : prio_queue T V}
    (h : prio_queue.pop B compare q = some q1) : q.m_storage.m_end ≠ 0 := by
  intro h0
  unfold prio_queue.pop at h
  have : q.empty = true := by
    simp [prio_queue.empty, skip_vector.empty, skip_vector.size, h0]
  rw [if_pos this] at h
  cases h

theorem empty_eq_false_iff {q : prio_queue T V} :
    q.empty = false ↔ q.m_storage.m_end ≠ 0 := by
  simp [prio_queue.empty, skip_vector.empty, skip_vector.size]

/-- The storage invariant alone is kept by the three operations, whatever the
comparator. -/
theorem Shape.kept (p : Pow2 B H) (compare : T → T → Bool) {q : prio_queue T V}
    (hq : Shape B q) :
    (∀ k, q.P = payload.void → ∃ q1, prio_queue.push_void B compare q k = some q1 ∧
      Shape B q1 ∧
      q1.m_storage.m_end = skip_vector.next_index B q.m_storage.m_end + 1) ∧
    (∀ k v s0, q.P = payload.value s0 → ∃ q1, prio_queue.push B compare q k v = some q1 ∧
      Shape B q1 ∧
      q1.m_storage.m_end = skip_vector.next_index B q.m_storage.m_end + 1) ∧
    (q.m_storage.m_end ≠ 0 → ∃ q1, prio_queue.pop B compare q = some q1 ∧ Shape B q1 ∧
      q1.m_storage.m_end = q.m_storage.m_end - 1
        - (if (q.m_storage.m_end - 1) % B = 1 then 1 else 0)) := by
  refine ⟨?_, ?_, ?_⟩
  · intro k hP
    obtain ⟨q2, f2, u1, u2, _⟩ := push_void_spec p compare (hq.rep (k, none)) hP k
    exact ⟨q2, u1, u2.1, u2.2.1⟩
  · intro k v s0 hP
    obtain ⟨q2, f2, u1, u2, _⟩ := push_spec p compare (hq.rep (k, none)) hP k v
    exact ⟨q2, u1, u2.1, u2.2.1⟩
  · intro he
    obtain ⟨k, _⟩ := hq.exists_key p he
    obtain ⟨q2, f2, u1, u2, _⟩ := pop_spec p compare (hq.rep (k, none)) he
    exact ⟨q2, u1, u2.1, u2.2.1⟩

theorem ReachableN.shape (p : Pow2 B H) {compare : T → T → Bool}
    {q : prio_queue T V} {a b : Nat} (h : ReachableN B compare q a b) : Shape B q := by
  induction h with
  | init_void => exact shape_init_void
  | init => exact shape_init
  | push_void _ hp ih =>
    obtain ⟨q2, h1, h2, _⟩ := (ih.kept p _).1 _ (push_void_kind hp)
    rw [hp] at h1; cases h1; exact h2
  | push _ hp ih =>
    obtain ⟨s, hs⟩ := push_kind hp
    obtain ⟨q2, h1, h2, _⟩ := (ih.kept p _).2.1 _ _ _ hs
    rw [hp] at h1; cases h1; exact h2
  | pop _ hp ih =>
    obtain ⟨q2, h1, h2, _⟩ := (ih.kept p _).2.2 (pop_nonempty hp)
    rw [hp] at h1; cases h1; exact h2

/-! ### The size -/

/-- The number `e - ceil(e / B)` that `size()` computes from the end marker. -/
theorem ceil_div_eq (hB : 0 < B) (e : Nat) :
    (e + B - 1) / B = e / B + (if e % B = 0 then 0 else 1) := by
  have hdm := Nat.div_add_mod e B
  have hr : e % B < B := Nat.mod_lt _ hB
  by_cases h0 : e % B = 0
  · rw [if_pos h0]
    have e1 : e + B - 1 = B * (e / B) + (B - 1) := by omega
    rw [e1, (div_mod_of_lt (e / B) (show B - 1 < B by omega)).1]
    rfl
  · rw [if_neg h0]
    have e1 : e + B - 1 = B * (e / B + 1) + (e % B - 1) := by
      rw [Nat.mul_succ]; omega
    rw [e1, (div_mod_of_lt (e / B + 1) (show e % B - 1 < B by omega)).1]

theorem div_le_self_of_pos (hB : 0 < B) (e : Nat) : e / B + e % B ≤ e := by
  have hdm := Nat.div_add_mod e B
  have : e / B ≤ B * (e / B) := Nat.le_mul_of_pos_left _ hB
  omega

/-- The index step of `push_back` raises the computed size by one. -/
theorem size_next (p : Pow2 B H) (e : Nat) :
    skip_vector.next_index B e + 1 - (skip_vector.next_index B e + 1 + B - 1) / B
      = e - (e + B - 1) / B + 1 := by
  have hB := p.two_le
  have hB0 : 0 < B := by omega
  rw [ceil_div_eq hB0, ceil_div_eq hB0]
  have hle := div_le_self_of_pos hB0 e
  unfold skip_vector.next_index
  by_cases h : e % B ≠ 0
  · rw [if_pos h, if_neg h]
    rcases succ_mod_cases B e hB0 with ⟨_, h2, h3⟩ | ⟨_, h2, h3⟩
    · rw [h2, h3, if_neg (by omega)]; omega
    · rw [h2, h3, if_pos rfl]; omega
  · have h0 : e % B = 0 := by omega
    rw [if_neg h, if_pos h0]
    rcases succ_mod_cases B e hB0 with ⟨_, h2, h3⟩ | ⟨h1, _, _⟩
    · rcases succ_mod_cases B (e + 1) hB0 with ⟨_, k2, k3⟩ | ⟨_, k2, k3⟩
      · rw [k2, k3, h3, if_neg (by omega)]; omega
      · rw [k2, k3, h3, if_pos rfl]; omega
    · omega

/-- The end marker before a `pop_back` is the one a `push_back` reaches from the
end marker after it. -/
theorem next_index_pop_end (p : Pow2 B H) {e : Nat} (he : e ≠ 0) (hm : e % B ≠ 1) :
    skip_vector.next_index B (e - 1 - (if (e - 1) % B = 1 then 1 else 0)) + 1 = e := by
  have hB := p.two_le
  have hlv := last_valid p he hm
  unfold skip_vector.next_index
  by_cases h : (e - 1) % B = 1
  · rw [if_pos h]
    have := pred_mod_of_mod_one hB h
    rw [if_neg (by omega)]
    have : 1 ≤ e - 1 := index_pos_of_valid hlv
    omega
  · rw [if_neg h, Nat.sub_zero, if_pos hlv]
    omega

/-! ### The stored pairs and keys -/

/-- In a non-empty represented queue index 1 is occupied. -/
theorem one_lt_end (p : Pow2 B H) {q : prio_queue T V} (hs : Shape B q)
    (he : q.m_storage.m_end ≠ 0) : 1 < q.m_storage.m_end := by
  have := index_pos_of_valid (last_valid p he hs.1.end_mod)
  omega

/-- Pushing a list of keys into a represented queue without payloads. -/
theorem push_list_spec (p : Pow2 B H) {compare : T → T → Bool}
    (w : StrictWeakOrder compare) (ks : List T) :
    ∀ (q : prio_queue T V) (e : Nat) (f : Nat → T × Option V), Rep B q e f →
      q.P = payload.void → HeapOrd B compare e f →
      ∃ q1 e1 f1, push_list B compare ks q = some q1 ∧ Rep B q1 e1 f1 ∧
        HeapOrd B compare e1 f1 ∧
        ((slots B e1).map (fun i => (f1 i).1)).Perm
          (ks ++ (slots B e).map (fun i => (f i).1)) := by
  induction ks with
  | nil =>
    intro q e f r _ ho
    exact ⟨q, e, f, rfl, r, ho, List.Perm.refl _⟩
  | cons k ks ih =>
    intro q e f r hP ho
    obtain ⟨q2, f2, u1, u2, u3, u4, u5⟩ := push_void_spec p compare r hP k
    obtain ⟨q3, e3, f3, v1, v2, v3, v4⟩ := ih q2 _ f2 u2 u5 (u4 w ho)
    refine ⟨q3, e3, f3, by simp only [push_list, u1, v1], v2, v3, ?_⟩
    refine v4.trans ?_
    have h1 := u3.map Prod.fst
    simp only [List.map_map, List.map_cons] at h1
    have h2 : (ks ++ (slots B (skip_vector.next_index B e + 1)).map (fun i => (f2 i).1)).Perm
        (ks ++ k :: (slots B e).map (fun i => (f i).1)) :=
      List.Perm.append_left ks h1
    exact h2.trans List.perm_middle

end prio_queue

end rollbear

/-! ## The claims -/

namespace rollbear

theorem strictWeakOrder_less_nat : StrictWeakOrder less_nat where
  irrefl := by intro a; simp [less_nat]
  trans := by
    intro a b c h1 h2
    simp only [less_nat, decide_eq_true_eq] at *
    omega
  incomp_trans := by
    intro a b c h1 h2 h3 h4
    simp only [less_nat, decide_eq_false_iff_not] at *
    omega

theorem isBlockSize_four : prio_q_internal.heap_heap_addressing.IsBlockSize 4 :=
  ⟨by decide, 2, rfl⟩

/-- A queue without payloads that holds one key, reached by one `push`. -/
theorem reachable_one_key :
    ∃ q : prio_queue Nat Unit, prio_queue.push_void 4 less_nat prio_queue.init_void 8 = some q ∧
      prio_queue.ReachableN 4 less_nat q 1 0 ∧ q.empty = false ∧ q.P = prio_q_internal.payload.void ∧
      prio_queue.Inv 4 less_nat q := by
  have p := isBlockSize_four.pow2
  obtain ⟨q, h1, h2, h3, h4⟩ := prio_queue.Inv.push_void p strictWeakOrder_less_nat
    (q := (prio_queue.init_void : prio_queue Nat Unit))
    ⟨prio_queue.shape_init_void, prio_queue.heapOrdered_of_end_zero rfl⟩ rfl 8
  refine ⟨q, h1, prio_queue.ReachableN.push_void prio_queue.ReachableN.init_void h1, ?_, h3, h2⟩
  rw [prio_queue.empty_eq_false_iff, h4]
  omega

end rollbear

namespace rollbear

namespace prio_q_internal

open heap_heap_addressing

/-- C8: for a power-of-two block size `B ≥ 2` and a valid index `n > 1` with parent
`p`, the index `n` lies between the left child of `p` and the right child of `p`
(the left child plus `B` when `p` is a block leaf, plus 1 otherwise); it is in
fact one of the two. -/
theorem child_of_parent_of_bounds (B n : Nat) (hB : IsBlockSize B) (hn : ValidIndex B n)
    (h1 : 1 < n) :
    child_of B (parent_of B n) ≤ n ∧
    n ≤ child_of B (parent_of B n) + (if is_block_leaf B (parent_of B n) then B else 1) ∧
    (n = child_of B (parent_of B n) ∨
      n = child_of B (parent_of B n) + (if is_block_leaf B (parent_of B n) then B else 1)) := by
  have p := hB.pow2
  have h := (p.parent_spec n ((p.validIndex_iff n).1 hn) h1).2.2
  have e : sibling_offset B (parent_of B n)
      = (if is_block_leaf B (parent_of B n) then B else 1) := rfl
  rw [e] at h
  refine ⟨?_, ?_, h⟩
  · rcases h with h | h <;> omega
  · rcases h with h | h <;> omega

theorem child_of_parent_of_bounds_witness :
    IsBlockSize 8 ∧ ValidIndex 8 17 ∧ 1 < 17 ∧
      child_of 8 (parent_of 8 17) ≤ 17 ∧
      17 ≤ child_of 8 (parent_of 8 17) + (if is_block_leaf 8 (parent_of 8 17) then 8 else 1) ∧
      (17 = child_of 8 (parent_of 8 17) ∨
        17 = child_of 8 (parent_of 8 17)
          + (if is_block_leaf 8 (parent_of 8 17) then 8 else 1)) :=
  ⟨⟨by decide, 3, rfl⟩, ⟨by decide, by decide⟩, by decide,
    child_of_parent_of_bounds 8 17 ⟨by decide, 3, rfl⟩ ⟨by decide, by decide⟩ (by decide)⟩

end prio_q_internal

end rollbear

namespace rollbear

namespace prio_queue

open prio_q_internal heap_heap_addressing

/-- The size with the index of `grow` kept exact: for a queue reached from a
default-constructed queue by `a` pushes and `b` pops, in any order that pops
only a non-empty queue (block size a power of two, at least 2; any
comparator), `size()` is `a - b`.  A default-constructed queue has size 0; in
a reachable state every push succeeds and raises `size()` by exactly one, and
`pop` on a non-empty queue succeeds and lowers it by exactly one, whether or
not the storage grows or a block boundary is crossed. -/
theorem size_reachable_exact {T V : Type} (B : Nat) (hB : IsBlockSize B)
    (compare : T → T → Bool) (q : prio_queue T V) (a b : Nat)
    (h : ReachableN B compare q a b) :
    b ≤ a ∧ size B q = a - b ∧
    size B (init_void : prio_queue T V) = 0 ∧ size B (init : prio_queue T V) = 0 ∧
    (∀ k, q.P = payload.void →
      ∃ q1, push_void B compare q k = some q1 ∧ size B q1 = size B q + 1) ∧
    (∀ k v s, q.P = payload.value s →
      ∃ q1, push B compare q k v = some q1 ∧ size B q1 = size B q + 1) ∧
    (q.empty = false → ∃ q1, pop B compare q = some q1 ∧ size B q1 + 1 = size B q) := by
  have p := hB.pow2
  have hstep : ∀ q : prio_queue T V, Shape B q →
      (∀ k, q.P = payload.void →
        ∃ q1, push_void B compare q k = some q1 ∧ size B q1 = size B q + 1) ∧
      (∀ k v s, q.P = payload.value s →
        ∃ q1, push B compare q k v = some q1 ∧ size B q1 = size B q + 1) ∧
      (q.empty = false → ∃ q1, pop B compare q = some q1 ∧ size B q1 + 1 = size B q) := by
    intro q hs
    obtain ⟨s1, s2, s3⟩ := hs.kept p compare
    refine ⟨?_, ?_, ?_⟩
    · intro k hP
      obtain ⟨q1, h1, _, h3⟩ := s1 k hP
      refine ⟨q1, h1, ?_⟩
      simp only [size, skip_vector.size, h3]
      exact size_next p _
    · intro k v s hP
      obtain ⟨q1, h1, _, h3⟩ := s2 k v s hP
      refine ⟨q1, h1, ?_⟩
      simp only [size, skip_vector.size, h3]
      exact size_next p _
    · intro hne
      have he := empty_eq_false_iff.1 hne
      obtain ⟨q1, h1, _, h3⟩ := s3 he
      refine ⟨q1, h1, ?_⟩
      have hn := next_index_pop_end p he hs.1.end_mod
      rw [← h3] at hn
      have := size_next p q1.m_storage.m_end
      rw [hn] at this
      simp only [size, skip_vector.size]
      exact this.symm
  have hcount : ∀ (q : prio_queue T V) (a b : Nat), ReachableN B compare q a b →
      b ≤ a ∧ size B q = a - b := by
    intro q a b h
    induction h with
    | init_void => exact ⟨Nat.le_refl _, by simp [size, skip_vector.size, init_void, skip_vector.init]⟩
    | init => exact ⟨Nat.le_refl _, by simp [size, skip_vector.size, init, skip_vector.init]⟩
    | push_void hr hp ih =>
      obtain ⟨q2, h1, h2⟩ := (hstep _ (hr.shape p)).1 _ (push_void_kind hp)
      rw [hp] at h1; cases h1
      exact ⟨by omega, by omega⟩
    | push hr hp ih =>
      obtain ⟨s, hs⟩ := push_kind hp
      obtain ⟨q2, h1, h2⟩ := (hstep _ (hr.shape p)).2.1 _ _ _ hs
      rw [hp] at h1; cases h1
      exact ⟨by omega, by omega⟩
    | pop hr hp ih =>
      obtain ⟨q2, h1, h2⟩ := (hstep _ (hr.shape p)).2.2
        (empty_eq_false_iff.2 (pop_nonempty hp))
      rw [hp] at h1; cases h1
      exact ⟨by omega, by omega⟩
  obtain ⟨c1, c2⟩ := hcount q a b h
  obtain ⟨s1, s2, s3⟩ := hstep q (h.shape p)
  exact ⟨c1, c2, by simp [size, skip_vector.size, init_void, skip_vector.init],
    by simp [size, skip_vector.size, init, skip_vector.init], s1, s2, s3⟩

end prio_queue

end rollbear

namespace rollbear

namespace prio_q_internal

namespace heap_heap_addressing

theorem Pow2.half_eq {B H : Nat} (p : Pow2 B H) : B / 2 = H := by
  have := p.two_mul
  omega

theorem Pow2.block_offset_mod {B H : Nat} (p : Pow2 B H) (n : Nat) :
    block_offset B n = n % B := by
  obtain ⟨k, rfl, rfl⟩ := p
  exact block_offset_eq _ n

theorem Pow2.block_base_mul {B H : Nat} (p : Pow2 B H) (n : Nat) :
    block_base B n = B * (n / B) := by
  obtain ⟨k, rfl, rfl⟩ := p
  exact block_base_eq _ n

theorem Pow2.child_no_mod {B H : Nat} (p : Pow2 B H) (n : Nat) :
    child_no B n = n % H := by
  obtain ⟨k, rfl, rfl⟩ := p
  exact child_no_eq k n

end heap_heap_addressing

open heap_heap_addressing

/-- C12: for a power-of-two block size `B ≥ 2` and every index `n`,
`is_block_root(n)` holds iff `n mod B = 1`, `is_block_leaf(n)` holds iff
`n mod B ≥ B/2`, `block_offset(n) = n mod B` and `block_base(n) = n - (n mod B)`. -/
theorem block_classification (B n : Nat) (hB : IsBlockSize B) :
    (is_block_root B n = true ↔ n % B = 1) ∧
    (is_block_leaf B n = true ↔ B / 2 ≤ n % B) ∧
    block_offset B n = n % B ∧
    block_base B n = n - n % B := by
  have p := hB.pow2
  refine ⟨p.is_block_root_iff n, p.is_block_leaf_iff n, p.block_offset_mod n, ?_⟩
  rw [p.block_base_mul]
  have := Nat.div_add_mod n B
  omega

theorem block_classification_witness :
    IsBlockSize 8 ∧
    (is_block_root 8 73 = true ↔ 73 % 8 = 1) ∧
    (is_block_leaf 8 73 = true ↔ 8 / 2 ≤ 73 % 8) ∧
    block_offset 8 73 = 73 % 8 ∧
    block_base 8 73 = 73 - 73 % 8 :=
  ⟨⟨by decide, 3, rfl⟩, block_classification 8 73 ⟨by decide, 3, rfl⟩⟩

namespace skip_vector

variable {T : Type} {B H : Nat}

/-- The capacity after a `push_back`: doubled (or set to `16·B`) exactly when
the end marker had reached the capacity. -/
theorem push_back_capacity (p : Pow2 B H) (v : skip_vector T) (hv : Inv B v) (x : T)
    {v1 : skip_vector T} {i : Nat} (h : push_back B v x = some (v1, i)) :
    v1.m_storage_size =
      if v.m_end = v.m_storage_size then
        (if v.m_storage_size ≠ 0 then v.m_storage_size * 2 else B * 16)
      else v.m_storage_size := by
  have hB := p.two_le
  unfold push_back at h
  rw [and_block_mask p] at h
  by_cases hm : v.m_end % B ≠ 0
  · have hne : v.m_end ≠ v.m_storage_size := by
      intro heq
      obtain ⟨c, hc⟩ := hv.cap_dvd
      rw [heq, hc, Nat.mul_mod_right] at hm
      exact hm rfl
    rw [if_pos hm] at h
    rw [if_neg hne]
    cases hc : construct v.m_ptr v.m_storage_size v.m_end x with
    | none => rw [hc] at h; cases h
    | some ptr =>
      rw [hc] at h
      simp only [Option.some.injEq, Prod.mk.injEq] at h
      rw [← h.1]
  · rw [if_neg hm] at h
    by_cases hfull : v.m_end = v.m_storage_size
    · rw [if_pos hfull] at h
      rw [if_pos hfull]
      unfold grow at h
      simp only at h
      cases hc : construct (fun _ => none) (if v.m_storage_size ≠ 0 then v.m_storage_size * 2
          else B * 16) (v.m_end + 1) x with
      | none => rw [hc] at h; cases h
      | some ptr1 =>
        rw [hc] at h
        simp only at h
        split at h
        · cases h
        · simp only [Option.some.injEq, Prod.mk.injEq] at h
          rw [← h.1]
    · rw [if_neg hfull] at h
      rw [if_neg hfull]
      cases hc : construct v.m_ptr v.m_storage_size (v.m_end + 1) x with
      | none => rw [hc] at h; cases h
      | some ptr =>
        rw [hc] at h
        simp only [Option.some.injEq, Prod.mk.injEq] at h
        rw [← h.1]

end skip_vector

end prio_q_internal

end rollbear

namespace rollbear

namespace prio_q_internal

open heap_heap_addressing

namespace skip_vector

variable {T : Type} {B H : Nat}

end skip_vector

end prio_q_internal

end rollbear

namespace rollbear

namespace prio_queue

open prio_q_internal prio_q_internal.heap_heap_addressing

variable {T V : Type}

/-- The loop of `pop` is the iteration of `pop_step`: with fuel left and
`child_of(idx) <= last_idx`, it performs one step and continues from the chosen
child. -/
theorem sift_down_eq_pop_step (B : Nat) (compare : T → T → Bool) (last fuel : Nat)
    (q : prio_queue T V) (idx : Nat) :
    sift_down B compare last (fuel + 1) q idx =
      if child_of B idx > last then some (q, idx)
      else (pop_step B compare last q idx).bind
        (fun r => sift_down B compare last fuel r.1 r.2) := by
  have tail : ∀ next : Nat,
      (match q.m_storage.get B next with
        | none => none
        | some x =>
          match q.m_storage.set B idx x with
          | none => none
          | some st =>
            match q.P.move B next idx with
            | none => none
            | some pl => sift_down B compare last fuel ⟨st, pl⟩ next) =
      (match q.m_storage.get B next with
        | none => none
        | some x =>
          match q.m_storage.set B idx x with
          | none => none
          | some st =>
            match q.P.move B next idx with
            | none => none
            | some pl => some ((⟨st, pl⟩ : prio_queue T V), next)).bind
        (fun r => sift_down B compare last fuel r.1 r.2) := by
    intro next
    cases q.m_storage.get B next with
    | none => rfl
    | some x =>
      dsimp only
      cases q.m_storage.set B idx x with
      | none => rfl
      | some st =>
        dsimp only
        cases q.P.move B next idx with
        | none => rfl
        | some pl => rfl
  unfold pop_step pop_next
  rw [sift_down]
  by_cases hlc : child_of B idx > last
  · simp [hlc]
  · simp only [hlc, if_false]
    by_cases hrc : child_of B idx + (if is_block_leaf B idx = true then B else 1) < last
    · simp only [hrc, if_true]
      cases q.m_storage.get B (child_of B idx) with
      | none => rfl
      | some a =>
        cases q.m_storage.get B
          (child_of B idx + (if is_block_leaf B idx = true then B else 1)) with
        | none => rfl
        | some b => exact tail _
    · simp only [hrc, if_false]
      exact tail _

/-- The key that a step of the loop of `pop` leaves in the hole is the key of
the child it chose. -/
theorem pop_step_moves_chosen (B : Nat) (compare : T → T → Bool) (last : Nat)
    (q q1 : prio_queue T V) (idx next : Nat)
    (h : pop_step B compare last q idx = some (q1, next)) :
    pop_next B compare last q idx = some next ∧
      ∃ x, q.m_storage.get B next = some x ∧ q1.m_storage.get B idx = some x := by
  unfold pop_step at h
  cases hn : pop_next B compare last q idx with
  | none => simp [hn] at h
  | some n =>
    rw [hn] at h
    dsimp only at h
    cases hx : q.m_storage.get B n with
    | none => simp [hx] at h
    | some x =>
      rw [hx] at h
      dsimp only at h
      cases hs : q.m_storage.set B idx x with
      | none => simp [hs] at h
      | some st =>
        rw [hs] at h
        dsimp only at h
        cases hm : q.P.move B n idx with
        | none => simp [hm] at h
        | some pl =>
          rw [hm] at h
          simp only [Option.some.injEq, Prod.mk.injEq] at h
          obtain ⟨hq, hn1⟩ := h
          subst hn1
          refine ⟨rfl, x, hx, ?_⟩
          rw [← hq]
          unfold skip_vector.set at hs
          split at hs
          · rename_i hc
            cases hp : q.m_storage.m_ptr idx with
            | none => simp [hp] at hs
            | some y =>
              rw [hp] at hs
              simp only [Option.some.injEq] at hs
              rw [← hs]
              simp [skip_vector.get, hc]
          · simp at hs

/-- C14, as stated, fails.  Block size 4, keys compared by `<`: after the pushes
1, 2, 2, 3 the root has the children 2 (index 2) and 2 (index 3), which tie, and
both are available (3 < last = 5); the loop of `pop` chooses the right child,
index 3, not the left one.  With payloads the choice is visible: after the
pushes (1,10), (2,20), (2,30), (3,40) and one `pop`, `top` is (2,30), the pair
that was the right child. -/
theorem pop_tie_prefers_left_counterexample :
    ((push_list 4 less_nat [1, 2, 2, 3] (init_void : prio_queue Nat Unit)).bind
        (fun q => q.m_storage.get 4 (child_of 4 1))) = some 2 ∧
    ((push_list 4 less_nat [1, 2, 2, 3] (init_void : prio_queue Nat Unit)).bind
        (fun q => q.m_storage.get 4 (child_of 4 1 + sibling_offset 4 1))) = some 2 ∧
    ((push_list 4 less_nat [1, 2, 2, 3] (init_void : prio_queue Nat Unit)).map
        (fun q => decide (child_of 4 1 + sibling_offset 4 1 < q.m_storage.size - 1)))
      = some true ∧
    less_nat 2 2 = false ∧
    ((push_list 4 less_nat [1, 2, 2, 3] (init_void : prio_queue Nat Unit)).bind
        (fun q => pop_next 4 less_nat (q.m_storage.size - 1) q 1)) = some 3 ∧
    child_of 4 1 = 2 ∧
    ((((((push 4 less_nat (init : prio_queue Nat Nat) 1 10).bind
        (fun q => push 4 less_nat q 2 20)).bind
        (fun q => push 4 less_nat q 2 30)).bind
        (fun q => push 4 less_nat q 3 40)).bind
        (fun q => pop 4 less_nat q)).bind (fun q => top 4 q)) = some (2, 30) := by
  decide

/-- C14 (amended): in one iteration of the loop of `pop` on the hole `idx`, with
`lc = child_of(idx)`, `rc = lc + sibling_offset` and the keys `a` at `lc` and
`b` at `rc`: the child chosen is `rc` exactly when `rc < last` and `a` does not
sort strictly before `b`, and `lc` otherwise.  On a tie with `rc < last` the
right child is therefore the one moved into the hole; the left child is moved
only when it sorts strictly before the right one or when `rc >= last`.  The key
left in the hole by the step is the key of the chosen child. -/
theorem pop_tie_moves_right_child (B : Nat) (compare : T → T → Bool) (last : Nat)
    (q : prio_queue T V) (idx : Nat) (a b : T)
    (ha : q.m_storage.get B (child_of B idx) = some a)
    (hb : child_of B idx + sibling_offset B idx < last →
      q.m_storage.get B (child_of B idx + sibling_offset B idx) = some b) :
    pop_next B compare last q idx =
        some (if child_of B idx + sibling_offset B idx < last ∧ compare a b = false
          then child_of B idx + sibling_offset B idx else child_of B idx) ∧
      (child_of B idx + sibling_offset B idx < last → compare a b = false →
        compare b a = false →
        pop_next B compare last q idx = some (child_of B idx + sibling_offset B idx)) ∧
      ∀ q1 next, pop_step B compare last q idx = some (q1, next) →
        pop_next B compare last q idx = some next ∧
          ∃ x, q.m_storage.get B next = some x ∧ q1.m_storage.get B idx = some x := by
  have main : pop_next B compare last q idx =
      some (if child_of B idx + sibling_offset B idx < last ∧ compare a b = false
        then child_of B idx + sibling_offset B idx else child_of B idx) := by
    unfold pop_next sibling_offset at *
    by_cases hrc : child_of B idx + (if is_block_leaf B idx = true then B else 1) < last
    · simp only [hrc, if_true, ha, hb hrc, sorts_before, true_and]
      rcases Bool.eq_false_or_eq_true (compare a b) with h | h <;> simp [h]
    · simp [hrc]
  refine ⟨main, ?_, ?_⟩
  · intro hrc hab _
    rw [main, if_pos ⟨hrc, hab⟩]
  · intro q1 next h
    exact pop_step_moves_chosen B compare last q q1 idx next h

/-- Witness for C14 (amended): block size 4, the queue after the pushes 1, 2,
2, 3, the hole at the root. -/
theorem pop_tie_moves_right_child_witness :
    pop_next 4 less_nat 5
        ((push_list 4 less_nat [1, 2, 2, 3] (init_void : prio_queue Nat Unit)).getD init_void)
        1 = some 3 :=
  (pop_tie_moves_right_child 4 less_nat 5
    ((push_list 4 less_nat [1, 2, 2, 3] (init_void : prio_queue Nat Unit)).getD init_void)
    1 2 2 (by decide) (fun _ => by decide)).2.1 (by decide) (by decide) (by decide)

end prio_queue

end rollbear

namespace rollbear

namespace prio_queue

open prio_q_internal prio_q_internal.heap_heap_addressing

variable {T V W : Type} {B H : Nat}

/-! ### Payloads do not steer the queue -/

end prio_queue

end rollbear

namespace rollbear

namespace prio_q_internal

namespace skip_vector

open heap_heap_addressing

variable {T : Type} {B H : Nat}

/-! ### Growth with a copying `move_to` -/

theorem destroy_down_spec (p : Pow2 B H) :
    ∀ (k : Nat) (buf : Nat → Option T) (gone : List Nat),
      (∀ j, j < k → j % B ≠ 0 → ∃ x, buf j = some x) →
      ∃ buf1 l, destroy_down B k buf gone = some (buf1, gone ++ l) ∧
        (∀ j, buf1 j = if j < k ∧ j % B ≠ 0 then none else buf j) ∧
        l.Nodup ∧ ∀ j, j ∈ l ↔ j < k ∧ j % B ≠ 0 := by
  intro k
  induction k with
  | zero =>
    intro buf gone _
    exact ⟨buf, [], by simp [destroy_down], by simp, List.nodup_nil, by simp⟩
  | succ k ih =>
    intro buf gone hl
    unfold destroy_down
    rw [and_block_mask p]
    by_cases hk : k % B ≠ 0
    · rw [if_pos hk]
      obtain ⟨x, hx⟩ := hl k (by omega) hk
      simp only [destroy, hx]
      obtain ⟨buf1, l, h1, h2, h3, h4⟩ := ih (fun j => if j = k then none else buf j)
        (gone ++ [k]) (by
          intro j hj hv
          obtain ⟨y, hy⟩ := hl j (by omega) hv
          exact ⟨y, by simp only []; rw [if_neg (by omega)]; exact hy⟩)
      refine ⟨buf1, k :: l, by rw [h1]; simp, ?_, ?_, ?_⟩
      · intro j
        rw [h2 j]
        by_cases hjk : j = k
        · subst hjk
          simp [hk]
        · by_cases hc : j < k ∧ j % B ≠ 0
          · rw [if_pos hc, if_pos ⟨by omega, hc.2⟩]
          · rw [if_neg hc, if_neg hjk, if_neg]
            intro hc2
            exact hc ⟨by omega, hc2.2⟩
      · refine List.nodup_cons.mpr ⟨?_, h3⟩
        intro hm
        have := (h4 k).mp hm
        omega
      · intro j
        simp only [List.mem_cons, h4 j]
        constructor
        · rintro (h | h)
          · subst h; exact ⟨by omega, hk⟩
          · exact ⟨by omega, h.2⟩
        · intro h
          by_cases hjk : j = k
          · exact Or.inl hjk
          · exact Or.inr ⟨by omega, h.2⟩
    · rw [if_neg hk]
      obtain ⟨buf1, l, h1, h2, h3, h4⟩ := ih buf gone (fun j hj hv => hl j (by omega) hv)
      refine ⟨buf1, l, h1, ?_, h3, ?_⟩
      · intro j
        rw [h2 j]
        by_cases hc : j < k ∧ j % B ≠ 0
        · rw [if_pos hc, if_pos ⟨by omega, hc.2⟩]
        · rw [if_neg hc, if_neg]
          intro hc2
          by_cases hjk : j = k
          · subst hjk; exact hk hc2.2
          · exact hc ⟨by omega, hc2.2⟩
      · intro j
        rw [h4 j]
        constructor
        · intro h; exact ⟨by omega, h.2⟩
        · intro h
          by_cases hjk : j = k
          · subst hjk; exact absurd h.2 hk
          · exact ⟨by omega, h.2⟩

/-- The copying loop of `move_to` from index `i`, when the copy constructor
throws first at `stop` (`stop = s`: it does not throw): the slots copied are the
non-forbidden ones in `[i, stop)`. -/
theorem copy_loop_spec (p : Pow2 B H) (b : Nat → Option T) (s cap : Nat) (hs : s ≤ cap)
    (hlive : ∀ i, i < s → i % B ≠ 0 → ∃ x, b i = some x) (fail : Option Nat) (stop : Nat)
    (hstop : stop ≤ s) (hbefore : ∀ j, j < stop → fail ≠ some j)
    (hat : stop < s → fail = some stop ∧ stop % B ≠ 0) :
    ∀ (fuel i : Nat) (ptr : Nat → Option T) (made : List Nat), i ≤ stop → s ≤ i + fuel →
      ∃ ptr1 l,
        copy_loop B b s cap fail fuel i ptr made =
          (if stop < s then Outcome.threw (ptr1, stop, made ++ l)
            else Outcome.returned (ptr1, made ++ l)) ∧
        (∀ j, ptr1 j = if i ≤ j ∧ j < stop ∧ j % B ≠ 0 then b j else ptr j) ∧
        l.Nodup ∧ ∀ j, j ∈ l ↔ i ≤ j ∧ j < stop ∧ j % B ≠ 0 := by
  intro fuel
  induction fuel with
  | zero =>
    intro i ptr made hi hf
    have his : i = s := by omega
    have hst : ¬ stop < s := by omega
    refine ⟨ptr, [], ?_, ?_, List.nodup_nil, ?_⟩
    · unfold copy_loop
      rw [if_neg (by omega), if_neg hst]
      simp
    · intro j
      rw [if_neg (by omega)]
    · intro j
      simp only [List.not_mem_nil, false_iff]
      omega
  | succ n ih =>
    intro i ptr made hi hf
    unfold copy_loop
    by_cases his : i ≠ s
    · rw [if_pos his, and_block_mask p]
      have hlt : i < s := by omega
      by_cases hiv : i % B ≠ 0
      · rw [if_pos hiv]
        obtain ⟨x, hx⟩ := hlive i hlt hiv
        rw [hx]
        dsimp only
        by_cases hfi : fail = some i
        · rw [if_pos hfi]
          have hsi : stop = i := by
            by_contra hne
            exact hbefore i (by omega) hfi
          subst hsi
          refine ⟨ptr, [], ?_, ?_, List.nodup_nil, ?_⟩
          · rw [if_pos hlt]
            simp
          · intro j
            rw [if_neg (by omega)]
          · intro j
            simp only [List.not_mem_nil, false_iff]
            omega
        · rw [if_neg hfi]
          have hsi : i < stop := by
            by_contra hne
            have h1 : stop = i := by omega
            exact hfi (h1 ▸ (hat (by omega)).1)
          simp only [construct]
          rw [if_pos (by omega)]
          obtain ⟨ptr1, l, h1, h2, h3, h4⟩ := ih (i + 1)
            (fun j => if j = i then some x else ptr j) (made ++ [i]) (by omega) (by omega)
          refine ⟨ptr1, i :: l, ?_, ?_, ?_, ?_⟩
          · dsimp only
            rw [h1]
            simp
          · intro j
            rw [h2 j]
            by_cases hji : j = i
            · subst hji
              simp [hx, hsi, hiv]
            · by_cases hc : i + 1 ≤ j ∧ j < stop ∧ j % B ≠ 0
              · rw [if_pos hc, if_pos ⟨by omega, hc.2.1, hc.2.2⟩]
              · rw [if_neg hc, if_neg hji, if_neg]
                intro hc2
                exact hc ⟨by omega, hc2.2.1, hc2.2.2⟩
          · refine List.nodup_cons.mpr ⟨?_, h3⟩
            intro hm
            have := (h4 i).mp hm
            omega
          · intro j
            simp only [List.mem_cons, h4 j]
            constructor
            · rintro (h | h)
              · subst h; exact ⟨Nat.le_refl _, hsi, hiv⟩
              · exact ⟨by omega, h.2.1, h.2.2⟩
            · intro h
              by_cases hji : j = i
              · exact Or.inl hji
              · exact Or.inr ⟨by omega, h.2.1, h.2.2⟩
      · rw [if_neg hiv]
        have hsi : i < stop := by
          by_contra hne
          have h1 : stop = i := by omega
          exact hiv (h1 ▸ (hat (by omega)).2)
        obtain ⟨ptr1, l, h1, h2, h3, h4⟩ := ih (i + 1) ptr made (by omega) (by omega)
        refine ⟨ptr1, l, h1, ?_, h3, ?_⟩
        · intro j
          rw [h2 j]
          by_cases hc : i + 1 ≤ j ∧ j < stop ∧ j % B ≠ 0
          · rw [if_pos hc, if_pos ⟨by omega, hc.2.1, hc.2.2⟩]
          · rw [if_neg hc, if_neg]
            intro hc2
            by_cases hji : j = i
            · subst hji; exact hiv hc2.2.2
            · exact hc ⟨by omega, hc2.2.1, hc2.2.2⟩
        · intro j
          rw [h4 j]
          constructor
          · intro h; exact ⟨by omega, h.2.1, h.2.2⟩
          · intro h
            by_cases hji : j = i
            · subst hji; exact absurd h.2.2 hiv
            · exact ⟨by omega, h.2.1, h.2.2⟩
    · rw [if_neg his]
      have his2 : i = s := by omega
      have hst : ¬ stop < s := by omega
      refine ⟨ptr, [], ?_, ?_, List.nodup_nil, ?_⟩
      · rw [if_neg hst]
        simp
      · intro j
        rw [if_neg (by omega)]
      · intro j
        simp only [List.not_mem_nil, false_iff]
        omega

/-- When nothing throws, `push_back` for a `T` whose move may throw gives the
state and index described by `push_back`, and it copies elements only when it
grows a non-empty buffer: then it copies every non-forbidden slot below the end
marker once. -/
theorem push_back_copy_ok (p : Pow2 B H) (v : skip_vector T) (hv : Inv B v) (x : T) :
    ∃ v1 made,
      push_back_copy B v x false none
        = Outcome.returned (v1, next_index B v.m_end, made) ∧
      push_back B v x = some (v1, next_index B v.m_end) ∧
      made.Nodup ∧
      ∀ j, j ∈ made ↔
        (v.m_end = v.m_storage_size ∧ v.m_storage_size ≠ 0) ∧ j < v.m_end ∧ j % B ≠ 0 := by
  have hB := p.two_le
  obtain ⟨v1, hpb0, -⟩ := push_back_spec p v hv x
  have hpb := hpb0
  unfold push_back at hpb
  unfold push_back_copy
  rw [and_block_mask p] at hpb ⊢
  by_cases hm : v.m_end % B ≠ 0
  · have hne : v.m_end ≠ v.m_storage_size := by
      intro heq
      obtain ⟨c, hc⟩ := hv.cap_dvd
      rw [heq, hc, Nat.mul_mod_right] at hm
      exact hm rfl
    rw [if_pos hm] at hpb ⊢
    cases hc : construct v.m_ptr v.m_storage_size v.m_end x with
    | none => rw [hc] at hpb; cases hpb
    | some ptr =>
      rw [hc] at hpb
      simp only [Option.some.injEq, Prod.mk.injEq] at hpb
      refine ⟨v1, [], ?_, ?_, List.nodup_nil, ?_⟩
      · dsimp only
        rw [← hpb.1, ← hpb.2]
      · exact hpb0
      · intro j
        simp only [List.not_mem_nil, false_iff]
        intro h
        exact hne h.1.1
  · rw [if_neg hm] at hpb ⊢
    by_cases hfull : v.m_end = v.m_storage_size
    · rw [if_pos hfull] at hpb ⊢
      unfold grow at hpb
      unfold grow_copy
      simp only [Bool.false_eq_true, if_false] at hpb ⊢
      by_cases hc0 : v.m_storage_size ≠ 0
      · simp only [if_pos hc0] at hpb ⊢
        cases hc : construct (fun _ => none) (v.m_storage_size * 2) (v.m_end + 1) x with
        | none => rw [hc] at hpb; cases hpb
        | some ptr1 =>
          rw [hc] at hpb
          simp only at hpb ⊢
          have hcap := hv.cap_ge hc0
          have hs : v.m_end ≤ v.m_storage_size * 2 := by omega
          obtain ⟨ptr2, l, c1, c2, c3, c4⟩ := copy_loop_spec p v.m_ptr v.m_end
            (v.m_storage_size * 2) hs hv.live none v.m_end (Nat.le_refl _)
            (fun j _ => by simp) (fun h => absurd h (Nat.lt_irrefl _))
            v.m_end 1 ptr1 [] (by omega) (by omega)
          rw [if_neg (Nat.lt_irrefl _)] at c1
          obtain ⟨b1, g, d1, -⟩ := destroy_down_spec p v.m_end v.m_ptr [] hv.live
          obtain ⟨ptr3, m1, m2⟩ := move_to_loop_spec p v.m_ptr v.m_end (v.m_storage_size * 2)
            hs hv.live v.m_end 1 ptr1 (by omega)
          have hpp : ptr3 = ptr2 := by
            funext j
            rw [m2 j, c2 j]
          unfold move_to at hpb
          rw [m1] at hpb
          simp only [Option.some.injEq, Prod.mk.injEq] at hpb
          unfold move_to_copy
          rw [c1]
          dsimp only
          rw [d1]
          dsimp only
          refine ⟨v1, [] ++ l, ?_, hpb0, by simpa using c3, ?_⟩
          · rw [← hpb.1, ← hpb.2, hpp]
          · intro j
            simp only [List.nil_append, c4 j]
            constructor
            · intro h
              exact ⟨⟨hfull, hc0⟩, h.2.1, h.2.2⟩
            · intro h
              exact ⟨Nat.pos_of_ne_zero (fun h0 => h.2.2 (by rw [h0]; exact Nat.zero_mod _)),
                h.2.1, h.2.2⟩
      · simp only [if_neg hc0] at hpb ⊢
        cases hc : construct (fun _ => none) (B * 16) (v.m_end + 1) x with
        | none => rw [hc] at hpb; cases hpb
        | some ptr1 =>
          rw [hc] at hpb
          simp only [Option.some.injEq, Prod.mk.injEq] at hpb
          refine ⟨v1, [], ?_, hpb0, List.nodup_nil, ?_⟩
          · dsimp only
            rw [← hpb.1, ← hpb.2]
          · intro j
            simp only [List.not_mem_nil, false_iff]
            intro h
            exact hc0 h.1.2
    · rw [if_neg hfull] at hpb ⊢
      cases hc : construct v.m_ptr v.m_storage_size (v.m_end + 1) x with
      | none => rw [hc] at hpb; cases hpb
      | some ptr =>
        rw [hc] at hpb
        simp only [Option.some.injEq, Prod.mk.injEq] at hpb
        refine ⟨v1, [], ?_, ?_, List.nodup_nil, ?_⟩
        · dsimp only
          rw [← hpb.1, ← hpb.2]
        · exact hpb0
        · intro j
          simp only [List.not_mem_nil, false_iff]
          intro h
          exact hfull h.1.1

theorem nth_index_lt_cap (hB : 2 ≤ B) {k : Nat} (hk : k < 16 * (B - 1)) :
    nth_index B k + 1 < 16 * B := by
  unfold nth_index
  have h1 : (k - 1) / (B - 1) < 16 := by
    rw [Nat.div_lt_iff_lt_mul (by omega)]
    omega
  omega

theorem nth_index_cap (hB : 2 ≤ B) : nth_index B (16 * (B - 1)) + 1 = 16 * B := by
  unfold nth_index
  have h1 : (16 * (B - 1) - 1) / (B - 1) < 16 := by
    rw [Nat.div_lt_iff_lt_mul (by omega)]
    omega
  have h2 : 15 ≤ (16 * (B - 1) - 1) / (B - 1) := by
    rw [Nat.le_div_iff_mul_le (by omega)]
    omega
  omega

/-- The capacity stays `16·B` during the first `16·(B - 1)` calls of `push_back`
on an empty vector. -/
theorem push_back_list_capacity (p : Pow2 B H) (xs : List T) :
    ∀ (k : Nat) (v : skip_vector T), Inv B v →
      v.m_end = (if k = 0 then 0 else nth_index B k + 1) →
      v.m_storage_size = (if k = 0 then 0 else 16 * B) →
      k + xs.length ≤ 16 * (B - 1) →
      ∃ v1, push_back_list B xs v = some v1 ∧ Inv B v1 ∧
        v1.m_end = (if k + xs.length = 0 then 0 else nth_index B (k + xs.length) + 1) ∧
        v1.m_storage_size = (if k + xs.length = 0 then 0 else 16 * B) := by
  have hB := p.two_le
  induction xs with
  | nil =>
    intro k v hv he hc _
    exact ⟨v, rfl, hv, by simpa using he, by simpa using hc⟩
  | cons x xs ih =>
    intro k v hv he hc hlen
    simp only [List.length_cons] at hlen
    obtain ⟨v1, h1, h2, h3, -⟩ := push_back_spec p v hv x
    have hcap := push_back_capacity p v hv x h1
    rw [he, next_index_nth hB] at h3
    have hc1 : v1.m_storage_size = 16 * B := by
      rw [hcap]
      by_cases hk : k = 0
      · rw [he, hc, if_pos hk, if_pos hk]
        simp
        omega
      · rw [he, hc, if_neg hk, if_neg hk]
        have := nth_index_lt_cap hB (show k < 16 * (B - 1) by omega)
        rw [if_neg (by omega)]
    obtain ⟨v2, u1, u2, u3, u4⟩ := ih (k + 1) v1 h2 (by simpa using h3) (by simpa using hc1)
      (by omega)
    refine ⟨v2, ?_, u2, ?_, ?_⟩
    · simp only [push_back_list, h1]
      exact u1
    · rw [u3]
      simp only [List.length_cons]
      rw [show k + 1 + xs.length = k + (xs.length + 1) by omega]
    · rw [u4]
      simp only [List.length_cons]
      rw [show k + 1 + xs.length = k + (xs.length + 1) by omega]

theorem reachable_push_back_list (xs : List T) :
    ∀ (v v1 : skip_vector T), Reachable B v → push_back_list B xs v = some v1 →
      Reachable B v1 := by
  induction xs with
  | nil =>
    intro v v1 hv h
    simp only [push_back_list, Option.some.injEq] at h
    rw [← h]
    exact hv
  | cons x xs ih =>
    intro v v1 hv h
    simp only [push_back_list] at h
    cases hp : push_back B v x with
    | none => simp [hp] at h
    | some r =>
      obtain ⟨v2, i⟩ := r
      rw [hp] at h
      dsimp only at h
      exact ih v2 v1 (Reachable.push_back hv hp) h

/-- The number of non-forbidden indices below `e`. -/
theorem length_valid_below (hB : 0 < B) (l : List Nat) (hl : l.Nodup) (e : Nat)
    (hm : ∀ j, j ∈ l ↔ j < e ∧ j % B ≠ 0) : l.length + (e + B - 1) / B = e := by
  induction e generalizing l with
  | zero =>
    have : l = [] := by
      apply List.eq_nil_iff_forall_not_mem.mpr
      intro j hj
      have := (hm j).mp hj
      omega
    subst this
    rw [List.length_nil, Nat.zero_add, Nat.zero_add]
    exact Nat.div_eq_of_lt (by omega)
  | succ e ih =>
    have c0 := prio_queue.ceil_div_eq hB e
    have c1 := prio_queue.ceil_div_eq hB (e + 1)
    by_cases he : e % B ≠ 0
    · have hmem : e ∈ l := (hm e).mpr ⟨by omega, he⟩
      have h1 := ih (l.erase e) (hl.erase e) (by
        intro j
        rw [hl.mem_erase_iff, hm j]
        constructor
        · intro h; exact ⟨by omega, h.2.2⟩
        · intro h; exact ⟨by omega, by omega, h.2⟩)
      have h2 := List.length_erase_of_mem hmem
      have h3 : 0 < l.length := List.length_pos_of_mem hmem
      rcases succ_mod_cases B e hB with ⟨_, s2, s3⟩ | ⟨_, s2, s3⟩
      · rw [c1, s2, s3, if_neg (by omega)]
        rw [c0, if_neg he] at h1
        omega
      · rw [c1, s2, s3, if_pos rfl]
        rw [c0, if_neg he] at h1
        omega
    · have h1 := ih l hl (by
        intro j
        rw [hm j]
        constructor
        · intro h
          refine ⟨?_, h.2⟩
          by_contra hc
          have : j = e := by omega
          subst this
          exact he h.2
        · intro h; exact ⟨by omega, h.2⟩)
      have he0 : e % B = 0 := by omega
      rcases succ_mod_cases B e hB with ⟨_, s2, s3⟩ | ⟨_, s2, s3⟩
      · rw [c1, s2, s3, if_neg (by omega)]
        rw [c0, if_pos he0] at h1
        omega
      · rw [c1, s2, s3, if_pos rfl]
        rw [c0, if_pos he0] at h1
        omega

end skip_vector

open heap_heap_addressing

end prio_q_internal

end rollbear

namespace rollbear

namespace prio_q_internal

namespace skip_vector

open heap_heap_addressing

variable {T : Type} {B H : Nat}

/-! ### What an exception in `push` leaves behind -/

/-- A `push_back` that returns has advanced the end marker past the index it
used. -/
theorem push_back_copy_returned_end (p : Pow2 B H) (v : skip_vector T) (u : T) (a : Bool)
    (f : Option Nat) (st : skip_vector T) (i : Nat) (made : List Nat)
    (h : push_back_copy B v u a f = Outcome.returned (st, i, made)) :
    st.m_end = next_index B v.m_end + 1 := by
  unfold push_back_copy at h
  rw [and_block_mask p] at h
  unfold next_index
  by_cases h1 : v.m_end % B ≠ 0
  · rw [if_pos h1] at h
    rw [if_pos h1]
    cases hc : construct v.m_ptr v.m_storage_size v.m_end u with
    | none => rw [hc] at h; cases h
    | some ptr =>
      rw [hc] at h
      simp only [Outcome.returned.injEq, Prod.mk.injEq] at h
      rw [← h.1]
  · rw [if_neg h1] at h
    rw [if_neg h1]
    by_cases h2 : v.m_end = v.m_storage_size
    · rw [if_pos h2] at h
      unfold grow_copy at h
      dsimp only at h
      by_cases ha : a = true
      · rw [if_pos ha] at h
        cases h
      · rw [if_neg ha] at h
        cases hc : construct (fun _ => none) (if v.m_storage_size ≠ 0 then v.m_storage_size * 2
            else B * 16) (v.m_end + 1) u with
        | none => rw [hc] at h; cases h
        | some ptr1 =>
          rw [hc] at h
          dsimp only at h
          by_cases hc0 : v.m_storage_size ≠ 0
          · rw [if_pos hc0] at h
            cases hm : move_to_copy B v.m_ptr v.m_end ptr1
                (if v.m_storage_size ≠ 0 then v.m_storage_size * 2 else B * 16) f with
            | undefined => rw [hm] at h; cases h
            | returned r =>
              obtain ⟨ptr2, b1, made2⟩ := r
              rw [hm] at h
              simp only [Outcome.returned.injEq, Prod.mk.injEq] at h
              rw [← h.1]
            | threw t =>
              obtain ⟨ptr2, made2, gone⟩ := t
              rw [hm] at h
              dsimp only at h
              rw [if_pos (by omega)] at h
              cases hd : destroy ptr2 (v.m_end + 1) with
              | none => rw [hd] at h; cases h
              | some ptr3 => rw [hd] at h; cases h
          · rw [if_neg hc0] at h
            simp only [Outcome.returned.injEq, Prod.mk.injEq] at h
            rw [← h.1]
    · rw [if_neg h2] at h
      cases hc : construct v.m_ptr v.m_storage_size (v.m_end + 1) u with
      | none => rw [hc] at h; cases h
      | some ptr =>
        rw [hc] at h
        simp only [Outcome.returned.injEq, Prod.mk.injEq] at h
        rw [← h.1]

end skip_vector

end prio_q_internal

end rollbear

namespace rollbear

namespace prio_queue

open prio_q_internal prio_q_internal.heap_heap_addressing

variable {T V : Type} {B H : Nat}

/-! ### `reschedule_top` -/

end prio_queue

namespace prio_queue

open prio_q_internal prio_q_internal.heap_heap_addressing

/-- The spec-modelled `reschedule_top` gives what the tests of the repository
require: "reschedule top of 2 elements to last", "reschedule top of 3 elements
left to 2nd", "reschedule top of 3 elements right to 2nd", and the key sequences
of "reschedule top with highest prio leaves order unchanged", "reschedule to mid
range moves element to correct place" and "reschedule to last moves element to
correct place". -/
theorem reschedule_top_meets_tests :
    ((push_list 8 less_nat [1, 2] (init_void : prio_queue Nat Unit)).bind
      (fun q => reschedule_top 8 less_nat q 3)).bind (top_void 8) = some 2 ∧
    ((push_list 8 less_nat [1, 2, 4] (init_void : prio_queue Nat Unit)).bind
      (fun q => reschedule_top 8 less_nat q 3)).bind (top_void 8) = some 2 ∧
    ((push_list 8 less_nat [1, 4, 2] (init_void : prio_queue Nat Unit)).bind
      (fun q => reschedule_top 8 less_nat q 3)).bind (top_void 8) = some 2 ∧
    ((push_list 4 less_nat [32, 1, 88, 16, 9, 11, 3, 22, 23]
      (init_void : prio_queue Nat Unit)).bind
      (fun q => reschedule_top 4 less_nat q 2)).bind (drain 4 less_nat 9)
      = some [2, 3, 9, 11, 16, 22, 23, 32, 88] ∧
    ((push_list 4 less_nat [32, 1, 88, 16, 9, 11, 3, 22, 23]
      (init_void : prio_queue Nat Unit)).bind
      (fun q => reschedule_top 4 less_nat q 12)).bind (drain 4 less_nat 9)
      = some [3, 9, 11, 12, 16, 22, 23, 32, 88] ∧
    ((push_list 4 less_nat [32, 1, 88, 16, 9, 11, 3, 22, 23]
      (init_void : prio_queue Nat Unit)).bind
      (fun q => reschedule_top 4 less_nat q 89)).bind (drain 4 less_nat 9)
      = some [3, 9, 11, 16, 22, 23, 32, 88, 89] := by
  decide

end prio_queue

end rollbear

namespace rollbear

namespace prio_q_internal

open heap_heap_addressing

/-- C21: within-block locality.  For a power-of-two block size `B ≥ 2` and a
valid index `n`: if `n` is not a block root, its block offset is at least 2,
`parent_of(n) = block_base(n) + block_offset(n) / 2`, and this is a valid index
of the block of `n`; if `n` is not a block leaf, `child_of(n) = n +
block_offset(n)`, and `child_of(n)` and `child_of(n) + 1` are valid indices of
the block of `n`. -/
theorem within_block_locality (B n : Nat) (hB : IsBlockSize B) (hn : ValidIndex B n) :
    (is_block_root B n = false →
      2 ≤ n % B ∧ parent_of B n = block_base B n + block_offset B n / 2 ∧
      ValidIndex B (parent_of B n) ∧ block_base B (parent_of B n) = block_base B n) ∧
    (is_block_leaf B n = false →
      child_of B n = n + block_offset B n ∧
      ValidIndex B (child_of B n) ∧ ValidIndex B (child_of B n + 1) ∧
      block_base B (child_of B n) = block_base B n ∧
      block_base B (child_of B n + 1) = block_base B n) := by
  have p := hB.pow2
  have h2 := p.two_mul
  have hH := p.pos
  have hv : n % B ≠ 0 := (p.validIndex_iff n).mp hn
  have hlt : n % B < B := Nat.mod_lt _ (by omega)
  have hdm := Nat.div_add_mod n B
  constructor
  · intro hr
    have hr1 : n % B ≠ 1 := by
      intro h
      rw [(p.is_block_root_iff n).mpr h] at hr
      cases hr
    have hpar := p.parent_of_not_root n hr1
    obtain ⟨d1, d2⟩ := div_mod_of_lt (B := B) (o := n % B / 2) (n / B) (by omega)
    refine ⟨by omega, ?_, ?_, ?_⟩
    · rw [hpar, p.block_base_mul, p.block_offset_mod]
    · rw [p.validIndex_iff, hpar, d2]
      omega
    · rw [p.block_base_mul, p.block_base_mul, hpar, d1]
  · intro hl
    have hl1 : n % B < B / 2 := by
      by_contra hc
      rw [(p.is_block_leaf_iff n).mpr (by omega)] at hl
      cases hl
    have hch := p.child_of_not_leaf n hl1
    have e1 : n + n % B = B * (n / B) + (n % B + n % B) := by omega
    have e2 : n + n % B + 1 = B * (n / B) + (n % B + n % B + 1) := by omega
    obtain ⟨d1, d2⟩ := div_mod_of_lt (B := B) (o := n % B + n % B) (n / B) (by omega)
    obtain ⟨d3, d4⟩ := div_mod_of_lt (B := B) (o := n % B + n % B + 1) (n / B) (by omega)
    refine ⟨?_, ?_, ?_, ?_, ?_⟩
    · rw [hch, p.block_offset_mod]
    · rw [p.validIndex_iff, hch, e1, d2]
      omega
    · rw [p.validIndex_iff, hch, e2, d4]
      omega
    · rw [p.block_base_mul, p.block_base_mul, hch, e1, d1]
    · rw [p.block_base_mul, p.block_base_mul, hch, e2, d3]

/-- Witness for C21: block size 8, index 19 (offset 3: neither a block root nor
a block leaf). -/
theorem within_block_locality_witness :
    parent_of 8 19 = block_base 8 19 + block_offset 8 19 / 2 ∧
    child_of 8 19 = 19 + block_offset 8 19 ∧
    block_base 8 (child_of 8 19 + 1) = block_base 8 19 :=
  have h := within_block_locality 8 19 ⟨by decide, 3, rfl⟩ ⟨by decide, by decide⟩
  ⟨(h.1 (by decide)).2.1, (h.2 (by decide)).1, (h.2 (by decide)).2.2.2.2⟩

end prio_q_internal

end rollbear

namespace rollbear

namespace prio_queue

open prio_q_internal prio_q_internal.heap_heap_addressing

variable {T V : Type} {B H : Nat}

/-- The `parent_of` chain from a valid index reaches index 1 through valid
indices. -/
theorem parent_chain (p : Pow2 B H) :
    ∀ n, n % B ≠ 0 → ∃ k, k < n ∧ Nat.iterate (parent_of B) k n = 1 ∧
      ∀ j, j ≤ k → Nat.iterate (parent_of B) j n % B ≠ 0 := by
  intro n
  induction n using Nat.strong_induction_on with
  | _ n ih =>
    intro hv
    have h1 : 1 ≤ n := index_pos_of_valid hv
    by_cases hn : n = 1
    · subst hn
      exact ⟨0, by omega, rfl, fun j hj => by
        have : j = 0 := by omega
        subst this
        exact hv⟩
    · obtain ⟨c1, c2, _⟩ := p.parent_spec n hv (by omega)
      obtain ⟨k, k1, k2, k3⟩ := ih (parent_of B n) c1 c2
      refine ⟨k + 1, by omega, ?_, ?_⟩
      · rw [Function.iterate_succ_apply]
        exact k2
      · intro j hj
        cases j with
        | zero => exact hv
        | succ j =>
          rw [Function.iterate_succ_apply]
          exact k3 j (by omega)

/-- C25: for a power-of-two block size `B ≥ 2` and a valid index `n`: if
`n > 1`, `parent_of(n)` is a valid index strictly below `n`; the `parent_of`
chain from `n` reaches index 1 after fewer than `n` steps and passes only
through valid indices; and the sift-up loop of `push_key` and of `pop`, started
with the hole at an occupied index `n` of a queue that satisfies the storage
invariant, returns within `n - 1` iterations. -/
theorem sift_up_terminates {T V : Type} (B n : Nat) (hB : IsBlockSize B)
    (hn : ValidIndex B n) :
    (1 < n → ValidIndex B (parent_of B n) ∧ parent_of B n < n) ∧
    (∃ k, k < n ∧ Nat.iterate (parent_of B) k n = 1 ∧
      ∀ j, j ≤ k → ValidIndex B (Nat.iterate (parent_of B) j n)) ∧
    (∀ (compare : T → T → Bool) (q : prio_queue T V) (tmp : T) (val : Option V),
      Shape B q → n < q.m_storage.m_end → Compat q.P val →
      ∀ fuel, n ≤ fuel + 1 → ∃ q1, sift_up B compare fuel q n tmp val = some q1) := by
  have p := hB.pow2
  have hv : n % B ≠ 0 := (p.validIndex_iff n).mp hn
  refine ⟨?_, ?_, ?_⟩
  · intro h1
    obtain ⟨c1, c2, _⟩ := p.parent_spec n hv h1
    exact ⟨(p.validIndex_iff _).mpr c2, c1⟩
  · obtain ⟨k, k1, k2, k3⟩ := parent_chain p n hv
    exact ⟨k, k1, k2, fun j hj => (p.validIndex_iff _).mpr (k3 j hj)⟩
  · intro compare q tmp val hq hlt hc fuel hf
    obtain ⟨q1, f1, h1, _⟩ := sift_up_spec p compare q.m_storage.m_end tmp val fuel q n _
      (hq.rep (tmp, val)) hv hlt hf hc
    exact ⟨q1, h1⟩

/-- Witness for C25: block size 4, the valid index 13 (chain 13, 3, 1), and a
queue holding the key 8. -/
theorem sift_up_terminates_witness :
    (ValidIndex 4 (parent_of 4 13) ∧ parent_of 4 13 < 13) ∧
    (∃ k, k < 13 ∧ Nat.iterate (parent_of 4) k 13 = 1 ∧
      ∀ j, j ≤ k → ValidIndex 4 (Nat.iterate (parent_of 4) j 13)) :=
  have h := sift_up_terminates (T := Nat) (V := Unit) 4 13 isBlockSize_four
    ⟨by decide, by decide⟩
  ⟨h.1 (by decide), h.2.1⟩

/-- The child chosen by an iteration of the loop of `pop` is the left child, or
the right child when that lies strictly below `last_idx`. -/
theorem pop_next_cases (compare : T → T → Bool) (last : Nat) (q : prio_queue T V)
    (idx next : Nat) (h : pop_next B compare last q idx = some next) :
    next = child_of B idx ∨
      (next = child_of B idx + sibling_offset B idx ∧
        child_of B idx + sibling_offset B idx < last) := by
  unfold pop_next at h
  have hso : (if is_block_leaf B idx = true then B else 1) = sibling_offset B idx := rfl
  simp only [hso] at h
  by_cases hrc : child_of B idx + sibling_offset B idx < last
  · rw [if_pos hrc] at h
    cases ha : q.m_storage.get B (child_of B idx) with
    | none => simp [ha] at h
    | some a =>
      cases hb : q.m_storage.get B (child_of B idx + sibling_offset B idx) with
      | none => simp [ha, hb] at h
      | some b =>
        rw [ha, hb] at h
        simp only [Option.some.injEq] at h
        by_cases hi : (!sorts_before compare a b) = true
        · rw [if_pos hi] at h
          exact Or.inr ⟨h.symm, hrc⟩
        · rw [if_neg hi] at h
          exact Or.inl h.symm
  · rw [if_neg hrc] at h
    simp only [Bool.false_eq_true, if_false, Option.some.injEq] at h
    exact Or.inl h.symm

/-- C26: in the loop that moves the hole down in `pop` (block size a power of
two, at least 2; `last_idx` the end marker minus 1; the hole at a valid index
`idx <= last_idx` of a queue that satisfies the storage invariant): an iteration
is entered when `child_of(idx) <= last_idx`, it is then defined and moves the
hole to an index `next` with `idx < next <= last_idx`; and the loop returns
within `last_idx - idx` iterations, with the hole at an index between `idx` and
`last_idx`. -/
theorem sift_down_terminates {T V : Type} (B : Nat) (hB : IsBlockSize B)
    (compare : T → T → Bool) (q : prio_queue T V) (last idx : Nat)
    (hq : Shape B q) (he : q.m_storage.m_end = last + 1)
    (hv : ValidIndex B idx) (hi : idx ≤ last) :
    (child_of B idx ≤ last →
      (∃ q1 next, pop_step B compare last q idx = some (q1, next)) ∧
      ∀ q1 next, pop_step B compare last q idx = some (q1, next) →
        idx < next ∧ next ≤ last) ∧
    (∀ fuel, last ≤ idx + fuel →
      ∃ q1 h1, sift_down B compare last fuel q idx = some (q1, h1) ∧
        idx ≤ h1 ∧ h1 ≤ last ∧ last < child_of B h1) := by
  have p := hB.pow2
  have hv1 : idx % B ≠ 0 := (p.validIndex_iff idx).mp hv
  obtain ⟨k0, _⟩ := hq.exists_key p (by omega)
  have r := hq.rep (B := B) (k0, none)
  rw [he] at r
  obtain ⟨c1, c2, c3, c4, c5, c6⟩ := p.children_spec idx hv1
  constructor
  · intro hlc
    constructor
    · obtain ⟨q1, h1, f1, s1, _⟩ := sift_down_spec p compare last (last + 1) q idx _ r hv1 hi
        (by omega)
      rw [sift_down_eq_pop_step, if_neg (by omega)] at s1
      cases hs : pop_step B compare last q idx with
      | none => rw [hs] at s1; cases s1
      | some x => exact ⟨x.1, x.2, rfl⟩
    · intro q1 next hs
      obtain ⟨hn, _⟩ := pop_step_moves_chosen B compare last q q1 idx next hs
      rcases pop_next_cases compare last q idx next hn with e | ⟨e, hlt⟩
      · rw [e]; exact ⟨c3, hlc⟩
      · rw [e]; exact ⟨by omega, by omega⟩
  · intro fuel hf
    obtain ⟨q1, h1, f1, s1, _, _, s4, s5, s6, _⟩ :=
      sift_down_spec p compare last fuel q idx _ r hv1 hi hf
    exact ⟨q1, h1, s1, s4, s5, s6⟩

/-- Witness for C26: block size 4, the queue after the pushes 1, 2, 2, 3 (end
marker 6), the hole at the root. -/
theorem sift_down_terminates_witness :
    ∃ q : prio_queue Nat Unit,
      push_list 4 less_nat [1, 2, 2, 3] init_void = some q ∧
      ∃ q1 h1, sift_down 4 less_nat 5 5 q 1 = some (q1, h1) ∧ 1 ≤ h1 ∧ h1 ≤ 5 := by
  obtain ⟨q, h1⟩ := Option.isSome_iff_exists.mp
    (by decide : (push_list 4 less_nat [1, 2, 2, 3]
      (init_void : prio_queue Nat Unit)).isSome = true)
  have he : q.m_storage.m_end = 5 + 1 := by
    have h2 : (push_list 4 less_nat [1, 2, 2, 3] (init_void : prio_queue Nat Unit)).map
        (fun q => q.m_storage.m_end) = some 6 := by decide
    rw [h1] at h2
    simpa using h2
  have hs : Shape 4 q := by
    obtain ⟨q2, e, f, u1, u2, _⟩ := push_list_spec (V := Unit) isBlockSize_four.pow2
      strictWeakOrder_less_nat [1, 2, 2, 3] init_void 0 (fun _ => (0, none))
      ⟨shape_init_void, rfl, fun i _ hi => absurd hi (by omega)⟩ rfl
      (fun n _ _ hn => absurd hn (by omega))
    rw [h1] at u1
    cases u1
    exact u2.1
  obtain ⟨q1, h3, s1, s2, s3, _⟩ :=
    (sift_down_terminates 4 isBlockSize_four less_nat q 5 1 hs he
      ⟨by decide, by decide⟩ (by decide)).2 5 (by decide)
  exact ⟨q, h1, q1, h3, s1, s2, s3⟩

/-- C28: in every state of a queue reachable from an empty one by pushes and
pops (block size a power of two, at least 2), `empty()` is true exactly when
`size()` is 0.  The end marker is never 1 in such a state; in a state with end
marker 1 the two would disagree: `size()` is 0 and `empty()` is false. -/
theorem empty_iff_size_zero {T V : Type} (B : Nat) (hB : IsBlockSize B)
    (compare : T → T → Bool) (q : prio_queue T V) (hq : Reachable B compare q) :
    (q.empty = true ↔ size B q = 0) ∧ q.m_storage.m_end ≠ 1 ∧
    (∀ q0 : prio_queue T V, q0.m_storage.m_end = 1 →
      size B q0 = 0 ∧ q0.empty = false) := by
  have p := hB.pow2
  have hB2 := p.two_le
  obtain ⟨a, b, hr⟩ := hq
  have hs := hr.shape p
  refine ⟨?_, ?_, ?_⟩
  · by_cases he : q.m_storage.m_end = 0
    · have h1 : q.empty = true := by
        simp [prio_queue.empty, skip_vector.empty, skip_vector.size, he]
      have h2 : size B q = 0 := by
        simp [size, skip_vector.size, he]
      exact ⟨fun _ => h2, fun _ => h1⟩
    · have h1 : q.empty = false := empty_eq_false_iff.mpr he
      have h2 := one_lt_end p hs he
      have h3 : (q.m_storage.m_end + B - 1) / B < q.m_storage.m_end := by
        rw [Nat.div_lt_iff_lt_mul (by omega)]
        have : q.m_storage.m_end * 2 ≤ q.m_storage.m_end * B :=
          Nat.mul_le_mul_left _ hB2
        have : 1 * B ≤ q.m_storage.m_end * B := Nat.mul_le_mul_right _ (by omega)
        have : 2 * B ≤ q.m_storage.m_end * B := Nat.mul_le_mul_right _ (by omega)
        omega
      constructor
      · intro h; rw [h1] at h; cases h
      · intro h
        simp only [size, skip_vector.size] at h
        omega
  · intro he
    have := one_lt_end p hs (by omega)
    omega
  · intro q0 he
    constructor
    · simp only [size, skip_vector.size, he]
      rw [show 1 + B - 1 = B by omega, Nat.div_self (by omega)]
    · exact empty_eq_false_iff.mpr (by omega)

/-- Witness for C28: block size 4, the queue holding the key 8. -/
theorem empty_iff_size_zero_witness :
    ∃ q : prio_queue Nat Unit, push_void 4 less_nat init_void 8 = some q ∧
      (q.empty = true ↔ size 4 q = 0) ∧ q.m_storage.m_end ≠ 1 := by
  obtain ⟨q, h1, h2, _⟩ := reachable_one_key
  have h := empty_iff_size_zero 4 isBlockSize_four less_nat q ⟨1, 0, h2⟩
  exact ⟨q, h1, h.1, h.2.1⟩

end prio_queue

end rollbear

namespace rollbear

namespace prio_queue

open prio_q_internal prio_q_internal.heap_heap_addressing

variable {T V : Type} {B H : Nat}

/-! ### The top after `push` -/

theorem set_frame {v st : skip_vector T} {idx : Nat} {x : T}
    (h : v.set B idx x = some st) :
    st.m_end = v.m_end ∧ ∀ j, j ≠ idx → st.m_ptr j = v.m_ptr j := by
  unfold skip_vector.set at h
  split at h
  · cases hp : v.m_ptr idx with
    | none => rw [hp] at h; cases h
    | some y =>
      rw [hp] at h
      simp only [Option.some.injEq] at h
      rw [← h]
      exact ⟨rfl, fun j hj => by simp [hj]⟩
  · cases h

theorem store_frame {pl pl1 : payload V} {idx : Nat} {val : Option V}
    (h : pl.store B idx val = some pl1) :
    ∀ j, j ≠ idx → payload_slot pl1 j = payload_slot pl j := by
  intro j hj
  cases pl with
  | void =>
    simp only [payload.store, Option.some.injEq] at h
    rw [← h]
  | value st =>
    cases val with
    | none => simp [payload.store] at h
    | some v =>
      simp only [payload.store] at h
      cases hs : st.set B idx v with
      | none => rw [hs] at h; cases h
      | some st1 =>
        rw [hs] at h
        simp only [Option.some.injEq] at h
        rw [← h]
        exact (set_frame hs).2 j hj

theorem place_frame {q q1 : prio_queue T V} {idx : Nat} {tmp : T} {val : Option V}
    (h : place B q idx tmp val = some q1) :
    q1.m_storage.m_end = q.m_storage.m_end ∧
    ∀ j, j ≠ idx → q1.m_storage.m_ptr j = q.m_storage.m_ptr j ∧
      payload_slot q1.P j = payload_slot q.P j := by
  unfold place at h
  cases hs : q.m_storage.set B idx tmp with
  | none => rw [hs] at h; cases h
  | some st =>
    rw [hs] at h
    dsimp only at h
    cases hp : q.P.store B idx val with
    | none => rw [hp] at h; cases h
    | some pl =>
      rw [hp] at h
      simp only [Option.some.injEq] at h
      rw [← h]
      exact ⟨(set_frame hs).1, fun j hj => ⟨(set_frame hs).2 j hj, store_frame hp j hj⟩⟩

end prio_queue

end rollbear

namespace rollbear

namespace prio_q_internal

namespace heap_heap_addressing

/-! ### Block boundaries on the way to the root -/

/-- With enough fuel the count of block crossings does not depend on the
fuel. -/
theorem block_crossings_fuel {B H : Nat} (p : Pow2 B H) :
    ∀ (f1 f2 n : Nat), n % B ≠ 0 → n ≤ f1 + 1 → n ≤ f2 + 1 →
      block_crossings B f1 n = block_crossings B f2 n := by
  intro f1
  induction f1 with
  | zero =>
    intro f2 n _ h1 _
    cases f2 with
    | zero => rfl
    | succ f2 => simp [block_crossings, h1]
  | succ f1 ih =>
    intro f2 n hv h1 h2
    by_cases hn : n ≤ 1
    · cases f2 with
      | zero => simp [block_crossings, hn]
      | succ f2 => simp [block_crossings, hn]
    · cases f2 with
      | zero => omega
      | succ f2 =>
        obtain ⟨c1, c2, _⟩ := p.parent_spec n hv (by omega)
        simp only [block_crossings, if_neg hn]
        rw [ih f2 (parent_of B n) c2 (by omega) (by omega)]

/-- A chain that crosses `t` block boundaries starts in a block with at least
`(B^t - 1) / (B - 1)` blocks before it. -/
theorem block_crossings_bound {B H : Nat} (p : Pow2 B H) :
    ∀ (fuel n : Nat), n % B ≠ 0 →
      B ^ block_crossings B fuel n ≤ (B - 1) * (n / B) + 1 := by
  have hB := p.two_le
  have h2 := p.two_mul
  have hH := p.pos
  intro fuel
  induction fuel with
  | zero =>
    intro n _
    simp [block_crossings]
  | succ fuel ih =>
    intro n hv
    by_cases hn : n ≤ 1
    · simp [block_crossings, hn]
    · obtain ⟨c1, c2, _⟩ := p.parent_spec n hv (by omega)
      have hi := ih (parent_of B n) c2
      simp only [block_crossings, if_neg hn]
      rw [p.block_base_mul, p.block_base_mul]
      by_cases hr : n % B = 1
      · have hBn : B ≤ n := by
          by_contra hc
          rw [Nat.mod_eq_of_lt (by omega)] at hr
          omega
        have hb : 1 ≤ n / B := (Nat.one_le_div_iff (by omega)).mpr hBn
        have hpar := p.parent_of_root n hr hBn
        have hm : (n / B - 1) % B < B := Nat.mod_lt _ (by omega)
        have e1 : B * ((n / B - 1) / B) + H + (n / B - 1) % B / 2
            = B * ((n / B - 1) / B) + (H + (n / B - 1) % B / 2) := by omega
        obtain ⟨d1, _⟩ := div_mod_of_lt (B := B) (o := H + (n / B - 1) % B / 2)
          ((n / B - 1) / B) (by omega)
        have hpb : parent_of B n / B = (n / B - 1) / B := by rw [hpar, e1, d1]
        rw [hpb] at hi ⊢
        have hle : (n / B - 1) / B ≤ n / B - 1 := Nat.div_le_self _ _
        have hne : B * ((n / B - 1) / B) ≠ B * (n / B) := by
          intro e
          have := Nat.eq_of_mul_eq_mul_left (by omega : 0 < B) e
          omega
        rw [if_pos hne, pow_add, pow_one]
        have k1 : (n / B - 1) / B * B ≤ n / B - 1 := Nat.div_mul_le_self _ _
        have k2 : (B - 1) * ((n / B - 1) / B * B) ≤ (B - 1) * (n / B - 1) :=
          Nat.mul_le_mul_left _ k1
        have k3 : B * ((B - 1) * ((n / B - 1) / B) + 1)
            = (B - 1) * ((n / B - 1) / B * B) + B := by ring
        have k4 : (B - 1) * (n / B - 1) + (B - 1) = (B - 1) * (n / B) := by
          rw [← Nat.mul_succ]
          congr 1
          omega
        have k5 : B * B ^ block_crossings B fuel (parent_of B n)
            ≤ B * ((B - 1) * ((n / B - 1) / B) + 1) := Nat.mul_le_mul_left _ hi
        omega
      · have hpar := p.parent_of_not_root n hr
        have hlt : n % B < B := Nat.mod_lt _ (by omega)
        obtain ⟨d1, _⟩ := div_mod_of_lt (B := B) (o := n % B / 2) (n / B) (by omega)
        have hpb : parent_of B n / B = n / B := by rw [hpar, d1]
        rw [hpb] at hi ⊢
        simp only [ne_eq, not_true_eq_false, if_false, Nat.zero_add]
        exact hi

/-- The number of valid indices below the end marker grows with the end
marker. -/
theorem valid_count_mono {B : Nat} (hB : 2 ≤ B) (a : Nat) :
    ∀ d, a - (a + B - 1) / B ≤ (a + d) - (a + d + B - 1) / B := by
  intro d
  induction d with
  | zero => exact Nat.le_refl _
  | succ d ih =>
    have c0 := prio_queue.ceil_div_eq (by omega : 0 < B) (a + d)
    have c1 := prio_queue.ceil_div_eq (by omega : 0 < B) (a + d + 1)
    rw [show a + (d + 1) = a + d + 1 by omega, c1]
    rw [c0] at ih
    have hdl := Nat.div_le_self (a + d) B
    rcases succ_mod_cases B (a + d) (by omega) with ⟨s1, s2, s3⟩ | ⟨s1, s2, s3⟩
    · rw [s2, s3, if_neg (by omega)]
      split at ih <;> omega
    · rw [s2, s3, if_pos rfl]
      rw [if_neg (by omega)] at ih
      omega

end heap_heap_addressing

end prio_q_internal

end rollbear

namespace rollbear

namespace prio_queue

open prio_q_internal prio_q_internal.heap_heap_addressing

variable {T V : Type} {B H : Nat}

/-- C23: block-boundary bound.  For a block size `B` that is a power of two, at
least 2, a queue whose `size()` is `N`, and a valid index `n` below its end
marker (an occupied index): if the `parent_of` chain from `n` up to index 1 has
`t` steps whose endpoints lie in different blocks, then `B^t <= N`; hence
`N >= 1` and `t <= floor(log_B N) <= ceil(log_B N)`.  The count `t` is
`block_crossings B n n`; more fuel does not change it. -/
theorem block_boundary_bound {T V : Type} (B : Nat) (hB : IsBlockSize B)
    (q : prio_queue T V) (n : Nat) (hn : ValidIndex B n) (hocc : n < q.m_storage.m_end) :
    B ^ block_crossings B n n ≤ size B q ∧
    block_crossings B n n ≤ Nat.log B (size B q) ∧
    block_crossings B n n ≤ Nat.clog B (size B q) ∧
    1 ≤ size B q ∧
    ∀ fuel, n ≤ fuel → block_crossings B fuel n = block_crossings B n n := by
  have p := hB.pow2
  have hB2 := p.two_le
  have hv : n % B ≠ 0 := (p.validIndex_iff n).mp hn
  have hb := block_crossings_bound p n n hv
  have hmono := valid_count_mono hB2 (n + 1) (q.m_storage.m_end - (n + 1))
  rw [show n + 1 + (q.m_storage.m_end - (n + 1)) = q.m_storage.m_end by omega] at hmono
  have hd : (n + 1 + B - 1) / B = n / B + 1 := by
    rw [show n + 1 + B - 1 = n + B by omega, Nat.add_div_right _ (by omega : 0 < B)]
  rw [hd] at hmono
  have hdm := Nat.div_add_mod n B
  have hsplit : (B - 1) * (n / B) + n / B = B * (n / B) := by
    rw [← Nat.succ_mul]
    congr 1
    omega
  have hsz : (B - 1) * (n / B) + 1 ≤ size B q := by
    simp only [size, skip_vector.size]
    omega
  have hpow : B ^ block_crossings B n n ≤ size B q := Nat.le_trans hb hsz
  have hpos : 1 ≤ size B q := by omega
  have hlog : block_crossings B n n ≤ Nat.log B (size B q) :=
    (Nat.pow_le_iff_le_log (by omega) (by omega)).mp hpow
  refine ⟨hpow, hlog, Nat.le_trans hlog (Nat.log_le_clog _ _), hpos, ?_⟩
  intro fuel hf
  exact block_crossings_fuel p fuel n n hv (by omega) (by omega)

/-- Witness for C23: block size 4, the queue after the pushes 1, 2, 2, 3 (four
elements at the indices 1, 2, 3, 5), the occupied index 5, whose chain 5, 2, 1
crosses one block boundary. -/
theorem block_boundary_bound_witness :
    ∃ q : prio_queue Nat Unit,
      push_list 4 less_nat [1, 2, 2, 3] init_void = some q ∧
      block_crossings 4 5 5 = 1 ∧ size 4 q = 4 ∧
      4 ^ block_crossings 4 5 5 ≤ size 4 q := by
  obtain ⟨q, h1⟩ := Option.isSome_iff_exists.mp
    (by decide : (push_list 4 less_nat [1, 2, 2, 3]
      (init_void : prio_queue Nat Unit)).isSome = true)
  have he : q.m_storage.m_end = 6 := by
    have h2 : (push_list 4 less_nat [1, 2, 2, 3] (init_void : prio_queue Nat Unit)).map
        (fun q => q.m_storage.m_end) = some 6 := by decide
    rw [h1] at h2
    simpa using h2
  have h := block_boundary_bound 4 isBlockSize_four q 5
    ⟨by decide, by decide⟩ (by rw [he]; decide)
  refine ⟨q, h1, by decide, ?_, h.1⟩
  simp [size, skip_vector.size, he]

end prio_queue

end rollbear

namespace rollbear

namespace prio_queue

open prio_q_internal prio_q_internal.heap_heap_addressing

variable {T V : Type} {B H : Nat}

/-! ### The indices passed to `operator[]` -/

end prio_queue

end rollbear

namespace rollbear

namespace prio_q_internal

namespace skip_vector

open heap_heap_addressing

variable {T : Type} {B H : Nat}

/-! ### The `int` in `grow` -/

theorem to_int_of_lt {n : Nat} (h : n < 2 ^ 31) : to_int n = (n : Int) := by
  unfold to_int
  have h1 : n % 2 ^ 32 = n := Nat.mod_eq_of_lt (by omega)
  rw [h1, if_pos h]

theorem of_int_natCast {n : Nat} (h : n < 2 ^ 64) : of_int (n : Int) = n := by
  unfold of_int
  have h1 : ((n : Int) % 2 ^ 64) = (n : Int) := Int.emod_eq_of_lt (by omega) (by omega)
  rw [h1]
  simp

/-- With the end marker below `2^31 - 2`, `grow` with its `int` is `grow` with
the index kept exact. -/
theorem grow_int_eq (v : skip_vector T) (x : T) (h : v.m_end + 2 < 2 ^ 31) :
    grow_int B v x = grow B v x := by
  have h1 : to_int (v.m_end + 1) = ((v.m_end + 1 : Nat) : Int) := to_int_of_lt (by omega)
  have h2 : of_int (to_int (v.m_end + 1) + 1) = v.m_end + 1 + 1 := by
    rw [h1]
    have : (((v.m_end + 1 : Nat) : Int) + 1) = ((v.m_end + 1 + 1 : Nat) : Int) := by push_cast; ring
    rw [this]
    exact of_int_natCast (by omega)
  have h3 : of_int (to_int (v.m_end + 1)) = v.m_end + 1 := by
    rw [h1]
    exact of_int_natCast (by omega)
  have h4 : ¬ to_int (v.m_end + 1) = 2 ^ 31 - 1 := by
    rw [h1]
    omega
  unfold grow_int grow
  simp only [h2, h3, h4, if_false]

/-- Outside `grow`, and in `grow` below `2^31 - 2`, `push_back` with the `int`
of `grow` is `push_back` with the index kept exact. -/
theorem push_back_int_eq_of (v : skip_vector T) (x : T)
    (h : v.m_end &&& block_mask B = 0 → v.m_end = v.m_storage_size → v.m_end + 2 < 2 ^ 31) :
    push_back_int B v x = push_back B v x := by
  unfold push_back_int push_back
  by_cases h1 : v.m_end &&& block_mask B ≠ 0
  · rw [if_pos h1, if_pos h1]
  · rw [if_neg h1, if_neg h1]
    by_cases h2 : v.m_end = v.m_storage_size
    · rw [if_pos h2, if_pos h2]
      exact grow_int_eq v x (h (by omega) h2)
    · rw [if_neg h2, if_neg h2]

/-- On a vector that satisfies the storage invariant and whose end marker is
below `2^31`, `push_back` with the `int` of `grow` is `push_back` with the index
kept exact. -/
theorem push_back_int_eq {v : skip_vector T} (hv : Inv B v) (h : v.m_end < 2 ^ 31) (x : T) :
    push_back_int B v x = push_back B v x := by
  apply push_back_int_eq_of
  intro _ hfull
  rcases hv.cap with hc | ⟨k, hk⟩
  · omega
  · have hk2 : v.m_storage_size = 16 * (B * 2 ^ k) := by rw [hk]; ring
    generalize B * 2 ^ k = t at hk2
    omega

/-- The call of `push_back` that grows a buffer of `2^31` slots: the element is
constructed at index `2^31 + 1` of the new buffer of `2^32` slots and the old
elements are moved over, but the `int` turns the returned index into
`2^64 - 2^31 + 1` and the end marker into `2^64 - 2^31 + 2`. -/
theorem push_back_int_wrap (p : Pow2 B H) {v : skip_vector T} (hv : Inv B v)
    (he : v.m_end = 2 ^ 31) (hc : v.m_storage_size = 2 ^ 31) (x : T) :
    ∃ v1, push_back_int B v x = some (v1, 2 ^ 64 - 2 ^ 31 + 1) ∧
      v1.m_end = 2 ^ 64 - 2 ^ 31 + 2 ∧ v1.m_storage_size = 2 ^ 32 ∧
      v1.m_ptr (2 ^ 31 + 1) = some x ∧
      (∀ j, j < 2 ^ 31 → j % B ≠ 0 → v1.m_ptr j = v.m_ptr j) ∧
      (∀ j, 2 ^ 31 + 1 < j → v1.m_ptr j = none) := by
  have hB := p.two_le
  have h0 : v.m_end % B = 0 := by
    obtain ⟨c, hcd⟩ := hv.cap_dvd
    rw [he, ← hc, hcd, Nat.mul_mod_right]
  have hfull : v.m_end = v.m_storage_size := by rw [he, hc]
  have hc0 : v.m_storage_size ≠ 0 := by rw [hc]; decide
  have hidx : to_int (v.m_end + 1) = -(2 ^ 31 - 1) := by rw [he]; decide
  have h4 : ¬ to_int (v.m_end + 1) = 2 ^ 31 - 1 := by rw [hidx]; decide
  have h2 : of_int (to_int (v.m_end + 1) + 1) = 2 ^ 64 - 2 ^ 31 + 2 := by rw [hidx]; decide
  have h3 : of_int (to_int (v.m_end + 1)) = 2 ^ 64 - 2 ^ 31 + 1 := by rw [hidx]; decide
  unfold push_back_int
  rw [and_block_mask p, if_neg (by omega), if_pos hfull]
  unfold grow_int
  simp only [if_pos hc0, construct, h2, h3, h4, if_false]
  rw [if_pos (by omega)]
  obtain ⟨ptr2, hm, hptr⟩ := move_to_loop_spec p v.m_ptr v.m_end (v.m_storage_size * 2)
    (by omega) hv.live v.m_end 1
    (fun j => if j = v.m_end + 1 then some x else none) (by omega)
  simp only [move_to, hm]
  refine ⟨_, rfl, rfl, by simp only []; omega, ?_, ?_, ?_⟩
  · simp only []
    rw [hptr, if_neg (by omega), if_pos (by omega)]
  · intro j h1 hj
    simp only []
    have hj1 : 1 ≤ j := by
      rcases Nat.eq_zero_or_pos j with hz | hz
      · subst hz; simp at hj
      · exact hz
    rw [hptr, if_pos ⟨hj1, by omega, hj⟩]
  · intro j h1
    simp only []
    rw [hptr, if_neg (by omega), if_neg (by omega)]

/-- A list of `push_back` calls keeps the storage invariant, does not lower
the end marker, and keeps the capacity at `16·B` or below twice the end
marker. -/
theorem push_back_list_tight (p : Pow2 B H) (xs : List T) :
    ∀ (v v1 : skip_vector T), Inv B v →
      (v.m_storage_size ≤ 16 * B ∨ v.m_storage_size < 2 * v.m_end) →
      push_back_list B xs v = some v1 →
      Inv B v1 ∧ (v1.m_storage_size ≤ 16 * B ∨ v1.m_storage_size < 2 * v1.m_end) ∧
        v.m_end ≤ v1.m_end := by
  induction xs with
  | nil =>
    intro v v1 hv ht h
    simp only [push_back_list, Option.some.injEq] at h
    subst h
    exact ⟨hv, ht, Nat.le_refl _⟩
  | cons x xs ih =>
    intro v v1 hv ht h
    obtain ⟨v2, h1, h2, h3, _⟩ := push_back_spec p v hv x
    simp only [push_back_list, h1] at h
    have hcap := push_back_capacity p v hv x h1
    have hle := (prio_queue.next_index_gap (B := B) (e := v.m_end)).1
    have hni : v.m_end = v.m_storage_size → next_index B v.m_end = v.m_end + 1 := by
      intro hf
      unfold next_index
      rw [if_neg]
      obtain ⟨c, hcd⟩ := hv.cap_dvd
      rw [hf, hcd, Nat.mul_mod_right]
      simp
    have ht2 : v2.m_storage_size ≤ 16 * B ∨ v2.m_storage_size < 2 * v2.m_end := by
      rw [hcap, h3]
      by_cases hf : v.m_end = v.m_storage_size
      · rw [if_pos hf, hni hf]
        by_cases hc0 : v.m_storage_size ≠ 0
        · rw [if_pos hc0]; right; omega
        · rw [if_neg hc0]; left; omega
      · rw [if_neg hf]
        rcases ht with ht | ht
        · left; exact ht
        · right; omega
    obtain ⟨r1, r2, r3⟩ := ih v2 v1 h2 ht2 h
    exact ⟨r1, r2, by omega⟩

/-- A list of `push_back` calls keeps the storage invariant and does not lower
the end marker. -/
theorem push_back_list_mono (p : Pow2 B H) (xs : List T) :
    ∀ (v v1 : skip_vector T), Inv B v → push_back_list B xs v = some v1 →
      Inv B v1 ∧ v.m_end ≤ v1.m_end := by
  induction xs with
  | nil =>
    intro v v1 hv h
    simp only [push_back_list, Option.some.injEq] at h
    subst h
    exact ⟨hv, Nat.le_refl _⟩
  | cons x xs ih =>
    intro v v1 hv h
    obtain ⟨v2, h1, h2, h3, _⟩ := push_back_spec p v hv x
    simp only [push_back_list, h1] at h
    have hle := (prio_queue.next_index_gap (B := B) (e := v.m_end)).1
    obtain ⟨r1, r2⟩ := ih v2 v1 h2 h
    exact ⟨r1, by omega⟩

/-- A list of `push_back` calls that ends with the end marker at most `2^31`
runs the same with the `int` of `grow`. -/
theorem push_back_list_int_eq (p : Pow2 B H) (xs : List T) :
    ∀ (v v1 : skip_vector T), Inv B v → push_back_list B xs v = some v1 →
      v1.m_end ≤ 2 ^ 31 → push_back_list_int B xs v = some v1 := by
  induction xs with
  | nil =>
    intro v v1 _ h _
    simpa [push_back_list, push_back_list_int] using h
  | cons x xs ih =>
    intro v v1 hv h hb
    obtain ⟨v2, h1, h2, h3, _⟩ := push_back_spec p v hv x
    simp only [push_back_list, h1] at h
    have hle := (prio_queue.next_index_gap (B := B) (e := v.m_end)).1
    obtain ⟨_, hmono⟩ := push_back_list_mono p xs v2 v1 h2 h
    have hi : push_back_int B v x = some (v2, next_index B v.m_end) := by
      rw [push_back_int_eq hv (by omega), h1]
    simp only [push_back_list_int, hi]
    exact ih v2 v1 h2 h hb

/-- Block size 16: a list of `2013265920` `push_back` calls on the empty vector
runs as with the index kept exact and fills a buffer of `2^31` slots to the
end. -/
theorem push_back_list_int_full (xs : List T) (hl : xs.length = 2013265920) :
    ∃ v, push_back_list_int 16 xs init = some v ∧ push_back_list 16 xs init = some v ∧
      Inv 16 v ∧ v.m_end = 2 ^ 31 ∧ v.m_storage_size = 2 ^ 31 := by
  have p : Pow2 16 8 := ⟨3, rfl, rfl⟩
  obtain ⟨v, h1, h2, h3⟩ := push_back_list_spec p xs 0 init (inv_init 16) rfl
  rw [Nat.zero_add, hl] at h3
  have he : v.m_end = 2 ^ 31 := by rw [h3]; decide
  obtain ⟨_, ht, _⟩ := push_back_list_tight p xs init v (inv_init 16)
    (Or.inl (by simp [init])) h1
  have hc : v.m_storage_size = 2 ^ 31 := by
    have hle := h2.end_le
    rcases h2.cap with hc | ⟨k, hk⟩
    · omega
    · have hk31 : v.m_storage_size < 2 ^ 32 := by omega
      rw [hk] at hk31 hle ⊢
      rw [he] at hle
      have hk23 : k = 23 := by
        rcases Nat.lt_trichotomy k 23 with hlt | heq | hgt
        · have : 2 ^ k ≤ 2 ^ 22 := Nat.pow_le_pow_right (by decide) (by omega)
          omega
        · exact heq
        · have : 2 ^ 24 ≤ 2 ^ k := Nat.pow_le_pow_right (by decide) (by omega)
          omega
      rw [hk23]
      decide
  exact ⟨v, push_back_list_int_eq p xs init v (inv_init 16) h1 (by omega), h1, h2, he, hc⟩

/-- The end marker after `push_back` is at most `2^31` when it was below. -/
theorem next_end_le (p : Pow2 B H) {e : Nat} (h : e < 2 ^ 31) :
    next_index B e + 1 ≤ 2 ^ 31 := by
  obtain ⟨k, hk, _⟩ := p
  unfold next_index
  by_cases h0 : e % B ≠ 0
  · rw [if_pos h0]; omega
  · rw [if_neg h0]
    have h2 : e % 2 = 0 := by
      have hd : 2 ∣ B := ⟨2 ^ k, by rw [hk, pow_succ]; ring⟩
      have : B ∣ e := Nat.dvd_of_mod_eq_zero (by omega)
      exact Nat.mod_eq_zero_of_dvd (Nat.dvd_trans hd this)
    omega

/-- A state the code reaches with the end marker at most `2^31` is a state
reached with the index kept exact, and satisfies the storage invariant. -/
theorem ReachableInt.inv_exact (p : Pow2 B H) {v : skip_vector T} (h : ReachableInt B v) :
    Inv B v ∧ v.m_end ≤ 2 ^ 31 ∧ Reachable B v := by
  induction h with
  | init => exact ⟨inv_init B, Nat.zero_le _, Reachable.init⟩
  | @push_back v v1 x i _ hp hb ih =>
    obtain ⟨hv, he, hr⟩ := ih
    have heq : push_back_int B v x = skip_vector.push_back B v x := by
      apply push_back_int_eq_of
      intro _ hfull
      rcases Nat.lt_or_ge v.m_end (2 ^ 31) with hlt | hge
      · rcases hv.cap with hc | ⟨k, hk⟩
        · omega
        · have hk2 : v.m_storage_size = 16 * (B * 2 ^ k) := by rw [hk]; ring
          generalize B * 2 ^ k = t at hk2
          omega
      · exfalso
        have he31 : v.m_end = 2 ^ 31 := by omega
        obtain ⟨v2, h1, h2, _⟩ := push_back_int_wrap p hv he31 (by omega) x
        rw [hp] at h1
        simp only [Option.some.injEq, Prod.mk.injEq] at h1
        rw [h1.1, h2] at hb
        omega
    rw [heq] at hp
    obtain ⟨v2, h1, h2, _⟩ := push_back_spec p v hv x
    rw [hp] at h1
    simp only [Option.some.injEq, Prod.mk.injEq] at h1
    rw [h1.1]
    rw [h1.1] at hb hp
    exact ⟨h2, hb, Reachable.push_back hr hp⟩
  | @pop_back v v1 _ hp ih =>
    obtain ⟨hv, he, hr⟩ := ih
    have hne : v.m_end ≠ 0 := by
      intro h0
      unfold skip_vector.pop_back at hp
      rw [if_pos h0] at hp
      cases hp
    obtain ⟨v2, h1, h2, h3, _⟩ := pop_back_spec p _ hv hne
    rw [hp] at h1
    cases h1
    exact ⟨h2, by omega, Reachable.pop_back hr hp⟩

/-- A list of `push_back` calls from a state the code reaches, ending with the
end marker at most `2^31`, leads to a state the code reaches. -/
theorem reachableInt_push_back_list (p : Pow2 B H) (xs : List T) :
    ∀ (v v1 : skip_vector T), ReachableInt B v → push_back_list_int B xs v = some v1 →
      push_back_list B xs v = some v1 → v1.m_end ≤ 2 ^ 31 → ReachableInt B v1 := by
  induction xs with
  | nil =>
    intro v v1 hr h _ _
    simp only [push_back_list_int, Option.some.injEq] at h
    subst h
    exact hr
  | cons x xs ih =>
    intro v v1 hr hi h hb
    have hv := (hr.inv_exact p).1
    obtain ⟨v2, h1, h2, h3, _⟩ := push_back_spec p v hv x
    simp only [push_back_list, h1] at h
    have hle := (prio_queue.next_index_gap (B := B) (e := v.m_end)).1
    obtain ⟨_, hmono⟩ := push_back_list_mono p xs v2 v1 h2 h
    have hi2 : push_back_int B v x = some (v2, next_index B v.m_end) := by
      rw [push_back_int_eq hv (by omega), h1]
    simp only [push_back_list_int, hi2] at hi
    exact ih v2 v1 (ReachableInt.push_back hr hi2 (by omega)) hi h hb

/-- The conversion to `int` of a value at offset 1 of a block of 16 is not the
largest `int`. -/
theorem to_int_ne_max {n : Nat} (h : n % 16 = 1) : to_int n ≠ 2 ^ 31 - 1 := by
  unfold to_int
  split <;> omega

/-- What `push_back` with the `int` of `grow` returns, from what `push_back`
with the index kept exact returns: the same outside `grow`; in `grow` the same
buffer and capacity, with the end marker and the index taken through the
`int`. -/
theorem push_back_int_of_push_back {v st : skip_vector T} {x : T} {i : Nat}
    (h : push_back B v x = some (st, i)) :
    push_back_int B v x =
      if v.m_end &&& block_mask B = 0 ∧ v.m_end = v.m_storage_size then
        (if to_int (v.m_end + 1) = 2 ^ 31 - 1 then none
         else some ({ st with m_end := of_int (to_int (v.m_end + 1) + 1) },
            of_int (to_int (v.m_end + 1))))
      else some (st, i) := by
  unfold push_back at h
  unfold push_back_int
  by_cases h1 : v.m_end &&& block_mask B ≠ 0
  · rw [if_pos h1] at h ⊢
    rw [if_neg (fun hc => h1 hc.1)]
    generalize construct v.m_ptr v.m_storage_size v.m_end x = c at h ⊢
    cases c with
    | none => cases h
    | some ptr => exact h
  · rw [if_neg h1] at h ⊢
    by_cases h2 : v.m_end = v.m_storage_size
    · rw [if_pos h2] at h ⊢
      rw [if_pos ⟨by omega, h2⟩]
      unfold grow at h
      unfold grow_int
      dsimp only at h ⊢
      generalize construct (fun _ => none) _ (v.m_end + 1) x = c at h ⊢
      cases c with
      | none => cases h
      | some ptr1 =>
        dsimp only at h ⊢
        generalize (if v.m_storage_size ≠ 0 then move_to B v.m_ptr v.m_end ptr1 _
          else some ptr1) = m at h ⊢
        cases m with
        | none => cases h
        | some ptr2 =>
          dsimp only at h ⊢
          simp only [Option.some.injEq, Prod.mk.injEq] at h
          rw [← h.1]
    · rw [if_neg h2] at h ⊢
      rw [if_neg (fun hc => h2 hc.2)]
      generalize construct v.m_ptr v.m_storage_size (v.m_end + 1) x = c at h ⊢
      cases c with
      | none => cases h
      | some ptr => exact h

/-- What `push_back` for a throwing move constructor returns with the `int` of
`grow`, from what it returns with the index kept exact: the same outside
`grow`; in `grow` the same buffer, capacity and copies, with the end marker and
the index taken through the `int`. -/
theorem push_back_copy_int_of_returned {v st : skip_vector T} {x : T} {a : Bool}
    {f : Option Nat} {i : Nat} {made : List Nat}
    (h : push_back_copy B v x a f = Outcome.returned (st, i, made)) :
    push_back_copy_int B v x a f =
      if v.m_end &&& block_mask B = 0 ∧ v.m_end = v.m_storage_size then
        (if to_int (v.m_end + 1) = 2 ^ 31 - 1 then Outcome.undefined
         else Outcome.returned ({ st with m_end := of_int (to_int (v.m_end + 1) + 1) },
            of_int (to_int (v.m_end + 1)), made))
      else Outcome.returned (st, i, made) := by
  unfold push_back_copy at h
  unfold push_back_copy_int
  by_cases h1 : v.m_end &&& block_mask B ≠ 0
  · rw [if_pos h1] at h ⊢
    rw [if_neg (fun hc => h1 hc.1)]
    generalize construct v.m_ptr v.m_storage_size v.m_end x = c at h ⊢
    cases c with
    | none => cases h
    | some ptr => exact h
  · rw [if_neg h1] at h ⊢
    by_cases h2 : v.m_end = v.m_storage_size
    · rw [if_pos h2] at h ⊢
      rw [if_pos ⟨by omega, h2⟩]
      unfold grow_copy at h
      unfold grow_copy_int
      cases a with
      | true => simp at h
      | false =>
        simp only [Bool.false_eq_true, if_false] at h ⊢
        generalize construct (fun _ => none) _ (v.m_end + 1) x = c at h ⊢
        cases c with
        | none => cases h
        | some ptr1 =>
          dsimp only at h ⊢
          by_cases hc0 : v.m_storage_size ≠ 0
          · rw [if_pos hc0] at h ⊢
            generalize move_to_copy B v.m_ptr v.m_end ptr1 _ f = m at h ⊢
            cases m with
            | undefined => cases h
            | threw t =>
              obtain ⟨ptr2, made2, gone⟩ := t
              dsimp only at h
              split at h
              · split at h <;> cases h
              · cases h
            | returned r =>
              obtain ⟨ptr2, b1, made2⟩ := r
              dsimp only at h ⊢
              simp only [Outcome.returned.injEq, Prod.mk.injEq] at h
              rw [← h.1, ← h.2.2]
          · rw [if_neg hc0] at h ⊢
            simp only [Outcome.returned.injEq, Prod.mk.injEq] at h
            rw [← h.1, ← h.2.2]
    · rw [if_neg h2] at h ⊢
      rw [if_neg (fun hc => h2 hc.2)]
      generalize construct v.m_ptr v.m_storage_size (v.m_end + 1) x = c at h ⊢
      cases c with
      | none => cases h
      | some ptr => exact h

/-- On a vector that satisfies the storage invariant, `push_back` for a
throwing move constructor returns, with the `int` of `grow`, when nothing
throws: it gives the state and the index of `push_back_int`, the capacity of
`push_back` with the index kept exact, and copies each non-forbidden index
below the end marker once when it grows a buffer, and nothing otherwise. -/
theorem push_back_copy_int_ok (p : Pow2 B H) (v : skip_vector T) (hv : Inv B v) (x : T) :
    ∃ v0 v1 i made,
      push_back B v x = some (v0, next_index B v.m_end) ∧
      push_back_copy_int B v x false none = Outcome.returned (v1, i, made) ∧
      push_back_int B v x = some (v1, i) ∧
      v1.m_storage_size = v0.m_storage_size ∧
      made.Nodup ∧
      ∀ j, j ∈ made ↔
        (v.m_end = v.m_storage_size ∧ v.m_storage_size ≠ 0) ∧ j < v.m_end ∧ j % B ≠ 0 := by
  obtain ⟨v0, made, h1, h2, h3, h4⟩ := push_back_copy_ok p v hv x
  have e1 := push_back_copy_int_of_returned h1
  have e2 := push_back_int_of_push_back h2
  by_cases hg : v.m_end &&& block_mask B = 0 ∧ v.m_end = v.m_storage_size
  · have hno : ¬ to_int (v.m_end + 1) = 2 ^ 31 - 1 := by
      apply to_int_ne_max
      rcases hv.cap with hc | ⟨k, hk⟩
      · rw [hg.2, hc]
      · have hk2 : v.m_storage_size = 16 * (B * 2 ^ k) := by rw [hk]; ring
        generalize B * 2 ^ k = t at hk2
        omega
    rw [if_pos hg, if_neg hno] at e1 e2
    exact ⟨v0, _, _, made, h2, e1, e2, rfl, h3, h4⟩
  · rw [if_neg hg] at e1 e2
    exact ⟨v0, v0, _, made, h2, e1, e2, rfl, h3, h4⟩

/-- The capacity after a call of `push_back` for a throwing move constructor
that returns, with the `int` of `grow`, in any state: it changes exactly when
the end marker equals the capacity, to `16·B` from 0 and to twice the old
capacity otherwise, and nothing is copied unless it changes. -/
theorem push_back_copy_int_capacity (hB : 0 < B) {v v1 : skip_vector T} {x : T} {i : Nat}
    {made : List Nat}
    (h : push_back_copy_int B v x false none = Outcome.returned (v1, i, made)) :
    (v1.m_storage_size ≠ v.m_storage_size ↔ v.m_end = v.m_storage_size) ∧
    (v.m_end = v.m_storage_size →
      v1.m_storage_size = if v.m_storage_size = 0 then 16 * B else 2 * v.m_storage_size) ∧
    (v.m_end ≠ v.m_storage_size → made = []) := by
  unfold push_back_copy_int at h
  by_cases h1 : v.m_end &&& block_mask B ≠ 0
  · rw [if_pos h1] at h
    unfold construct at h
    by_cases hlt : v.m_end < v.m_storage_size
    · rw [if_pos hlt] at h
      simp only [Outcome.returned.injEq, Prod.mk.injEq] at h
      rw [← h.1, ← h.2.2]
      exact ⟨⟨fun hne => absurd rfl hne, fun he => by omega⟩, fun he => by omega, fun _ => rfl⟩
    · rw [if_neg hlt] at h
      cases h
  · rw [if_neg h1] at h
    by_cases h2 : v.m_end = v.m_storage_size
    · rw [if_pos h2] at h
      unfold grow_copy_int at h
      simp only [Bool.false_eq_true, if_false] at h
      generalize construct (fun _ => none) _ (v.m_end + 1) x = c at h
      cases c with
      | none => cases h
      | some ptr1 =>
        dsimp only at h
        by_cases hc0 : v.m_storage_size ≠ 0
        · rw [if_pos hc0] at h
          generalize move_to_copy B v.m_ptr v.m_end ptr1 _ none = m at h
          cases m with
          | undefined => cases h
          | threw t =>
            obtain ⟨ptr2, made2, gone⟩ := t
            dsimp only at h
            split at h
            · split at h
              · cases h
              · split at h <;> cases h
            · cases h
          | returned r =>
            obtain ⟨ptr2, b1, made2⟩ := r
            dsimp only at h
            split at h
            · cases h
            · simp only [Outcome.returned.injEq, Prod.mk.injEq] at h
              rw [← h.1]
              simp only [if_pos hc0, if_neg hc0]
              exact ⟨⟨fun _ => h2, fun _ => by omega⟩, fun _ => by omega,
                fun hne => absurd h2 hne⟩
        · rw [if_neg hc0] at h
          split at h
          · cases h
          · simp only [Outcome.returned.injEq, Prod.mk.injEq] at h
            rw [← h.1]
            have hz : v.m_storage_size = 0 := by omega
            simp only [if_neg hc0, if_pos hz]
            exact ⟨⟨fun _ => h2, fun _ => by omega⟩, fun _ => by omega,
              fun hne => absurd h2 hne⟩
    · rw [if_neg h2] at h
      unfold construct at h
      by_cases hlt : v.m_end + 1 < v.m_storage_size
      · rw [if_pos hlt] at h
        simp only [Outcome.returned.injEq, Prod.mk.injEq] at h
        rw [← h.1, ← h.2.2]
        exact ⟨⟨fun hne => absurd rfl hne, fun he => absurd he h2⟩,
          fun he => absurd he h2, fun _ => rfl⟩
      · rw [if_neg hlt] at h
        cases h

/-- The first `16·(B - 1)` calls of `push_back` on an empty vector run the same
with the `int` of `grow`. -/
theorem push_back_list_int_small (p : Pow2 B H) (xs : List T) :
    ∀ (k : Nat) (v : skip_vector T), Inv B v →
      v.m_end = (if k = 0 then 0 else nth_index B k + 1) →
      v.m_storage_size = (if k = 0 then 0 else 16 * B) →
      k + xs.length ≤ 16 * (B - 1) →
      push_back_list_int B xs v = push_back_list B xs v := by
  have hB := p.two_le
  induction xs with
  | nil =>
    intro k v _ _ _ _
    rfl
  | cons x xs ih =>
    intro k v hv he hc hlen
    simp only [List.length_cons] at hlen
    have hi : push_back_int B v x = push_back B v x := by
      apply push_back_int_eq_of
      intro _ hfull
      by_cases hk : k = 0
      · rw [he, if_pos hk]; decide
      · exfalso
        rw [he, hc, if_neg hk, if_neg hk] at hfull
        have := nth_index_lt_cap hB (show k < 16 * (B - 1) by omega)
        omega
    obtain ⟨v1, u1, u2, u3, u4⟩ := push_back_list_capacity p [x] k v hv he hc
      (by simp only [List.length_cons, List.length_nil]; omega)
    simp only [List.length_cons, List.length_nil, Nat.zero_add] at u3 u4
    obtain ⟨v2, h1, -⟩ := push_back_spec p v hv x
    simp only [push_back_list, h1, Option.some.injEq] at u1
    subst u1
    simp only [push_back_list_int, push_back_list, hi, h1]
    exact ih (k + 1) v2 u2 u3 u4 (by omega)

end skip_vector

open heap_heap_addressing

/-- C27 on the code with the `int` of `grow`, block size a power of two, at
least 2.  In every state the code reaches from the empty vector by `push_back`
and by `pop_back` on a non-empty vector with the end marker at most `2^31`, the
end marker does not have block offset 1, it does not exceed the capacity, and
the capacity is 0 or `16·B·2^k`; with the end marker below `2^31`, `push_back`
is defined, constructs its element at an index strictly below the capacity of
the buffer it uses and leads to such a state again, as does `pop_back` on a
non-empty vector.  The call of `push_back` on a full buffer of `2^31` slots
breaks the invariant: it returns an index and leaves an end marker above the
new capacity. -/
theorem storage_invariant_int {T : Type} (B : Nat) (hB : IsBlockSize B) (v : skip_vector T)
    (hv : skip_vector.ReachableInt B v) :
    v.m_end &&& skip_vector.block_mask B ≠ 1 ∧
    v.m_end ≤ v.m_storage_size ∧
    (v.m_storage_size = 0 ∨ ∃ k, v.m_storage_size = 16 * B * 2 ^ k) ∧
    (v.m_end < 2 ^ 31 → ∀ x, ∃ v1 i, skip_vector.push_back_int B v x = some (v1, i) ∧
      i < v1.m_storage_size ∧ v1.m_ptr i = some x ∧ skip_vector.ReachableInt B v1) ∧
    (v.m_end ≠ 0 → ∃ v1, skip_vector.pop_back B v = some v1 ∧
      skip_vector.ReachableInt B v1) ∧
    (v.m_end = 2 ^ 31 → v.m_storage_size = 2 ^ 31 → ∀ x, ∃ v1 i,
      skip_vector.push_back_int B v x = some (v1, i) ∧
      v1.m_storage_size < v1.m_end ∧ v1.m_storage_size < i) := by
  have p := hB.pow2
  obtain ⟨hinv, hb, _⟩ := hv.inv_exact p
  refine ⟨?_, hinv.end_le, hinv.cap, ?_, ?_, ?_⟩
  · rw [skip_vector.and_block_mask p]
    exact hinv.end_mod
  · intro hlt x
    obtain ⟨v1, h1, h2, h3, h4, _⟩ := skip_vector.push_back_spec p v hinv x
    have hi : skip_vector.push_back_int B v x = some (v1, skip_vector.next_index B v.m_end) := by
      rw [skip_vector.push_back_int_eq hinv hlt, h1]
    have hb1 : v1.m_end ≤ 2 ^ 31 := by
      rw [h3]; exact skip_vector.next_end_le p hlt
    refine ⟨v1, _, hi, ?_, h4, skip_vector.ReachableInt.push_back hv hi hb1⟩
    have := h2.end_le
    omega
  · intro he
    obtain ⟨v1, h1, _⟩ := skip_vector.pop_back_spec p v hinv he
    exact ⟨v1, h1, skip_vector.ReachableInt.pop_back hv h1⟩
  · intro he hc x
    obtain ⟨v1, h1, h2, h3, _⟩ := skip_vector.push_back_int_wrap p hinv he hc x
    refine ⟨v1, _, h1, ?_, ?_⟩
    · rw [h2, h3]; decide
    · rw [h3]; decide

/-- Witness for C27 on the code with the `int` of `grow`: block size 4 and the
vector that holds 10, 11, 12, with the next `push_back` and with `pop_back`;
block size 16, the state after `2013265920` calls of `push_back` on the empty
vector, and the next call. -/
theorem storage_invariant_int_witness :
    (∃ v : skip_vector Nat,
      skip_vector.push_back_list_int 4 [10, 11, 12] skip_vector.init = some v ∧
      skip_vector.ReachableInt 4 v ∧
      v.m_end &&& skip_vector.block_mask 4 ≠ 1 ∧ v.m_end ≤ v.m_storage_size ∧
      (∃ v1 i, skip_vector.push_back_int 4 v 13 = some (v1, i) ∧
        i < v1.m_storage_size ∧ v1.m_ptr i = some 13 ∧ skip_vector.ReachableInt 4 v1) ∧
      ∃ v1, skip_vector.pop_back 4 v = some v1 ∧ skip_vector.ReachableInt 4 v1) ∧
    (∃ v : skip_vector Nat,
      skip_vector.push_back_list_int 16 (List.replicate 2013265920 0) skip_vector.init
        = some v ∧
      skip_vector.ReachableInt 16 v ∧ v.m_end ≤ v.m_storage_size ∧
      ∃ v1 i, skip_vector.push_back_int 16 v 7 = some (v1, i) ∧
        v1.m_storage_size < v1.m_end ∧ v1.m_storage_size < i) := by
  constructor
  · obtain ⟨v, h1, h2, h3⟩ : ∃ v : skip_vector Nat,
        skip_vector.push_back_list_int 4 [10, 11, 12] skip_vector.init = some v ∧
        skip_vector.push_back_list 4 [10, 11, 12] skip_vector.init = some v ∧
        v.m_end = 4 :=
      ⟨_, rfl, rfl, rfl⟩
    have hr := skip_vector.reachableInt_push_back_list isBlockSize_four.pow2 _ _ _
      skip_vector.ReachableInt.init h1 h2 (by rw [h3]; decide)
    have h := storage_invariant_int 4 isBlockSize_four v hr
    exact ⟨v, h1, hr, h.1, h.2.1, h.2.2.2.1 (by rw [h3]; decide) 13,
      h.2.2.2.2.1 (by rw [h3]; decide)⟩
  · have hB : IsBlockSize 16 := ⟨by decide, 4, rfl⟩
    obtain ⟨v, h1, h2, _, h4, h5⟩ := skip_vector.push_back_list_int_full
      (List.replicate 2013265920 (0 : Nat)) (List.length_replicate _ _)
    have hr := skip_vector.reachableInt_push_back_list hB.pow2 _ _ _
      skip_vector.ReachableInt.init h1 h2 (by omega)
    have h := storage_invariant_int 16 hB v hr
    exact ⟨v, h1, hr, h.2.1, h.2.2.2.2.2 h4 h5 7⟩

/-- C20 on the code with the `int` of `grow`, block size a power of two, at
least 2, on a vector that satisfies the storage invariant.  With the end marker
below `2^31`, `push_back(x)` is defined, `operator[]` returns at every
non-forbidden index below the old end marker the value it returned before the
call and `x` at the returned index, whether the call grows the storage (the
capacity changes) or not.  On a full buffer of `2^31` slots the call moves the
old elements over and constructs `x` at index `2^31 + 1`, but it returns the
index `2^64 - 2^31 + 1`, at which `operator[]` finds no element. -/
theorem push_back_int_keeps_elements {T : Type} (B : Nat) (hB : IsBlockSize B)
    (v : skip_vector T) (hv : skip_vector.Inv B v) (x : T) :
    (v.m_end < 2 ^ 31 →
      ∃ v1 i, skip_vector.push_back_int B v x = some (v1, i) ∧
        (∀ j, j < v.m_end → j &&& skip_vector.block_mask B ≠ 0 → v1.get B j = v.get B j) ∧
        v1.get B i = some x ∧
        (v1.m_storage_size ≠ v.m_storage_size ↔ v.m_end = v.m_storage_size)) ∧
    (v.m_end = 2 ^ 31 → v.m_storage_size = 2 ^ 31 →
      ∃ v1, skip_vector.push_back_int B v x = some (v1, 2 ^ 64 - 2 ^ 31 + 1) ∧
        (∀ j, j < v.m_end → j &&& skip_vector.block_mask B ≠ 0 → v1.get B j = v.get B j) ∧
        v1.get B (2 ^ 64 - 2 ^ 31 + 1) = none ∧
        v1.m_ptr (2 ^ 31 + 1) = some x ∧
        v1.m_storage_size ≠ v.m_storage_size) := by
  have p := hB.pow2
  have hB2 := p.two_le
  constructor
  · intro hlt
    obtain ⟨v1, h1, h2, h3, h4, h5⟩ := skip_vector.push_back_spec p v hv x
    have hmod := (skip_vector.next_index_mod p v.m_end).1
    have hle := (prio_queue.next_index_gap (B := B) (e := v.m_end)).1
    refine ⟨v1, _, by rw [skip_vector.push_back_int_eq hv hlt, h1], ?_, ?_, ?_⟩
    · intro j hj hjv
      rw [skip_vector.and_block_mask p] at hjv
      rw [skip_vector.get_eq p v1 j (by omega) hjv, skip_vector.get_eq p v j hj hjv,
        h5 j hj hjv]
    · rw [skip_vector.get_eq p v1 _ (by omega) hmod, h4]
    · rw [skip_vector.push_back_capacity p v hv x h1]
      by_cases hfull : v.m_end = v.m_storage_size
      · rw [if_pos hfull]
        by_cases h0 : v.m_storage_size ≠ 0
        · rw [if_pos h0]
          constructor
          · intro _; exact hfull
          · intro _; omega
        · rw [if_neg h0]
          constructor
          · intro _; exact hfull
          · intro _; omega
      · rw [if_neg hfull]
        constructor
        · intro h; exact absurd rfl h
        · intro h; exact absurd h hfull
  · intro he hc
    obtain ⟨v1, h1, h2, h3, h4, h5, h6⟩ := skip_vector.push_back_int_wrap p hv he hc x
    refine ⟨v1, h1, ?_, ?_, h4, by rw [h3, hc]; decide⟩
    · intro j hj hjv
      rw [skip_vector.and_block_mask p] at hjv
      rw [skip_vector.get_eq p v1 j (by rw [h2]; omega) hjv, skip_vector.get_eq p v j hj hjv,
        h5 j (by omega) hjv]
    · unfold skip_vector.get
      split
      · exact h6 _ (by decide)
      · rfl

/-- Witness for C20 on the code with the `int` of `grow`: block size 4 and the
vector holding 10, 11, 12 (the call does not grow); block size 2 and the vector
holding 16 elements in a full buffer of 32 slots (the call grows); block size
16 and the vector after `2013265920` calls of `push_back`. -/
theorem push_back_int_keeps_elements_witness :
    (∃ v : skip_vector Nat,
      skip_vector.push_back_list_int 4 [10, 11, 12] skip_vector.init = some v ∧
      ∃ v1 i, skip_vector.push_back_int 4 v 13 = some (v1, i) ∧
        (∀ j, j < v.m_end → j &&& skip_vector.block_mask 4 ≠ 0 → v1.get 4 j = v.get 4 j) ∧
        v1.get 4 i = some 13 ∧ v1.m_storage_size = v.m_storage_size) ∧
    (∃ v : skip_vector Nat,
      skip_vector.push_back_list_int 2
        [1, 2, 3, 4, 5, 6, 7, 8, 9, 10, 11, 12, 13, 14, 15, 16] skip_vector.init = some v ∧
      v.m_end = 32 ∧ v.m_storage_size = 32 ∧
      ∃ v1 i, skip_vector.push_back_int 2 v 17 = some (v1, i) ∧
        (∀ j, j < v.m_end → j &&& skip_vector.block_mask 2 ≠ 0 → v1.get 2 j = v.get 2 j) ∧
        v1.get 2 i = some 17 ∧ v1.m_storage_size ≠ v.m_storage_size) ∧
    (∃ v : skip_vector Nat,
      skip_vector.push_back_list_int 16 (List.replicate 2013265920 0) skip_vector.init
        = some v ∧
      ∃ v1, skip_vector.push_back_int 16 v 13 = some (v1, 2 ^ 64 - 2 ^ 31 + 1) ∧
        v1.get 16 (2 ^ 64 - 2 ^ 31 + 1) = none ∧ v1.m_ptr (2 ^ 31 + 1) = some 13) := by
  refine ⟨?_, ?_, ?_⟩
  · obtain ⟨v, h1, h2, h3, h4⟩ : ∃ v : skip_vector Nat,
        skip_vector.push_back_list_int 4 [10, 11, 12] skip_vector.init = some v ∧
        skip_vector.push_back_list 4 [10, 11, 12] skip_vector.init = some v ∧
        v.m_end = 4 ∧ v.m_storage_size = 64 :=
      ⟨_, rfl, rfl, rfl, rfl⟩
    have hv : skip_vector.Inv 4 v :=
      (skip_vector.reachable_push_back_list _ _ _ skip_vector.Reachable.init h2).storage_inv
        isBlockSize_four.pow2
    obtain ⟨v1, i, g1, g2, g3, g4⟩ :=
      (push_back_int_keeps_elements 4 isBlockSize_four v hv 13).1 (by rw [h3]; decide)
    refine ⟨v, h1, v1, i, g1, g2, g3, ?_⟩
    by_contra hne
    have := g4.mp hne
    omega
  · obtain ⟨v, h1, h2, h3, h4⟩ : ∃ v : skip_vector Nat,
        skip_vector.push_back_list_int 2
          [1, 2, 3, 4, 5, 6, 7, 8, 9, 10, 11, 12, 13, 14, 15, 16] skip_vector.init = some v ∧
        skip_vector.push_back_list 2
          [1, 2, 3, 4, 5, 6, 7, 8, 9, 10, 11, 12, 13, 14, 15, 16] skip_vector.init = some v ∧
        v.m_end = 32 ∧ v.m_storage_size = 32 :=
      ⟨_, rfl, rfl, rfl, rfl⟩
    have hB : IsBlockSize 2 := ⟨by decide, 1, rfl⟩
    have hv : skip_vector.Inv 2 v :=
      (skip_vector.reachable_push_back_list _ _ _ skip_vector.Reachable.init h2).storage_inv
        hB.pow2
    obtain ⟨v1, i, g1, g2, g3, g4⟩ :=
      (push_back_int_keeps_elements 2 hB v hv 17).1 (by rw [h3]; decide)
    exact ⟨v, h1, h3, h4, v1, i, g1, g2, g3, g4.mpr (by rw [h3, h4])⟩
  · obtain ⟨v, h1, _, h3, h4, h5⟩ := skip_vector.push_back_list_int_full
      (List.replicate 2013265920 (0 : Nat)) (List.length_replicate _ _)
    obtain ⟨v1, g1, _, g3, g4, _⟩ :=
      (push_back_int_keeps_elements 16 ⟨by decide, 4, rfl⟩ v h3 13).2 h4 h5
    exact ⟨v, h1, v1, g1, g3, g4⟩

/-- C9 on the code with the `int` of `grow`, starting from the empty
`skip_vector` with a power-of-two block size `B ≥ 2`.  After a list `xs` of
`push_back` calls, call number `k = |xs| + 1` is defined and returns the index
`k + (k-1)/(B-1)` as long as that index is below `2^31`; `size()` is then that
index plus one, the index is not a multiple of `B`, it is larger than the
previous one, and every index skipped in between is a multiple of `B`.  For
`B = 16`, call number `2013265921` should return `2^31 + 1`; it returns
`2^64 - 2^31 + 1` and leaves `size()` at `2^64 - 2^31 + 2`. -/
theorem push_back_int_returns_index {T : Type} (B : Nat) (hB : IsBlockSize B)
    (xs : List T) (x : T) :
    (xs.length + 1 + xs.length / (B - 1) < 2 ^ 31 →
      ∃ v v1, skip_vector.push_back_list_int B xs skip_vector.init = some v ∧
        skip_vector.push_back_int B v x = some (v1, xs.length + 1 + xs.length / (B - 1)) ∧
        v1.size = xs.length + 1 + xs.length / (B - 1) + 1 ∧
        (xs.length + 1 + xs.length / (B - 1)) % B ≠ 0 ∧
        skip_vector.nth_index B xs.length < xs.length + 1 + xs.length / (B - 1) ∧
        ∀ m, skip_vector.nth_index B xs.length < m →
          m < xs.length + 1 + xs.length / (B - 1) → m % B = 0) ∧
    (B = 16 → xs.length = 2013265920 →
      ∃ v v1, skip_vector.push_back_list_int B xs skip_vector.init = some v ∧
        skip_vector.push_back_int B v x = some (v1, 2 ^ 64 - 2 ^ 31 + 1) ∧
        v1.size = 2 ^ 64 - 2 ^ 31 + 2 ∧
        xs.length + 1 + xs.length / (B - 1) = 2 ^ 31 + 1) := by
  have p := hB.pow2
  have hB2 := p.two_le
  constructor
  · intro hlt
    obtain ⟨v, h1, h2, h3⟩ := skip_vector.push_back_list_spec p xs 0 skip_vector.init
      (skip_vector.inv_init B) rfl
    obtain ⟨v1, h4, h5, h6, _⟩ := skip_vector.push_back_spec p v h2 x
    have hn : skip_vector.nth_index B (xs.length + 1)
        = xs.length + 1 + xs.length / (B - 1) := by
      simp [skip_vector.nth_index]
    have hprev : skip_vector.nth_index B xs.length < xs.length + 1 + xs.length / (B - 1) := by
      rcases Nat.eq_zero_or_pos xs.length with h0 | h0
      · rw [h0, skip_vector.nth_index_zero]; simp
      · rcases skip_vector.nth_index_succ hB2 xs.length h0 with ⟨e, _⟩ | ⟨e, _⟩ <;>
          rw [hn] at e <;> omega
    have hend : v.m_end < 2 ^ 31 := by
      rw [h3, Nat.zero_add]
      by_cases h0 : xs.length = 0
      · rw [if_pos h0]; decide
      · rw [if_neg h0]; omega
    have hrun : skip_vector.push_back_list_int B xs skip_vector.init = some v :=
      skip_vector.push_back_list_int_eq p xs _ _ (skip_vector.inv_init B) h1 (by omega)
    rw [h3, Nat.zero_add, skip_vector.next_index_nth hB2, hn] at h4 h6
    have hmod := (skip_vector.next_index_mod p v.m_end).1
    rw [h3, Nat.zero_add, skip_vector.next_index_nth hB2, hn] at hmod
    refine ⟨v, v1, hrun, by rw [skip_vector.push_back_int_eq h2 hend, h4], h6, hmod, hprev, ?_⟩
    intro m hm1 hm2
    rcases Nat.eq_zero_or_pos xs.length with h0 | h0
    · rw [h0, skip_vector.nth_index_zero] at hm1
      rw [h0] at hm2
      simp at hm2
      omega
    · rcases skip_vector.nth_index_succ hB2 xs.length h0 with ⟨e, _⟩ | ⟨e, e2⟩
      · rw [hn] at e; omega
      · rw [hn] at e
        have : m = skip_vector.nth_index B xs.length + 1 := by omega
        rw [this]; exact e2
  · intro h16 hl
    subst h16
    obtain ⟨v, h1, _, h3, h4, h5⟩ := skip_vector.push_back_list_int_full xs hl
    obtain ⟨v1, g1, g2, _⟩ := skip_vector.push_back_int_wrap p h3 h4 h5 x
    refine ⟨v, v1, h1, g1, g2, ?_⟩
    rw [hl]
    decide

/-- Witness for C9 on the code with the `int` of `grow`: block size 4, the
fourth call; block size 16, call number `2013265921`. -/
theorem push_back_int_returns_index_witness :
    (∃ v v1, skip_vector.push_back_list_int 4 [10, 11, 12] skip_vector.init = some v ∧
      skip_vector.push_back_int 4 v 13 = some (v1, 5) ∧
      v1.size = 5 + 1 ∧ 5 % 4 ≠ 0 ∧ skip_vector.nth_index 4 3 < 5 ∧
      ∀ m, skip_vector.nth_index 4 3 < m → m < 5 → m % 4 = 0) ∧
    (∃ v v1,
      skip_vector.push_back_list_int 16 (List.replicate 2013265920 (0 : Nat))
        skip_vector.init = some v ∧
      skip_vector.push_back_int 16 v 13 = some (v1, 2 ^ 64 - 2 ^ 31 + 1) ∧
      v1.size = 2 ^ 64 - 2 ^ 31 + 2 ∧
      skip_vector.nth_index 16 2013265921 = 2 ^ 31 + 1) := by
  constructor
  · exact (push_back_int_returns_index 4 isBlockSize_four [10, 11, 12] 13).1 (by decide)
  · obtain ⟨v, v1, h1, h2, h3, _⟩ :=
      (push_back_int_returns_index 16 ⟨by decide, 4, rfl⟩
        (List.replicate 2013265920 (0 : Nat)) 13).2 rfl (List.length_replicate _ _)
    exact ⟨v, v1, h1, h2, h3, by decide⟩

/-- C19: the growth policy of `skip_vector` for a block size `B` that is a power
of two, at least 2, on the code with the `int` of `grow`.  Whenever `push_back`
returns, in any state, the capacity has changed exactly when the end marker
equalled the capacity; the new capacity is then `16·B` for an empty buffer and
twice the old one otherwise, and no element is relocated unless the call grows.
On every vector that satisfies the storage invariant `push_back` returns.
Starting from the empty vector, each of the first `16·(B - 1)` calls relocates
nothing and leaves the capacity `16·B`; call number `16·(B - 1) + 1` finds the
end marker and the capacity at `16·B`, doubles the capacity to `32·B`, and
relocates `16·(B - 1)` elements: one for every non-forbidden index below the
end marker, each once, and none for a forbidden slot. -/
theorem growth_policy_int {T : Type} (B : Nat) (hB : IsBlockSize B) :
    (∀ (v v1 : skip_vector T) (x : T) (i : Nat) (made : List Nat),
      skip_vector.push_back_copy_int B v x false none = Outcome.returned (v1, i, made) →
        (v1.m_storage_size ≠ v.m_storage_size ↔ v.m_end = v.m_storage_size) ∧
        (v.m_end = v.m_storage_size →
          v1.m_storage_size = if v.m_storage_size = 0 then 16 * B
            else 2 * v.m_storage_size) ∧
        (v.m_end ≠ v.m_storage_size → made = [])) ∧
    (∀ (v : skip_vector T), skip_vector.Inv B v → ∀ x : T,
      ∃ v1 i made,
        skip_vector.push_back_copy_int B v x false none = Outcome.returned (v1, i, made) ∧
        skip_vector.push_back_int B v x = some (v1, i)) ∧
    (∀ (xs : List T) (x : T), xs.length ≤ 16 * (B - 1) →
      ∃ v v1 i made,
        skip_vector.push_back_list_int B xs skip_vector.init = some v ∧
        skip_vector.push_back_copy_int B v x false none = Outcome.returned (v1, i, made) ∧
        (xs.length < 16 * (B - 1) → made = [] ∧ v1.m_storage_size = 16 * B) ∧
        (xs.length = 16 * (B - 1) →
          v.m_end = 16 * B ∧ v.m_storage_size = 16 * B ∧ v1.m_storage_size = 32 * B ∧
          made.length = 16 * (B - 1) ∧ made.Nodup ∧
          ∀ j, j ∈ made ↔ j < v.m_end ∧ j &&& skip_vector.block_mask B ≠ 0)) := by
  have p := hB.pow2
  have hB2 := p.two_le
  refine ⟨?_, ?_, ?_⟩
  · intro v v1 x i made h
    exact skip_vector.push_back_copy_int_capacity (by omega) h
  · intro v hv x
    obtain ⟨_, v1, i, made, _, h1, h2, _⟩ := skip_vector.push_back_copy_int_ok p v hv x
    exact ⟨v1, i, made, h1, h2⟩
  · intro xs x hlen
    obtain ⟨v, u1, u2, u3, u4⟩ := skip_vector.push_back_list_capacity p xs 0
      skip_vector.init (skip_vector.inv_init B) rfl rfl (by omega)
    have hrun : skip_vector.push_back_list_int B xs skip_vector.init = some v := by
      rw [skip_vector.push_back_list_int_small p xs 0 skip_vector.init
        (skip_vector.inv_init B) rfl rfl (by omega), u1]
    rw [Nat.zero_add] at u3 u4
    obtain ⟨v0, v1, i, made, h0, h1, _, hc, h3, h4⟩ :=
      skip_vector.push_back_copy_int_ok p v u2 x
    have hcap := skip_vector.push_back_capacity p v u2 x h0
    rw [← hc] at hcap
    refine ⟨v, v1, i, made, hrun, h1, ?_, ?_⟩
    · intro hlt
      by_cases hk : xs.length = 0
      · rw [if_pos hk] at u3 u4
        refine ⟨?_, ?_⟩
        · apply List.eq_nil_iff_forall_not_mem.mpr
          intro j hj
          exact ((h4 j).mp hj).1.2 u4
        · rw [hcap, u3, u4]
          simp
          omega
      · rw [if_neg hk] at u3 u4
        have hlt2 := skip_vector.nth_index_lt_cap hB2 hlt
        refine ⟨?_, ?_⟩
        · apply List.eq_nil_iff_forall_not_mem.mpr
          intro j hj
          have := ((h4 j).mp hj).1.1
          omega
        · rw [hcap, if_neg (by omega), u4]
    · intro heq
      have hk : xs.length ≠ 0 := by omega
      rw [if_neg hk] at u3 u4
      rw [heq, skip_vector.nth_index_cap hB2] at u3
      have hfull : v.m_end = v.m_storage_size := by omega
      have hc0 : v.m_storage_size ≠ 0 := by omega
      have hmem : ∀ j, j ∈ made ↔ j < v.m_end ∧ j % B ≠ 0 := by
        intro j
        rw [h4 j]
        constructor
        · intro h; exact h.2
        · intro h; exact ⟨⟨hfull, hc0⟩, h⟩
      have hl := skip_vector.length_valid_below (by omega : 0 < B) made h3 v.m_end hmem
      have hdiv : (16 * B + B - 1) / B = 16 := by
        rw [show 16 * B + B - 1 = (B - 1) + 16 * B by omega,
          Nat.add_mul_div_right _ _ (by omega : 0 < B), Nat.div_eq_of_lt (by omega)]
      rw [u3, hdiv] at hl
      refine ⟨u3, u4, ?_, by omega, h3, ?_⟩
      · rw [hcap, if_pos hfull, if_pos hc0, u4]
        omega
      · intro j
        rw [hmem j, skip_vector.and_block_mask p]

/-- Witness for C19: block size 4.  The fourth `push_back` on the empty vector
relocates nothing; call number 49 finds the 64 slots full, doubles the capacity
and relocates the 48 elements. -/
theorem growth_policy_int_witness :
    (∃ (v v1 : skip_vector Nat) (i : Nat) (made : List Nat),
      skip_vector.push_back_list_int 4 [1, 2, 3] skip_vector.init = some v ∧
      skip_vector.push_back_copy_int 4 v 4 false none = Outcome.returned (v1, i, made) ∧
      made = [] ∧ v1.m_storage_size = 64) ∧
    (∃ (v v1 : skip_vector Nat) (i : Nat) (made : List Nat),
      skip_vector.push_back_list_int 4 (List.replicate 48 0) skip_vector.init = some v ∧
      skip_vector.push_back_copy_int 4 v 1 false none = Outcome.returned (v1, i, made) ∧
      v.m_end = 64 ∧ v.m_storage_size = 64 ∧ v1.m_storage_size = 128 ∧
      made.length = 48 ∧ made.Nodup ∧ (5 ∈ made ∧ 8 ∉ made) ∧
      (v1.m_storage_size ≠ v.m_storage_size ↔ v.m_end = v.m_storage_size)) := by
  constructor
  · obtain ⟨v, v1, i, made, h1, h2, h3, -⟩ :=
      (growth_policy_int 4 isBlockSize_four).2.2 [1, 2, 3] 4 (by decide)
    obtain ⟨h4, h5⟩ := h3 (by decide)
    exact ⟨v, v1, i, made, h1, h2, h4, h5⟩
  · obtain ⟨v, v1, i, made, h1, h2, -, h3⟩ :=
      (growth_policy_int 4 isBlockSize_four).2.2 (List.replicate 48 (0 : Nat)) 1
        (by rw [List.length_replicate])
    obtain ⟨g1, g2, g3, g4, g5, g6⟩ := h3 (by rw [List.length_replicate])
    refine ⟨v, v1, i, made, h1, h2, g1, g2, g3, g4, g5, ⟨?_, ?_⟩,
      ((growth_policy_int 4 isBlockSize_four).1 v v1 1 i made h2).1⟩
    · exact (g6 5).mpr ⟨by rw [g1]; decide, by decide⟩
    · intro h8
      exact ((g6 8).mp h8).2 (by decide)

end prio_q_internal

end rollbear

namespace rollbear

namespace prio_queue

open prio_q_internal prio_q_internal.heap_heap_addressing

variable {T V : Type} {B H : Nat}

/-! ### `push` with the `int` of `grow` -/

theorem set_cap {v st : skip_vector T} {idx : Nat} {x : T}
    (h : v.set B idx x = some st) : st.m_storage_size = v.m_storage_size := by
  unfold skip_vector.set at h
  split at h
  · cases hp : v.m_ptr idx with
    | none => rw [hp] at h; cases h
    | some y =>
      rw [hp] at h
      simp only [Option.some.injEq] at h
      rw [← h]
  · cases h

theorem place_cap {q q1 : prio_queue T V} {idx : Nat} {tmp : T} {val : Option V}
    (h : place B q idx tmp val = some q1) :
    q1.m_storage.m_storage_size = q.m_storage.m_storage_size := by
  unfold place at h
  cases hs : q.m_storage.set B idx tmp with
  | none => rw [hs] at h; cases h
  | some st =>
    rw [hs] at h
    dsimp only at h
    cases hp : q.P.store B idx val with
    | none => rw [hp] at h; cases h
    | some pl =>
      rw [hp] at h
      simp only [Option.some.injEq] at h
      rw [← h]
      exact set_cap hs

/-- The sift-up loop leaves the end marker and the capacity of the key storage
as they are. -/
theorem sift_up_end_cap (compare : T → T → Bool) (tmp : T) (val : Option V) (fuel : Nat) :
    ∀ (q q1 : prio_queue T V) (hole : Nat),
      sift_up B compare fuel q hole tmp val = some q1 →
      q1.m_storage.m_end = q.m_storage.m_end ∧
        q1.m_storage.m_storage_size = q.m_storage.m_storage_size := by
  induction fuel with
  | zero =>
    intro q q1 hole h
    unfold sift_up at h
    split at h
    · cases h
    · exact ⟨(place_frame h).1, place_cap h⟩
  | succ n ih =>
    intro q q1 hole h
    unfold sift_up at h
    by_cases h1 : hole ≠ 1
    · rw [if_pos h1] at h
      dsimp only at h
      cases hg : q.m_storage.get B (parent_of B hole) with
      | none => rw [hg] at h; cases h
      | some pv =>
        rw [hg] at h
        dsimp only at h
        by_cases hc : (!sorts_before compare tmp pv) = true
        · rw [if_pos hc] at h
          exact ⟨(place_frame h).1, place_cap h⟩
        · rw [if_neg hc] at h
          cases hs : q.m_storage.set B hole pv with
          | none => rw [hs] at h; cases h
          | some st =>
            rw [hs] at h
            dsimp only at h
            cases hm : q.P.move B (parent_of B hole) hole with
            | none => rw [hm] at h; cases h
            | some pl =>
              rw [hm] at h
              dsimp only at h
              obtain ⟨e1, e2⟩ := ih _ _ _ h
              exact ⟨by rw [e1]; exact (set_frame hs).1, by rw [e2]; exact set_cap hs⟩
    · rw [if_neg h1] at h
      exact ⟨(place_frame h).1, place_cap h⟩

/-- The key storage that `push_key` leaves has the end marker and the capacity
that `push_back` gave it. -/
theorem push_key_end_cap {compare : T → T → Bool} {q q1 : prio_queue T V} {k : T}
    (h : push_key B compare q k = some q1) :
    ∃ st i, q.m_storage.push_back B k = some (st, i) ∧
      q1.m_storage.m_end = st.m_end ∧ q1.m_storage.m_storage_size = st.m_storage_size := by
  unfold push_key at h
  cases hp : q.m_storage.push_back B k with
  | none => rw [hp] at h; cases h
  | some r =>
    obtain ⟨st, i⟩ := r
    rw [hp] at h
    dsimp only at h
    cases hb : st.back with
    | none => rw [hb] at h; cases h
    | some tmp =>
      rw [hb] at h
      dsimp only at h
      cases hv : q.P.back with
      | none => rw [hv] at h; cases h
      | some val =>
        rw [hv] at h
        dsimp only at h
        obtain ⟨e1, e2⟩ := sift_up_end_cap compare tmp val _ _ _ _ h
        exact ⟨st, i, rfl, e1, e2⟩

/-- The same for `push_key` with the `int` of `grow`. -/
theorem push_key_int_end_cap {compare : T → T → Bool} {q q1 : prio_queue T V} {k : T}
    (h : push_key_int B compare q k = some q1) :
    ∃ st i, q.m_storage.push_back_int B k = some (st, i) ∧
      q1.m_storage.m_end = st.m_end ∧ q1.m_storage.m_storage_size = st.m_storage_size := by
  unfold push_key_int at h
  cases hp : q.m_storage.push_back_int B k with
  | none => rw [hp] at h; cases h
  | some r =>
    obtain ⟨st, i⟩ := r
    rw [hp] at h
    dsimp only at h
    cases hb : st.back with
    | none => rw [hb] at h; cases h
    | some tmp =>
      rw [hb] at h
      dsimp only at h
      cases hv : q.P.back with
      | none => rw [hv] at h; cases h
      | some val =>
        rw [hv] at h
        dsimp only at h
        obtain ⟨e1, e2⟩ := sift_up_end_cap compare tmp val _ _ _ _ h
        exact ⟨st, i, rfl, e1, e2⟩

/-- With the end marker of the key storage below `2^31`, `push_key` with the
`int` of `grow` is `push_key` with the index kept exact. -/
theorem push_key_int_eq (compare : T → T → Bool) {q : prio_queue T V}
    (hv : skip_vector.Inv B q.m_storage) (h : q.m_storage.m_end < 2 ^ 31) (k : T) :
    push_key_int B compare q k = push_key B compare q k := by
  unfold push_key_int push_key
  rw [skip_vector.push_back_int_eq hv h]

/-- On a queue that satisfies the storage invariant, with the end marker of the
key storage below `2^31`, both overloads of `push` with the `int` of `grow` are
`push` with the index kept exact. -/
theorem push_int_eq (compare : T → T → Bool) {q : prio_queue T V} (hq : Shape B q)
    (h : q.m_storage.m_end < 2 ^ 31) :
    (∀ k, push_void_int B compare q k = push_void B compare q k) ∧
    (∀ k v, push_int B compare q k v = push B compare q k v) := by
  constructor
  · intro k
    unfold push_void_int push_void
    cases hP : q.P with
    | void => exact push_key_int_eq compare hq.1 h k
    | value s => rfl
  · intro k v
    unfold push_int push
    cases hP : q.P with
    | void => rfl
    | value s =>
      have hs := hq.2
      rw [hP] at hs
      dsimp only at hs
      have e : skip_vector.push_back_int B s v = skip_vector.push_back B s v :=
        skip_vector.push_back_int_eq hs.1 (by rw [hs.2]; exact h) v
      simp only [payload.push_back_int, payload.push_back, e]
      cases hp : skip_vector.push_back B s v with
      | none => rfl
      | some r =>
        obtain ⟨st, i⟩ := r
        dsimp only
        exact push_key_int_eq compare (q := ⟨q.m_storage, payload.value st⟩) hq.1 h k

/-- On a key storage that fills its `2^31` slots, `push_key` is undefined:
`push_back` leaves the end marker at `2^64 - 2^31 + 2`, and `back()` reads the
slot below it, far beyond the buffer. -/
theorem push_key_int_wrap (p : Pow2 B H) (compare : T → T → Bool) {q : prio_queue T V}
    (hv : skip_vector.Inv B q.m_storage) (he : q.m_storage.m_end = 2 ^ 31)
    (hc : q.m_storage.m_storage_size = 2 ^ 31) (k : T) :
    push_key_int B compare q k = none := by
  obtain ⟨st, h1, h2, _, _, _, h6⟩ := skip_vector.push_back_int_wrap p hv he hc k
  unfold push_key_int
  rw [h1]
  dsimp only
  have hb : st.back = none := by
    unfold skip_vector.back skip_vector.empty skip_vector.size
    rw [h2]
    exact h6 _ (by decide)
  rw [hb]

/-- A call of `push_back` with the `int` of `grow` at the end marker `2^31`
leaves the end marker above `2^31`. -/
theorem push_back_int_end_gt (p : Pow2 B H) {v st : skip_vector T} {x : T} {i : Nat}
    (hv : skip_vector.Inv B v) (he : v.m_end = 2 ^ 31)
    (h : skip_vector.push_back_int B v x = some (st, i)) : 2 ^ 31 < st.m_end := by
  by_cases hg : v.m_end &&& skip_vector.block_mask B = 0 ∧ v.m_end = v.m_storage_size
  · obtain ⟨st1, h1, h2, _⟩ := skip_vector.push_back_int_wrap p hv he (by omega) x
    rw [h] at h1
    simp only [Option.some.injEq, Prod.mk.injEq] at h1
    rw [h1.1, h2]
    decide
  · have heq : skip_vector.push_back_int B v x = skip_vector.push_back B v x :=
      skip_vector.push_back_int_eq_of v x (fun h1 h2 => absurd ⟨h1, h2⟩ hg)
    obtain ⟨st1, h1, _, h3, _⟩ := skip_vector.push_back_spec p v hv x
    rw [heq, h1] at h
    simp only [Option.some.injEq, Prod.mk.injEq] at h
    rw [← h.1, h3]
    have := (next_index_gap (B := B) (e := v.m_end)).1
    omega

/-- A state the code reaches with the end marker of the key storage at most
`2^31` is a state reached with the index kept exact, after as many pushes and
pops. -/
theorem ReachableIntN.to_exact (p : Pow2 B H) {compare : T → T → Bool} {q : prio_queue T V}
    {a b : Nat} (h : ReachableIntN B compare q a b) :
    ReachableN B compare q a b ∧ q.m_storage.m_end ≤ 2 ^ 31 := by
  induction h with
  | init_void => exact ⟨ReachableN.init_void, Nat.zero_le _⟩
  | init => exact ⟨ReachableN.init, Nat.zero_le _⟩
  | @push_void q q1 a b k _ hp hb ih =>
    obtain ⟨hr, he⟩ := ih
    have hs := hr.shape p
    refine ⟨?_, hb⟩
    have hlt : q.m_storage.m_end < 2 ^ 31 := by
      rcases Nat.lt_or_ge q.m_storage.m_end (2 ^ 31) with hlt | hge
      · exact hlt
      · exfalso
        unfold push_void_int at hp
        cases hP : q.P with
        | value s => rw [hP] at hp; cases hp
        | void =>
          rw [hP] at hp
          dsimp only at hp
          obtain ⟨st, i, h1, h2, _⟩ := push_key_int_end_cap hp
          have := push_back_int_end_gt p hs.1 (by omega) h1
          omega
    rw [(push_int_eq compare hs hlt).1] at hp
    exact ReachableN.push_void hr hp
  | @push q q1 a b k v _ hp hb ih =>
    obtain ⟨hr, he⟩ := ih
    have hs := hr.shape p
    refine ⟨?_, hb⟩
    have hlt : q.m_storage.m_end < 2 ^ 31 := by
      rcases Nat.lt_or_ge q.m_storage.m_end (2 ^ 31) with hlt | hge
      · exact hlt
      · exfalso
        unfold push_int at hp
        cases hpl : q.P.push_back_int B v with
        | none => rw [hpl] at hp; cases hp
        | some pl =>
          rw [hpl] at hp
          dsimp only at hp
          obtain ⟨st, i, h1, h2, _⟩ := push_key_int_end_cap hp
          have := push_back_int_end_gt p hs.1 (by omega) h1
          omega
    rw [(push_int_eq compare hs hlt).2] at hp
    exact ReachableN.push hr hp
  | @pop q q1 a b _ hp ih =>
    obtain ⟨hr, he⟩ := ih
    have hs := hr.shape p
    obtain ⟨q2, h1, _, h3⟩ := (hs.kept p compare).2.2 (pop_nonempty hp)
    rw [hp] at h1
    cases h1
    exact ⟨ReachableN.pop hr hp, by omega⟩

/-- A list of pushes into a queue without payloads moves the end marker and the
capacity of the key storage as the same list of `push_back` calls moves them in
a vector that starts with the same end marker and capacity. -/
theorem push_list_storage (p : Pow2 B H) (compare : T → T → Bool) (ks : List T) :
    ∀ (q : prio_queue T V) (v : skip_vector T), Shape B q → q.P = payload.void →
      skip_vector.Inv B v → v.m_end = q.m_storage.m_end →
      v.m_storage_size = q.m_storage.m_storage_size →
      ∃ q1 v1, push_list B compare ks q = some q1 ∧
        skip_vector.push_back_list B ks v = some v1 ∧
        Shape B q1 ∧ q1.P = payload.void ∧ skip_vector.Inv B v1 ∧
        v1.m_end = q1.m_storage.m_end ∧
        v1.m_storage_size = q1.m_storage.m_storage_size ∧
        q.m_storage.m_end ≤ q1.m_storage.m_end := by
  induction ks with
  | nil =>
    intro q v hq hP hv he hc
    exact ⟨q, v, rfl, rfl, hq, hP, hv, he, hc, Nat.le_refl _⟩
  | cons k ks ih =>
    intro q v hq hP hv he hc
    obtain ⟨q2, f2, u1, u2, _, _, u5⟩ := push_void_spec p compare (hq.rep (k, none)) hP k
    obtain ⟨v2, h1, h2, h3, _⟩ := skip_vector.push_back_spec p v hv k
    have hk : push_key B compare q k = some q2 := by
      unfold push_void at u1
      rw [hP] at u1
      exact u1
    obtain ⟨st, i, g1, g2, g3⟩ := push_key_end_cap hk
    have c1 := skip_vector.push_back_capacity p q.m_storage hq.1 k g1
    have c2 := skip_vector.push_back_capacity p v hv k h1
    have e2 : v2.m_end = q2.m_storage.m_end := by rw [h3, u2.2.1, he]
    have e3 : v2.m_storage_size = q2.m_storage.m_storage_size := by
      rw [g3, c1, c2, he, hc]
    obtain ⟨q1, v1, r1, r2, r3, r4, r5, r6, r7, r8⟩ := ih q2 v2 u2.1 u5 h2 e2 e3
    refine ⟨q1, v1, ?_, ?_, r3, r4, r5, r6, r7, ?_⟩
    · simp only [push_list, u1]
      exact r1
    · simp only [skip_vector.push_back_list, h1]
      exact r2
    · have := (next_index_gap (B := B) (e := q.m_storage.m_end)).1
      have := u2.2.1
      omega

/-- A list of pushes into a queue without payloads that ends with the end
marker of the key storage at most `2^31` runs the same with the `int` of
`grow`, through states the code reaches. -/
theorem push_list_int_eq (p : Pow2 B H) (compare : T → T → Bool) (ks : List T) :
    ∀ (q q1 : prio_queue T V) (a b : Nat), ReachableIntN B compare q a b →
      q.P = payload.void → push_list B compare ks q = some q1 →
      q1.m_storage.m_end ≤ 2 ^ 31 →
      push_list_int B compare ks q = some q1 ∧ ReachableIntN B compare q1 (a + ks.length) b := by
  induction ks with
  | nil =>
    intro q q1 a b hr _ h _
    simp only [push_list, Option.some.injEq] at h
    subst h
    exact ⟨rfl, hr⟩
  | cons k ks ih =>
    intro q q1 a b hr hP h hb
    have hs := (hr.to_exact p).1.shape p
    obtain ⟨q2, f2, u1, u2, _, _, u5⟩ := push_void_spec p compare (hs.rep (k, none)) hP k
    simp only [push_list, u1] at h
    obtain ⟨q3, v3, r1, _, _, _, _, _, _, r8⟩ := push_list_storage p compare ks q2
      q2.m_storage u2.1 u5 u2.1.1 rfl rfl
    rw [h] at r1
    simp only [Option.some.injEq] at r1
    subst r1
    have hgap := (next_index_gap (B := B) (e := q.m_storage.m_end)).1
    have he2 := u2.2.1
    have hlt : q.m_storage.m_end < 2 ^ 31 := by omega
    have hi : push_void_int B compare q k = some q2 := by
      rw [(push_int_eq compare hs hlt).1, u1]
    obtain ⟨i1, i2⟩ := ih q2 q1 (a + 1) b (ReachableIntN.push_void hr hi (by omega)) u5 h hb
    refine ⟨?_, ?_⟩
    · simp only [push_list_int, hi]
      exact i1
    · simp only [List.length_cons]
      rw [show a + (ks.length + 1) = a + 1 + ks.length by omega]
      exact i2

/-- Block size 16: a list of `2013265920` pushes into an empty queue without
payloads runs as with the index kept exact and fills a key storage of `2^31`
slots to the end. -/
theorem push_list_int_full (compare : T → T → Bool) (ks : List T)
    (hl : ks.length = 2013265920) :
    ∃ q : prio_queue T V, push_list_int 16 compare ks init_void = some q ∧
      ReachableIntN 16 compare q 2013265920 0 ∧ q.P = payload.void ∧
      q.m_storage.m_end = 2 ^ 31 ∧ q.m_storage.m_storage_size = 2 ^ 31 := by
  have p : Pow2 16 8 := ⟨3, rfl, rfl⟩
  obtain ⟨v, _, h2, _, h4, h5⟩ := skip_vector.push_back_list_int_full ks hl
  obtain ⟨q1, v1, r1, r2, _, r4, _, r6, r7, _⟩ := push_list_storage p compare ks
    (init_void : prio_queue T V) skip_vector.init shape_init_void rfl
    (skip_vector.inv_init 16) rfl rfl
  rw [h2] at r2
  simp only [Option.some.injEq] at r2
  subst r2
  obtain ⟨i1, i2⟩ := push_list_int_eq p compare ks init_void q1 0 0 ReachableIntN.init_void
    rfl r1 (by omega)
  rw [Nat.zero_add, hl] at i2
  exact ⟨q1, i1, i2, r4, by omega, by omega⟩

/-- C4 on the code with the `int` of `grow`, block size a power of two, at
least 2, any comparator.  For a queue that the code reaches from a
default-constructed queue by `a` pushes and `b` pops with the end marker of the
key storage at most `2^31`, `size()` is `a - b`; a default-constructed queue
has size 0; with the end marker below `2^31` every push is defined and raises
`size()` by exactly one, and `pop` on a non-empty queue is defined and lowers
it by exactly one, whether or not the storage grows or a block boundary is
crossed.  On a key storage that fills its `2^31` slots, `push` is undefined:
`push_back` leaves the end marker at `2^64 - 2^31 + 2` and `push_key` reads the
slot below it. -/
theorem size_int {T V : Type} (B : Nat) (hB : IsBlockSize B)
    (compare : T → T → Bool) (q : prio_queue T V) (a b : Nat)
    (h : ReachableIntN B compare q a b) :
    b ≤ a ∧ size B q = a - b ∧
    size B (init_void : prio_queue T V) = 0 ∧ size B (init : prio_queue T V) = 0 ∧
    (q.m_storage.m_end < 2 ^ 31 →
      (∀ k, q.P = payload.void →
        ∃ q1, push_void_int B compare q k = some q1 ∧ size B q1 = size B q + 1 ∧
          ReachableIntN B compare q1 (a + 1) b) ∧
      (∀ k v s, q.P = payload.value s →
        ∃ q1, push_int B compare q k v = some q1 ∧ size B q1 = size B q + 1 ∧
          ReachableIntN B compare q1 (a + 1) b)) ∧
    (q.empty = false → ∃ q1, pop B compare q = some q1 ∧ size B q1 + 1 = size B q ∧
      ReachableIntN B compare q1 a (b + 1)) ∧
    (q.m_storage.m_end = 2 ^ 31 → q.m_storage.m_storage_size = 2 ^ 31 →
      (∀ k, push_void_int B compare q k = none) ∧
      (∀ k v, push_int B compare q k v = none)) := by
  have p := hB.pow2
  obtain ⟨hr, hb⟩ := h.to_exact p
  have hs := hr.shape p
  obtain ⟨c1, c2, c3, c4, c5, c6, c7⟩ := size_reachable_exact B hB compare q a b hr
  refine ⟨c1, c2, c3, c4, ?_, ?_, ?_⟩
  · intro hlt
    have hend : ∀ q1 : prio_queue T V,
        q1.m_storage.m_end = skip_vector.next_index B q.m_storage.m_end + 1 →
        q1.m_storage.m_end ≤ 2 ^ 31 := by
      intro q1 he
      rw [he]
      exact skip_vector.next_end_le p hlt
    constructor
    · intro k hP
      obtain ⟨q1, h1, h2⟩ := c5 k hP
      obtain ⟨q2, g1, _, g3⟩ := (hs.kept p compare).1 k hP
      rw [h1] at g1
      simp only [Option.some.injEq] at g1
      subst g1
      have hi : push_void_int B compare q k = some q1 := by
        rw [(push_int_eq compare hs hlt).1, h1]
      exact ⟨q1, hi, h2, ReachableIntN.push_void h hi (hend q1 g3)⟩
    · intro k v s hP
      obtain ⟨q1, h1, h2⟩ := c6 k v s hP
      obtain ⟨q2, g1, _, g3⟩ := (hs.kept p compare).2.1 k v s hP
      rw [h1] at g1
      simp only [Option.some.injEq] at g1
      subst g1
      have hi : push_int B compare q k v = some q1 := by
        rw [(push_int_eq compare hs hlt).2, h1]
      exact ⟨q1, hi, h2, ReachableIntN.push h hi (hend q1 g3)⟩
  · intro hne
    obtain ⟨q1, h1, h2⟩ := c7 hne
    exact ⟨q1, h1, h2, ReachableIntN.pop h h1⟩
  · intro he hc
    constructor
    · intro k
      unfold push_void_int
      cases hP : q.P with
      | void => exact push_key_int_wrap p compare hs.1 he hc k
      | value s => rfl
    · intro k v
      unfold push_int
      cases hpl : q.P.push_back_int B v with
      | none => rfl
      | some pl =>
        exact push_key_int_wrap p compare (q := ⟨q.m_storage, pl⟩) hs.1 he hc k

/-- Witness for C4 on the code with the `int` of `grow`: block size 4 and the
queue holding the key 8; block size 16 and the queue after `2013265920`
pushes. -/
theorem size_int_witness :
    (∃ q : prio_queue Nat Unit, ReachableIntN 4 less_nat q 1 0 ∧ size 4 q = 1 - 0 ∧
      ∃ q1, push_void_int 4 less_nat q 3 = some q1 ∧ size 4 q1 = size 4 q + 1) ∧
    (∃ q : prio_queue Nat Unit,
      push_list_int 16 less_nat (List.replicate 2013265920 0) init_void = some q ∧
      size 16 q = 2013265920 - 0 ∧ push_void_int 16 less_nat q 0 = none) := by
  constructor
  · obtain ⟨q, h1, h2, h3⟩ : ∃ q : prio_queue Nat Unit,
        push_void_int 4 less_nat init_void 8 = some q ∧ q.m_storage.m_end = 2 ∧
          q.P = payload.void :=
      ⟨_, rfl, rfl, rfl⟩
    have hr : ReachableIntN 4 less_nat q 1 0 :=
      ReachableIntN.push_void ReachableIntN.init_void h1 (by rw [h2]; decide)
    have h := size_int 4 isBlockSize_four less_nat q 1 0 hr
    obtain ⟨q1, g1, g2, _⟩ := (h.2.2.2.2.1 (by rw [h2]; decide)).1 3 h3
    exact ⟨q, hr, h.2.1, q1, g1, g2⟩
  · obtain ⟨q, h1, h2, _, h4, h5⟩ := push_list_int_full (V := Unit) less_nat
      (List.replicate 2013265920 (0 : Nat)) (List.length_replicate _ _)
    have h := size_int 16 ⟨by decide, 4, rfl⟩ less_nat q 2013265920 0 h2
    exact ⟨q, h1, h.2.1, (h.2.2.2.2.2.2 h4 h5).1 0⟩

end prio_queue

end rollbear

namespace rollbear

namespace prio_q_internal

namespace skip_vector

open heap_heap_addressing

variable {T : Type} {B H : Nat}

/-! ### Exceptions in `push`: the allocator, the copies, the move and the comparator -/

end skip_vector

end prio_q_internal

namespace prio_queue

open prio_q_internal prio_q_internal.heap_heap_addressing

variable {T V : Type} {B H : Nat}

/-- With a comparator that never throws the sift-up loop is the one of `push_key`. -/
theorem sift_up_exc_never_throws (compare : T → T → Bool) (tmp : T) (val : Option V)
    (fuel : Nat) :
    ∀ (q : prio_queue T V) (hole : Nat),
      sift_up_exc B (never_throws compare) fuel q hole tmp val
        = Ending.of_option (sift_up B compare fuel q hole tmp val) := by
  induction fuel with
  | zero =>
    intro q hole
    unfold sift_up_exc sift_up
    split <;> rfl
  | succ n ih =>
    intro q hole
    unfold sift_up_exc sift_up
    by_cases h1 : hole ≠ 1
    · rw [if_pos h1, if_pos h1]
      dsimp only
      cases hg : q.m_storage.get B (parent_of B hole) with
      | none => rfl
      | some pv =>
        dsimp only [never_throws, sorts_before]
        by_cases hcc : (!compare tmp pv) = true
        · rw [if_pos hcc, if_pos hcc]
        · rw [if_neg hcc, if_neg hcc]
          cases hs : q.m_storage.set B hole pv with
          | none => rfl
          | some st =>
            dsimp only
            cases hm : q.P.move B (parent_of B hole) hole with
            | none => rfl
            | some pl => exact ih _ _
    · rw [if_neg h1, if_neg h1]

/-- When nothing throws, `push_key` in the model with exceptions is `push_key`. -/
theorem push_key_exc_never_throws (p : Pow2 B H) (compare : T → T → Bool)
    {q : prio_queue T V} (hv : skip_vector.Inv B q.m_storage) (k : T) :
    push_key_exc B (never_throws compare) q k false none false
      = Ending.of_option (push_key B compare q k) := by
  obtain ⟨v1, made, h1, h2, _⟩ := skip_vector.push_back_copy_ok p q.m_storage hv k
  unfold push_key_exc push_key
  rw [h1, h2]
  dsimp only
  cases hb : v1.back with
  | none => rfl
  | some tmp =>
    dsimp only
    rw [if_neg (by simp)]
    cases hP : q.P.back with
    | none => rfl
    | some val => exact sift_up_exc_never_throws compare tmp val _ _ _

end prio_queue

end rollbear
